import Mathlib

set_option maxRecDepth 2000

/-!
Verification of the godot_parser library: a shallow embedding of the
value grammar (values.py, util.py, objects.py), the section and file
models (sections.py, files.py) and the scene tree builder (tree.py),
with theorems settling the frozen claims about the specification.

Python values are modelled by the inductive type GDValue; Python
OrderedDict instances become association lists with insertion-order
update semantics; machine-level aliasing is replaced by explicit value
passing.  Fallible Python code (exceptions) returns Option or Except.
-/

namespace GodotParser

/-- A Godot value: the tagged union produced by the value grammar in
values.py.  Numbers are modelled as integers (the exact-int part of the
grammar); object literals cover GDObject and all its registered
subclasses (Vector2, Color, NodePath, ExtResource, SubResource), which
share the same name/args representation (objects.py).  The typed-array
constructor mirrors the Array[T](...) branch of the grammar. -/
inductive GDValue where
  | null : GDValue
  | bool (b : Bool) : GDValue
  | int (n : Int) : GDValue
  | str (s : String) : GDValue
  | list (xs : List GDValue) : GDValue
  | dict (xs : List (String × GDValue)) : GDValue
  | obj (name : String) (args : List GDValue) : GDValue
  | tarr (elemType : String) (xs : List GDValue) : GDValue

mutual

/-- Structural equality of values (GDObject.__eq__ compares name and
args; lists, dicts and primitives compare elementwise). -/
def beqV : GDValue → GDValue → Bool
  | .null, .null => true
  | .bool a, .bool b => a = b
  | .int a, .int b => a = b
  | .str a, .str b => a = b
  | .list a, .list b => beqL a b
  | .dict a, .dict b => beqP a b
  | .obj n a, .obj m b => n = m && beqL a b
  | .tarr t a, .tarr u b => t = u && beqL a b
  | _, _ => false

/-- Elementwise equality of value lists. -/
def beqL : List GDValue → List GDValue → Bool
  | [], [] => true
  | a :: as_, b :: bs => beqV a b && beqL as_ bs
  | _, _ => false

/-- Elementwise equality of keyed value lists. -/
def beqP : List (String × GDValue) → List (String × GDValue) → Bool
  | [], [] => true
  | (k, a) :: as_, (l, b) :: bs => k = l && beqV a b && beqP as_ bs
  | _, _ => false

end

mutual

theorem beqV_iff : ∀ a b : GDValue, beqV a b = true ↔ a = b
  | .null, b => by cases b <;> simp [beqV]
  | .bool x, b => by cases b <;> simp [beqV]
  | .int x, b => by cases b <;> simp [beqV]
  | .str x, b => by cases b <;> simp [beqV]
  | .list xs, b => by
      cases b <;> simp [beqV]
      exact beqL_iff xs _
  | .dict xs, b => by
      cases b <;> simp [beqV]
      exact beqP_iff xs _
  | .obj n xs, b => by
      cases b <;> simp [beqV]
      intro _
      exact beqL_iff xs _
  | .tarr t xs, b => by
      cases b <;> simp [beqV]
      intro _
      exact beqL_iff xs _

theorem beqL_iff : ∀ a b : List GDValue, beqL a b = true ↔ a = b
  | [], b => by cases b <;> simp [beqL]
  | x :: xs, b => by
      cases b <;> simp [beqL]
      rw [beqV_iff, beqL_iff]

theorem beqP_iff : ∀ a b : List (String × GDValue), beqP a b = true ↔ a = b
  | [], b => by cases b <;> simp [beqP]
  | (k, x) :: xs, b => by
      cases b with
      | nil => simp [beqP]
      | cons hd tl =>
          obtain ⟨l, y⟩ := hd
          simp only [beqP, Bool.and_eq_true, decide_eq_true_eq, beqV_iff x y,
            beqP_iff xs tl, List.cons.injEq, Prod.mk.injEq]

end

instance : DecidableEq GDValue := fun a b =>
  decidable_of_iff (beqV a b = true) (beqV_iff a b)

namespace GDValue

/-- Shorthand for an ExtResource reference object (objects.py ExtResource). -/
def extRef (n : Int) : GDValue := .obj "ExtResource" [.int n]

/-- Shorthand for a SubResource reference object (objects.py SubResource). -/
def subRef (n : Int) : GDValue := .obj "SubResource" [.int n]

end GDValue

/-! ## Ordered-dictionary association lists

Python OrderedDict semantics: assignment to an existing key updates the
value in place (keeping its position), assignment to a new key appends,
deletion removes the key.  Keys are Strings throughout the library. -/

/-- Look up a key in an association list (OrderedDict.get / __getitem__). -/
def odGet (l : List (String × GDValue)) (k : String) : Option GDValue :=
  match l with
  | [] => none
  | (k0, v0) :: rest => if k0 = k then some v0 else odGet rest k

/-- Set a key in an association list with OrderedDict update semantics:
update in place if present, append otherwise. -/
def odSet (l : List (String × GDValue)) (k : String) (v : GDValue) :
    List (String × GDValue) :=
  match l with
  | [] => [(k, v)]
  | (k0, v0) :: rest =>
      if k0 = k then (k0, v) :: rest else (k0, v0) :: odSet rest k v

/-- Delete a key from an association list; deleting an absent key is a
no-op (the library catches KeyError and passes). -/
def odDel (l : List (String × GDValue)) (k : String) : List (String × GDValue) :=
  match l with
  | [] => []
  | (k0, v0) :: rest => if k0 = k then rest else (k0, v0) :: odDel rest k

/-- Membership of a key in an association list. -/
def odHas (l : List (String × GDValue)) (k : String) : Bool :=
  (odGet l k).isSome

/-! ## Serialization of values (util.stringify_object and the
object __str__ methods in objects.py) -/

/-- The decimal digit character of a value below ten. -/
def digitChar (n : Nat) : Char := Char.ofNat (48 + n)

/-- The decimal digits of a natural number, most significant first,
driven by a budget that bounds the number of digits. -/
def natDigitsAux : Nat → Nat → List Char
  | 0, _ => []
  | fuel + 1, n =>
      if n < 10 then [digitChar n]
      else natDigitsAux fuel (n / 10) ++ [digitChar (n % 10)]

/-- The decimal digits of a natural number, most significant first
(n + 1 bounds the digit count). -/
def natDigits (n : Nat) : List Char := natDigitsAux (n + 1) n

/-- Python str() of a non-negative integer. -/
def natStr (n : Nat) : String := String.mk (natDigits n)

/-- Python str() of an integer. -/
def intStr (n : Int) : String :=
  if n < 0 then "-" ++ natStr n.natAbs else natStr n.natAbs

mutual

/-- util.stringify_object: serialize a value to the Godot file format.
The dispatch order mirrors the Python isinstance chain: None, str, bool,
dict, list, and finally str(value), which for GDObject instances invokes
the object __str__ method.  NodePath overrides __str__ to render its
first argument inside quotes; every other object renders as
name( args ).  A typed array renders as Array[T](list); modelled from
the spec (the GDTypedArray class itself is referenced by values.py but
absent from the sources). -/
def stringifyValue : GDValue → String
  | .null => "null"
  | .str s => "\"" ++ s ++ "\""
  | .bool b => if b then "true" else "false"
  | .int n => intStr n
  | .dict xs => "\x7b\n" ++ stringifyPairs xs ++ "\n\x7d"
  | .list xs => "[ " ++ stringifyArgs xs ++ " ]"
  | .obj name args =>
      match name, args with
      | "NodePath", [.str p] => "NodePath(\"" ++ p ++ "\")"
      | "NodePath", [.int n] => "NodePath(\"" ++ intStr n ++ "\")"
      | _, _ => name ++ "( " ++ stringifyArgs args ++ " )"
  | .tarr t xs => "Array[" ++ t ++ "]([ " ++ stringifyArgs xs ++ " ])"

/-- Comma-join of serialized values (list elements and object args). -/
def stringifyArgs : List GDValue → String
  | [] => ""
  | [v] => stringifyValue v
  | v :: rest => stringifyValue v ++ ", " ++ stringifyArgs rest

/-- Comma-newline join of serialized dict entries. -/
def stringifyPairs : List (String × GDValue) → String
  | [] => ""
  | [(k, v)] => "\"" ++ k ++ "\": " ++ stringifyValue v
  | (k, v) :: rest =>
      "\"" ++ k ++ "\": " ++ stringifyValue v ++ ",\n" ++ stringifyPairs rest

end

/-! ## Section model (sections.py) -/

/-- GDSectionHeader: a section kind name plus its insertion-ordered
attribute map. -/
structure GDSectionHeader where
  name : String
  attributes : List (String × GDValue)
  deriving DecidableEq

/-- GDSection: a header plus the insertion-ordered property map.  The
Python subclasses (ext_resource, sub_resource, node, resource) are
behavioral views over this same data, dispatched on the header name;
their typed accessors are modelled as free functions below. -/
structure GDSection where
  header : GDSectionHeader
  properties : List (String × GDValue)
  deriving DecidableEq

namespace GDSection

/-- Header attribute lookup through a section (header.get). -/
def attr (s : GDSection) (k : String) : Option GDValue :=
  odGet s.header.attributes k

/-- Replace the attribute map of a section. -/
def withAttrs (s : GDSection) (a : List (String × GDValue)) : GDSection :=
  { s with header := { s.header with attributes := a } }

/-- Set one header attribute (header.__setitem__). -/
def setAttr (s : GDSection) (k : String) (v : GDValue) : GDSection :=
  s.withAttrs (odSet s.header.attributes k v)

/-- Delete one header attribute; absent keys are ignored
(header.__delitem__ catches KeyError). -/
def delAttr (s : GDSection) (k : String) : GDSection :=
  s.withAttrs (odDel s.header.attributes k)

/-- The id attribute of an ext_resource / sub_resource section
(GDExtResourceSection.id / GDSubResourceSection.id); reading a missing
attribute raises KeyError in Python, hence Option. -/
def idAttr (s : GDSection) : Option GDValue := s.attr "id"

/-- Set the id attribute (the id setters write header["id"]). -/
def setId (s : GDSection) (n : Int) : GDSection := s.setAttr "id" (.int n)

end GDSection

/-- GDExtResourceSection(path, type, id): an [ext_resource] section with
the three header attributes in constructor order and an empty body. -/
def mkExtResourceSection (path ty : String) (id : Int) : GDSection :=
  ⟨⟨"ext_resource", [("path", .str path), ("type", .str ty), ("id", .int id)]⟩, []⟩

/-- GDSubResourceSection(type, id, **kwargs): a [sub_resource] section
with type and id header attributes and the keyword arguments as body
properties. -/
def mkSubResourceSection (ty : String) (id : Int)
    (props : List (String × GDValue)) : GDSection :=
  ⟨⟨"sub_resource", [("type", .str ty), ("id", .int id)]⟩, props⟩

/-- GDNodeSection.__init__: builds the kwargs dict in order
name, type, parent, instance, index, drops the None entries, and stores
the result as header attributes.  The instance argument is wrapped in
an ExtResource literal and the index is stored as its decimal string
(str(index)). -/
def mkNodeSection (name : String) (ty : Option String) (parent : Option String)
    (inst : Option Int) (index : Option Int) : GDSection :=
  ⟨⟨"node",
    [("name", GDValue.str name)]
      ++ (match ty with | some t => [("type", GDValue.str t)] | none => [])
      ++ (match parent with | some p => [("parent", GDValue.str p)] | none => [])
      ++ (match inst with | some i => [("instance", GDValue.extRef i)] | none => [])
      ++ (match index with | some i => [("index", GDValue.str (intStr i))] | none => [])⟩,
    []⟩

/-- GDNodeSection.ext_node(name, instance, parent, index). -/
def mkExtNodeSection (name : String) (inst : Int) (parent : Option String)
    (index : Option Int) : GDSection :=
  mkNodeSection name none parent (some inst) index

namespace GDSection

/-- GDNodeSection.type getter: header.get("type"). -/
def nodeType (s : GDSection) : Option GDValue := s.attr "type"

/-- GDNodeSection.parent getter: header.get("parent"). -/
def nodeParent (s : GDSection) : Option GDValue := s.attr "parent"

/-- GDNodeSection.instance getter: reads the ExtResource stored in the
instance attribute and returns its id (the first argument); None when
the attribute is absent. -/
def nodeInstance (s : GDSection) : Option GDValue :=
  match s.attr "instance" with
  | some (.obj _ (a :: _)) => some a
  | _ => none

/-- GDNodeSection.instance setter: None deletes the attribute; a value
stores ExtResource(value) and then assigns type = None, which deletes
the type attribute. -/
def nodeSetInstance (s : GDSection) (inst : Option GDValue) : GDSection :=
  match inst with
  | none => s.delAttr "instance"
  | some i => ((s.setAttr "instance" (.obj "ExtResource" [i])).delAttr "type")

/-- GDNodeSection.type setter: None deletes the attribute; a value
stores it and then assigns instance = None, which deletes the instance
attribute. -/
def nodeSetType (s : GDSection) (ty : Option GDValue) : GDSection :=
  match ty with
  | none => s.delAttr "type"
  | some t => ((s.setAttr "type" t).delAttr "instance")

/-- GDNodeSection.name setter. -/
def nodeSetName (s : GDSection) (n : String) : GDSection :=
  s.setAttr "name" (.str n)

/-- GDNodeSection.parent setter: None deletes, otherwise stores. -/
def nodeSetParent (s : GDSection) (p : Option GDValue) : GDSection :=
  match p with
  | none => s.delAttr "parent"
  | some v => s.setAttr "parent" v

/-- GDNodeSection.index setter: None deletes, otherwise stores
str(index). -/
def nodeSetIndex (s : GDSection) (i : Option Int) : GDSection :=
  match i with
  | none => s.delAttr "index"
  | some n => s.setAttr "index" (.str (intStr n))

end GDSection

/-! ## File model (files.py) -/

/-- The canonical kind order observed in scene and resource files
(files.py SCENE_ORDER). -/
def SCENE_ORDER : List String :=
  ["gd_scene", "gd_resource", "ext_resource", "sub_resource", "resource",
   "node", "connection", "editable"]

/-- list.index with Option result (list.index raises ValueError when the
item is absent). -/
def orderIdxIn : List String → String → Option Nat
  | [], _ => none
  | x :: rest, n =>
      if x = n then some 0 else (orderIdxIn rest n).map (· + 1)

/-- SCENE_ORDER.index of a section kind name. -/
def sceneOrderIdx (n : String) : Option Nat := orderIdxIn SCENE_ORDER n

/-- GDFile: the ordered section list. -/
structure GDFile where
  sections : List GDSection
  deriving DecidableEq

namespace GDFile

/-- The scan loop of GDFile.add_section: walk the existing sections,
computing SCENE_ORDER.index of each (a ValueError — None — when a kind
is unknown), and insert the new section before the first section whose
kind order exceeds the new section's; append when no such section is
reached.  Returns the updated list and the insertion index. -/
def insertScan (newIdx : Nat) (s : GDSection) :
    List GDSection → Option (List GDSection × Nat)
  | [] => some ([s], 0)
  | sec :: rest =>
      match sceneOrderIdx sec.header.name with
      | none => none
      | some idx =>
          if newIdx < idx then some (s :: sec :: rest, 0)
          else (insertScan newIdx s rest).map (fun p => (sec :: p.1, p.2 + 1))

/-- GDFile.add_section: canonical-order insertion; fails (ValueError)
when the new section's kind, or a scanned existing section's kind, is
not in SCENE_ORDER. -/
def addSection (f : GDFile) (s : GDSection) : Option (GDFile × Nat) :=
  match sceneOrderIdx s.header.name with
  | none => none
  | some ni => (insertScan ni s f.sections).map (fun p => (⟨p.1⟩, p.2))

/-- list.pop(index): remove and return the element at an index; IndexError
(None) when out of range. -/
def popAt : List GDSection → Nat → Option (GDSection × List GDSection)
  | [], _ => none
  | x :: rest, 0 => some (x, rest)
  | x :: rest, n + 1 => (popAt rest n).map (fun p => (p.1, x :: p.2))

/-- GDFile.remove_at: plain pop without bookkeeping. -/
def removeAt (f : GDFile) (i : Nat) : Option (GDSection × GDFile) :=
  (popAt f.sections i).map (fun p => (p.1, ⟨p.2⟩))

/-- The index of the first section structurally equal to the given one
(the scan in GDFile.remove_section). -/
def findEqIdx (s : GDSection) : List GDSection → Option Nat
  | [] => none
  | x :: rest =>
      if x = s then some 0 else (findEqIdx s rest).map (· + 1)

/-- GDFile.get_sections(name): all sections with the given header name. -/
def getSections (f : GDFile) (name : String) : List GDSection :=
  f.sections.filter (fun s => s.header.name = name)

/-- GDFile.get_nodes(). -/
def getNodes (f : GDFile) : List GDSection := f.getSections "node"

/-- GDFile.get_ext_resources(). -/
def getExtResources (f : GDFile) : List GDSection := f.getSections "ext_resource"

/-- GDFile.get_sub_resources(). -/
def getSubResources (f : GDFile) : List GDSection := f.getSections "sub_resource"

end GDFile

/-! ## GDCommonFile: load_steps bookkeeping (files.py GDCommonFile) -/

namespace GDFile

/-- Number of ext_resource sections. -/
def extCount (f : GDFile) : Nat := f.getExtResources.length

/-- Number of sub_resource sections. -/
def subCount (f : GDFile) : Nat := f.getSubResources.length

/-- The load_steps property getter: self._sections[0].header["load_steps"];
IndexError on an empty file and KeyError on a missing attribute are both
None. -/
def loadSteps (f : GDFile) : Option GDValue :=
  match f.sections with
  | [] => none
  | root :: _ => odGet root.header.attributes "load_steps"

/-- The load_steps property setter: writes the attribute on the first
section; IndexError (None) on an empty file. -/
def setLoadSteps (f : GDFile) (n : Int) : Option GDFile :=
  match f.sections with
  | [] => none
  | root :: rest => some ⟨(root.setAttr "load_steps" (.int n)) :: rest⟩

/-- self.load_steps += d: read the current value (failing when the file
is empty, the attribute is missing, or it is not an integer) and write
back the sum. -/
def bumpLoadSteps (f : GDFile) (d : Int) : Option GDFile :=
  match f.loadSteps with
  | some (.int n) => f.setLoadSteps (n + d)
  | _ => none

/-- GDCommonFile.add_section: the base insertion followed by a
load_steps increment when the new section is an ext_resource or
sub_resource. -/
def commonAddSection (f : GDFile) (s : GDSection) : Option (GDFile × Nat) :=
  match f.addSection s with
  | none => none
  | some (f1, i) =>
      if s.header.name = "ext_resource" ∨ s.header.name = "sub_resource" then
        (f1.bumpLoadSteps 1).map (fun f2 => (f2, i))
      else some (f1, i)

/-- GDCommonFile.remove_at: pop the section at the index and decrement
load_steps when it was an ext_resource or sub_resource. -/
def commonRemoveAt (f : GDFile) (i : Nat) : Option GDFile :=
  match f.removeAt i with
  | none => none
  | some (sec, f1) =>
      if sec.header.name = "ext_resource" ∨ sec.header.name = "sub_resource" then
        f1.bumpLoadSteps (-1)
      else some f1

/-- GDFile.remove_section on a common file: find the first structurally
equal section; when absent return the file unchanged (the method
returns False); otherwise remove through remove_at. -/
def commonRemoveSection (f : GDFile) (s : GDSection) : Option GDFile :=
  match findEqIdx s f.sections with
  | none => some f
  | some i => f.commonRemoveAt i

/-- Collect the integer ids of a section list; Python evaluates
[s.id for s in sections] (KeyError on a missing id) and max() (TypeError
on non-integers), so any failure is None. -/
def intIdsOf : List GDSection → Option (List Int)
  | [] => some []
  | s :: rest =>
      match s.idAttr with
      | some (.int n) => (intIdsOf rest).map (fun l => n :: l)
      | _ => none

/-- 1 + max(ids + [0]): the next sequential resource id. -/
def nextResId (ss : List GDSection) : Option Int :=
  (intIdsOf ss).map (fun l => 1 + l.foldl max 0)

/-- GDFile.add_ext_resource(path, type): assign the next ext id, build
the section, insert it. -/
def addExtResource (f : GDFile) (path ty : String) : Option GDFile :=
  match nextResId f.getExtResources with
  | none => none
  | some i => (f.commonAddSection (mkExtResourceSection path ty i)).map (·.1)

/-- GDFile.add_sub_resource(type, **kwargs): assign the next sub id,
build the section, insert it. -/
def addSubResource (f : GDFile) (ty : String)
    (props : List (String × GDValue)) : Option GDFile :=
  match nextResId f.getSubResources with
  | none => none
  | some i => (f.commonAddSection (mkSubResourceSection ty i props)).map (·.1)

/-- GDFile.add_node(name, type, parent, index). -/
def addNode (f : GDFile) (name : String) (ty : Option String)
    (parent : Option String) (index : Option Int) : Option GDFile :=
  (f.commonAddSection (mkNodeSection name ty parent none index)).map (·.1)

/-- GDFile.add_ext_node(name, instance, parent, index). -/
def addExtNode (f : GDFile) (name : String) (inst : Int)
    (parent : Option String) (index : Option Int) : Option GDFile :=
  (f.commonAddSection (mkExtNodeSection name inst parent index)).map (·.1)

end GDFile

/-- GDCommonFile.__init__(name, *sections): prepend the root section
with load_steps=1 and format=2, then set load_steps to
1 + ext count + sub count. -/
def mkCommonFile (name : String) (sections : List GDSection) : GDFile :=
  let root : GDSection :=
    ⟨⟨name, [("load_steps", .int 1), ("format", .int 2)]⟩, []⟩
  let f : GDFile := ⟨root :: sections⟩
  ⟨(root.setAttr "load_steps" (.int (1 + (f.extCount + f.subCount : Nat)))) ::
    sections⟩

/-- GDScene(*sections). -/
def mkScene (sections : List GDSection) : GDFile := mkCommonFile "gd_scene" sections

/-- GDResource(*sections). -/
def mkResource (sections : List GDSection) : GDFile :=
  mkCommonFile "gd_resource" sections

/-! ## Mutating operation sequences on a common file (claim C2) -/

/-- The mutating file operations named by the specification. -/
inductive FileOp where
  | addSection (s : GDSection)
  | addExtResource (path ty : String)
  | addSubResource (ty : String) (props : List (String × GDValue))
  | addNode (name : String) (ty parent : Option String) (index : Option Int)
  | addExtNode (name : String) (inst : Int) (parent : Option String)
      (index : Option Int)
  | removeSection (s : GDSection)
  | removeAt (i : Nat)

/-- Apply one operation through the GDCommonFile API. -/
def applyOp (f : GDFile) : FileOp → Option GDFile
  | .addSection s => (f.commonAddSection s).map (·.1)
  | .addExtResource p t => f.addExtResource p t
  | .addSubResource t props => f.addSubResource t props
  | .addNode n t p i => f.addNode n t p i
  | .addExtNode n inst p i => f.addExtNode n inst p i
  | .removeSection s => f.commonRemoveSection s
  | .removeAt i => f.commonRemoveAt i

/-- Apply a sequence of operations, failing when any of them raises. -/
def applyOps (f : GDFile) : List FileOp → Option GDFile
  | [] => some f
  | op :: rest => (applyOp f op).bind (fun f1 => applyOps f1 rest)

/-- Whether a section kind is a root header kind. -/
def rootKindB (n : String) : Bool := n = "gd_scene" || n = "gd_resource"

/-- The load_steps invariant of a scene or resource file: the first
section is a root header whose load_steps attribute equals
1 + ext_resource count + sub_resource count. -/
def stepsInv (f : GDFile) : Bool :=
  match f.sections with
  | [] => false
  | root :: _ =>
      rootKindB root.header.name &&
      odGet root.header.attributes "load_steps"
        = some (.int (1 + (f.extCount + f.subCount : Nat)))

/-- Operations that neither insert a second root header section nor
remove the first (root) section. -/
def opSafe : FileOp → Bool
  | .addSection s => !rootKindB s.header.name
  | .removeSection s => !rootKindB s.header.name
  | .removeAt i => decide (1 ≤ i)
  | _ => true

/-! ## Resource reference walk (files.py _iter_node_resource_references) -/

mutual

/-- iter_resources: yield ExtResource / SubResource instances without
descending into their args; descend elementwise into lists, into dict
values, and into the args of every other object literal.  Primitives
yield nothing; typed arrays are not among the walked composite shapes. -/
def iterRes : GDValue → List GDValue
  | .obj n args =>
      if n = "ExtResource" ∨ n = "SubResource" then [.obj n args]
      else iterResL args
  | .list xs => iterResL xs
  | .dict xs => iterResD xs
  | _ => []

/-- iter_resources over the elements of a list value. -/
def iterResL : List GDValue → List GDValue
  | [] => []
  | v :: rest => iterRes v ++ iterResL rest

/-- iter_resources over the values of a dict in insertion order. -/
def iterResD : List (String × GDValue) → List GDValue
  | [] => []
  | (_, v) :: rest => iterRes v ++ iterResD rest

end

/-- Whether a yielded reference is of the given reference class
(isinstance against ExtResource or SubResource). -/
def refKind (r : GDValue) (refName : String) : Bool :=
  match r with
  | .obj n _ => n = refName
  | _ => false

/-- The id of a reference object: its first argument (reading it from
an argless object raises IndexError, hence Option). -/
def refIdOf (r : GDValue) : Option GDValue :=
  match r with
  | .obj _ (a :: _) => some a
  | _ => none

/-! ## remove_unused_resources (files.py) -/

/-- Insert into the old-to-new id dictionary with Python dict overwrite
semantics. -/
def idMapSet (m : List (GDValue × Int)) (k : GDValue) (v : Int) :
    List (GDValue × Int) :=
  match m with
  | [] => [(k, v)]
  | (k0, v0) :: rest =>
      if k0 = k then (k0, v) :: rest else (k0, v0) :: idMapSet rest k v

/-- Dictionary lookup in the old-to-new id map. -/
def idMapGet (m : List (GDValue × Int)) (k : GDValue) : Option Int :=
  match m with
  | [] => none
  | (k0, v0) :: rest => if k0 = k then some v0 else idMapGet rest k

/-- The failure modes of renumber_resource_ids: refError is the
GodotFileException raised on a dangling reference whose id is an
integer; fmtError is the TypeError raised while building that
exception's message when the dangling id is not an integer (the
"Unknown resource ID %d" format rejects a non-int); keyError covers
the KeyError of reading a missing section id and the IndexError of
reading the id of an argument-less reference. -/
inductive RnErr where
  | refError
  | keyError
  | fmtError
  deriving DecidableEq

/-- The map-building loop of _renumber_resource_ids: for the i-th
section of the kind, record old id → i+1 (reading a missing id raises
KeyError). -/
def buildIdMap (i : Nat) (m : List (GDValue × Int)) :
    List GDSection → Except RnErr (List (GDValue × Int))
  | [] => .ok m
  | s :: rest =>
      match s.idAttr with
      | none => .error .keyError
      | some a => buildIdMap (i + 1) (idMapSet m a (i + 1)) rest

/-- The id-assignment part of the same loop: the i-th section of the
kind receives id i+1; other sections are untouched. -/
def renumberSectionIds (secKind : String) (i : Nat) :
    List GDSection → List GDSection
  | [] => []
  | s :: rest =>
      if s.header.name = secKind then
        s.setId (Int.ofNat (i + 1)) :: renumberSectionIds secKind (i + 1) rest
      else s :: renumberSectionIds secKind i rest

mutual

/-- The reference-rewriting pass over one value: a reference of the
renumbered class has its id (first argument) pushed through the id map —
a missing map entry is the dangling-reference failure, raising the
GodotFileException when the id is an integer and the TypeError of the
"%d" message formatting otherwise, and a reference without arguments
fails reading its id; a reference of the other class is yielded
untouched without descending into its args; lists, dict values and
other object args are rewritten recursively; primitives and typed
arrays are untouched, matching the walk. -/
def rnV (refName : String) (m : List (GDValue × Int)) : GDValue → Except RnErr GDValue
  | .obj n args =>
      if n = "ExtResource" ∨ n = "SubResource" then
        if n = refName then
          match args with
          | a :: rest =>
              match idMapGet m a with
              | some j => .ok (.obj n (.int j :: rest))
              | none =>
                  match a with
                  | .int _ => .error .refError
                  | _ => .error .fmtError
          | [] => .error .keyError
        else .ok (.obj n args)
      else (rnL refName m args).map (.obj n ·)
  | .list xs => (rnL refName m xs).map .list
  | .dict xs => (rnD refName m xs).map .dict
  | v => .ok v

/-- Reference rewriting over list elements. -/
def rnL (refName : String) (m : List (GDValue × Int)) :
    List GDValue → Except RnErr (List GDValue)
  | [] => .ok []
  | v :: rest =>
      match rnV refName m v with
      | .error e => .error e
      | .ok w => (rnL refName m rest).map (w :: ·)

/-- Reference rewriting over dict entries (values only). -/
def rnD (refName : String) (m : List (GDValue × Int)) :
    List (String × GDValue) → Except RnErr (List (String × GDValue))
  | [] => .ok []
  | (k, v) :: rest =>
      match rnV refName m v with
      | .error e => .error e
      | .ok w => (rnD refName m rest).map ((k, w) :: ·)

end

/-- Reference rewriting over one section: node sections have their
header attributes and properties rewritten, resource sections their
properties; every other section is untouched (the walk only reaches
nodes and resource sections). -/
def rnSection (refName : String) (m : List (GDValue × Int)) (s : GDSection) :
    Except RnErr GDSection :=
  if s.header.name = "node" then
    match rnD refName m s.header.attributes with
    | .error e => .error e
    | .ok a =>
        (rnD refName m s.properties).map
          (fun p => ⟨⟨s.header.name, a⟩, p⟩)
  else if s.header.name = "resource" then
    (rnD refName m s.properties).map (fun p => ⟨s.header, p⟩)
  else .ok s

/-- Reference rewriting over a section list. -/
def rnSections (refName : String) (m : List (GDValue × Int)) :
    List GDSection → Except RnErr (List GDSection)
  | [] => .ok []
  | s :: rest =>
      match rnSection refName m s with
      | .error e => .error e
      | .ok t => (rnSections refName m rest).map (t :: ·)

/-- _renumber_resource_ids for one kind: build the old-to-new map and
assign sequential ids to the kind's sections, then rewrite every walked
reference of the class through the map. -/
def renumberPass (f : GDFile) (secKind refName : String) : Except RnErr GDFile :=
  match buildIdMap 0 [] (f.getSections secKind) with
  | .error e => .error e
  | .ok m =>
      (rnSections refName m (renumberSectionIds secKind 0 f.sections)).map
        (fun l => ⟨l⟩)

/-- renumber_resource_ids(): the ext_resource pass then the
sub_resource pass. -/
def renumberResourceIds (f : GDFile) : Except RnErr GDFile :=
  (renumberPass f "ext_resource" "ExtResource").bind
    (fun f1 => renumberPass f1 "sub_resource" "SubResource")

/-! ## Scene tree model (tree.py)

The Python Node holds mutable fields _name, _type, _instance, _index,
section, properties, _children and _inherited_node; the parent pointer
is represented here implicitly (a node is the root of a flatten call
exactly when its path argument is None, which coincides with
self.parent is None at every call site).  Aliasing mutation is replaced
by explicit reconstruction of the tree. -/

/-- path.split("/") over the characters of the string: the accumulator
holds the current piece reversed. -/
def splitSlashAux : List Char → List Char → List String
  | [], acc => [String.mk acc.reverse]
  | c :: rest, acc =>
      if c = '/' then String.mk acc.reverse :: splitSlashAux rest []
      else splitSlashAux rest (c :: acc)

/-- Python str.split("/"): "" yields [""], separators delimit possibly
empty pieces. -/
def splitSlash (s : String) : List String := splitSlashAux s.data []

/-- The ephemeral tree node (tree.py Node). -/
inductive TNode where
  | mk (name : String) (ty : Option GDValue) (inst : Option GDValue)
      (idx : Option Int) (sec : GDSection)
      (props : List (String × GDValue))
      (children : List TNode) (inh : Option TNode)

namespace TNode

/-- The _name field. -/
def name : TNode → String
  | .mk a _ _ _ _ _ _ _ => a

/-- The _type field (raw, without inheritance resolution). -/
def ty : TNode → Option GDValue
  | .mk _ a _ _ _ _ _ _ => a

/-- The _instance field (raw, without inheritance resolution). -/
def inst : TNode → Option GDValue
  | .mk _ _ a _ _ _ _ _ => a

/-- The _index field. -/
def idx : TNode → Option Int
  | .mk _ _ _ a _ _ _ _ => a

/-- The backing GDNodeSection. -/
def sec : TNode → GDSection
  | .mk _ _ _ _ a _ _ _ => a

/-- The local property overrides. -/
def props : TNode → List (String × GDValue)
  | .mk _ _ _ _ _ a _ _ => a

/-- The owned children. -/
def children : TNode → List TNode
  | .mk _ _ _ _ _ _ a _ => a

/-- The _inherited_node snapshot link. -/
def inh : TNode → Option TNode
  | .mk _ _ _ _ _ _ _ a => a

/-- Replace the property overrides. -/
def withProps : TNode → List (String × GDValue) → TNode
  | .mk a b c d e _ g h, p => .mk a b c d e p g h

/-- Replace the backing section. -/
def withSec : TNode → GDSection → TNode
  | .mk a b c d _ f g h, s => .mk a b c d s f g h

/-- Replace the children list. -/
def withChildren : TNode → List TNode → TNode
  | .mk a b c d e f _ h, cs => .mk a b c d e f cs h

/-- Replace the _index field. -/
def withIdx : TNode → Option Int → TNode
  | .mk a b c _ e f g h, i => .mk a b c i e f g h

/-- Replace the _inherited_node link. -/
def withInh : TNode → Option TNode → TNode
  | .mk a b c d e f g _, i => .mk a b c d e f g i

/-- The Node.type property getter: resolves through the inherited
snapshot when present. -/
def typeGet : TNode → Option GDValue
  | .mk _ t _ _ _ _ _ inh0 =>
      match inh0 with
      | some i => typeGet i
      | none => t

/-- The Node.instance property getter: resolves through the inherited
snapshot when present. -/
def instGet : TNode → Option GDValue
  | .mk _ _ ins _ _ _ _ inh0 =>
      match inh0 with
      | some i => instGet i
      | none => ins

/-- Node.get(k): own overrides first, then the chain of inherited
snapshots. -/
def propGet : TNode → String → Option GDValue
  | .mk _ _ _ _ _ pr _ inh0, k =>
      match odGet pr k with
      | some v => some v
      | none =>
          match inh0 with
          | some i => propGet i k
          | none => none

/-- Node.__setitem__: when the node is inherited and the new value
equals the nearest inherited value, the local override is deleted;
otherwise the override is stored. -/
def setProp (n : TNode) (k : String) (v : GDValue) : TNode :=
  match n.inh with
  | some i =>
      if propGet i k = some v then n.withProps (odDel n.props k)
      else n.withProps (odSet n.props k v)
  | none => n.withProps (odSet n.props k v)

/-- Node.__delitem__. -/
def delProp (n : TNode) (k : String) : TNode :=
  n.withProps (odDel n.props k)

/-- Node.has_changes: whether any local override is present. -/
def hasChanges (n : TNode) : Bool := !n.props.isEmpty

/-- Node._mark_inherited: snapshot the resolved state into a clone that
takes over the old inherited link, then clear the local state (the
properties, the raw type and instance, and the backing section, which is
replaced by a fresh GDNodeSection of the same name); the _index field
and the children are untouched. -/
def markInherited (n : TNode) : TNode :=
  let clone : TNode :=
    .mk n.name (typeGet n) (instGet n) none
      (mkNodeSection n.name none none none none) n.props [] n.inh
  .mk n.name none none n.idx (mkNodeSection n.name none none none none)
    [] n.children (some clone)

/-- Node.from_section: the section must carry a string name attribute
(a missing name raises KeyError in Python). -/
def fromSection (s : GDSection) : Option TNode :=
  match s.attr "name" with
  | some (.str nm) =>
      some (.mk nm s.nodeType s.nodeInstance none s s.properties [] none)
  | _ => none

/-- Node._update_section: write the node state into the backing section
in the Python assignment order (name, type, parent, instance,
properties, index — the index only when assigned). -/
def updateSection (n : TNode) (path : Option String) : GDSection :=
  let s1 := n.sec.nodeSetName n.name
  let s2 := s1.nodeSetType n.ty
  let s3 := s2.nodeSetParent (path.map GDValue.str)
  let s4 := s3.nodeSetInstance n.inst
  let s5 : GDSection := { s4 with properties := n.props }
  match n.idx with
  | some i => s5.nodeSetIndex (some i)
  | none => s5

/-- Node.get_child(name): the first child with the given name. -/
def getChild (n : TNode) (nm : String) : Option TNode :=
  n.children.find? (fun c => c.name = nm)

/-- The recursion of Node.get_node over the remaining path pieces: the
rejoined remainder is checked against "." and "" at every level. -/
def goPieces : TNode → List String → Option TNode
  | n, [] => some n
  | n, [""] => some n
  | n, ["."] => some n
  | n, p :: rest =>
      match getChild n p with
      | none => none
      | some c => goPieces c rest

/-- Node.get_node(path). -/
def getNodePath (n : TNode) (path : String) : Option TNode :=
  if path = "." || path = "" then some n else goPieces n (splitSlash path)

end TNode

/-- The emission record of one flatten step: whether the node was the
tree root (its flatten path was None), its inherited flag, whether it
had local overrides, and the section written by _update_section. -/
structure FlatRec where
  isRoot : Bool
  inherited : Bool
  changed : Bool
  emitted : GDSection

mutual

/-- Node.flatten: write the node state into its section, emit the
record, then flatten the children in order; a child receives a
sequential explicit index exactly when the node carries an index itself
or is an instancing tree root.  The idxAssign argument models the
parent's child._index assignment. -/
def flattenNode : TNode → Option String → Option Int → TNode × List FlatRec
  | .mk nm t ins idx0 sc pr cs inh0, path, idxAssign =>
      let n0 : TNode :=
        .mk nm t ins (match idxAssign with | some j => some j | none => idx0)
          sc pr cs inh0
      let emitted := n0.updateSection path
      let n1 := n0.withSec emitted
      let childPath :=
        match path with
        | none => "."
        | some "." => nm
        | some p => p ++ "/" ++ nm
      let useIdx := n1.idx.isSome || (path.isNone && ins.isSome)
      let cr := flattenChildren cs childPath useIdx 0
      (n1.withChildren cr.1,
        ⟨path.isNone, inh0.isSome, !pr.isEmpty, emitted⟩ :: cr.2)

/-- The child loop of Node.flatten. -/
def flattenChildren :
    List TNode → String → Bool → Nat → List TNode × List FlatRec
  | [], _, _, _ => ([], [])
  | c :: rest, childPath, useIdx, i =>
      let r := flattenNode c (some childPath) (if useIdx then some (Int.ofNat i) else none)
      let rr := flattenChildren rest childPath useIdx (i + 1)
      (r.1 :: rr.1, r.2 ++ rr.2)

end

mutual

/-- The inheritance marking pass of _load_parent_scene: the generator
interleaving of parent_tree.root.flatten() with _mark_inherited means
each node is section-updated, yielded and immediately marked before its
children are visited, so the use_index computation reads the already
cleared _instance field of the marked node. -/
def markFlatten : TNode → Option String → Option Int → TNode
  | .mk nm t ins idx0 sc pr cs inh0, path, idxAssign =>
      let n0 : TNode :=
        .mk nm t ins (match idxAssign with | some j => some j | none => idx0)
          sc pr cs inh0
      let n1 := (n0.withSec (n0.updateSection path)).markInherited
      let childPath :=
        match path with
        | none => "."
        | some "." => nm
        | some p => p ++ "/" ++ nm
      let useIdx := n1.idx.isSome || (path.isNone && n1.inst.isSome)
      n1.withChildren (markFlattenChildren cs childPath useIdx 0)

/-- The child loop of the marking pass. -/
def markFlattenChildren : List TNode → String → Bool → Nat → List TNode
  | [], _, _, _ => []
  | c :: rest, childPath, useIdx, i =>
      markFlatten c (some childPath) (if useIdx then some (Int.ofNat i) else none)
        :: markFlattenChildren rest childPath useIdx (i + 1)

end

/-- Tree: the container of the optional root node. -/
structure TreeT where
  root : Option TNode

/-- Tree.get_node(path). -/
def treeGetNode (t : TreeT) (path : String) : Option TNode :=
  match t.root with
  | none => none
  | some r => r.getNodePath path

/-- Tree.flatten: flatten from the root and keep a section for every
node except the inherited, unchanged, non-root ones; the updated tree
is returned alongside because flatten writes sections and child indices
in place. -/
def treeFlatten (t : TreeT) : TreeT × List GDSection :=
  match t.root with
  | none => (⟨none⟩, [])
  | some r =>
      let fr := flattenNode r none none
      (⟨some fr.1⟩,
        (fr.2.filter (fun e => !(e.inherited && !e.changed && !e.isRoot))).map
          (·.emitted))

/-- The child scan of modifyAt: the first child whose name matches the
piece is descended into through the given continuation; no match
reproduces get_node returning None. -/
def modifyChildScan (rec1 : TNode → Option TNode) (p : String) :
    List TNode → Option (List TNode)
  | [] => none
  | c :: cs0 =>
      if c.name = p then (rec1 c).map (· :: cs0)
      else (modifyChildScan rec1 p cs0).map (c :: ·)

/-- Replace the first child with the given name at the end of a piece
path, applying the update function to it. -/
def modifyAt (n : TNode) : List String → (TNode → Option TNode) → Option TNode
  | [], g => g n
  | [""], g => g n
  | ["."], g => g n
  | p :: rest, g =>
      (modifyChildScan (fun c => modifyAt c rest g) p n.children).map
        n.withChildren

/-- Apply an update to the node addressed by a path, mirroring
tree.get_node(path) followed by in-place mutation of the found node. -/
def nodeModify (n : TNode) (path : String) (g : TNode → Option TNode) :
    Option TNode :=
  if path = "." || path = "" then g n else modifyAt n (splitSlash path) g

/-- Node._merge_child: when a child with the section's name already
exists, rebind its section and properties to the section's (the
inherited-child merge); otherwise append a fresh node built from the
section. -/
def replaceNamed : List TNode → String → GDSection → List TNode
  | [], _, _ => []
  | c :: rest, nm, s =>
      if c.name = nm then (c.withSec s).withProps s.properties :: rest
      else c :: replaceNamed rest nm s

/-- Node._merge_child entry: requires the section's string name
attribute (section.name raises KeyError when missing). -/
def mergeChild (p : TNode) (s : GDSection) : Option TNode :=
  match s.attr "name" with
  | some (.str nm) =>
      if p.children.any (fun c => c.name = nm) then
        some (p.withChildren (replaceNamed p.children nm s))
      else
        (TNode.fromSection s).map (fun c => p.withChildren (p.children ++ [c]))
  | _ => none

/-- Errors of tree construction: the exhausted recursion budget of the
unbounded parent-scene recursion, or any structural failure
(TreeMutationException on an unresolvable parent path, and the
RuntimeError / lookup-crash cases of load_parent_scene). -/
inductive BuildErr where
  | fuelOut
  | structural
  deriving DecidableEq

/-- The ext_resource lookup of load_parent_scene
(find_ext_resource(id=...)): scanning a section without an id attribute
raises KeyError; an unmatched scan returns None — both abort the load. -/
def scanExtById : List GDSection → GDValue → Option GDSection
  | [], _ => none
  | s :: rest, v =>
      match s.idAttr with
      | none => none
      | some a => if a = v then some s else scanExtById rest v

/-- GDFile.find_node(parent=None): the first node section without a
parent attribute. -/
def firstRootSection (f : GDFile) : Option GDSection :=
  f.getNodes.find? (fun s => s.nodeParent.isNone)

/-- The parent-scene resolution chain of GDFile.load_parent_scene: the
root node section's instance id, the matching ext_resource, its string
path, and the loader (the external file loader plus parse, abstracted
as an environment from resource paths to files; the project-root lookup
collaborator is abstracted away). -/
def parentLoadTarget (env : String → Option GDFile) (f : GDFile) :
    Option GDFile :=
  match firstRootSection f with
  | none => none
  | some rs =>
      match rs.nodeInstance with
      | none => none
      | some iv =>
          match scanExtById f.getExtResources iv with
          | none => none
          | some er =>
              match er.attr "path" with
              | some (.str path) => env path
              | _ => none

/-- _load_parent_scene: resolve and load the parent file, build its
tree through the given recursive builder, run the marking pass over its
root, adopt the marked children and attach the marked root as the
inherited snapshot.  (In Python the children are adopted before the
shared node objects are marked; since marking reads no state changed by
the adoption, marking first and adopting the marked values is observably
identical.) -/
def loadParentIntoF (build : GDFile → Except BuildErr TreeT)
    (env : String → Option GDFile) (f : GDFile) (r : TNode) :
    Except BuildErr TNode :=
  match firstRootSection f with
  | none => .error .structural
  | some rs =>
      match rs.nodeInstance with
      | none => .error .structural
      | some iv =>
          match scanExtById f.getExtResources iv with
          | none => .error .structural
          | some er =>
              match er.attr "path" with
              | some (.str path) =>
                  match env path with
                  | none => .error .structural
                  | some pf =>
                      match build pf with
                      | .error e => .error e
                      | .ok pt =>
                          match pt.root with
                          | none => .error .structural
                          | some proot =>
                              let mp := markFlatten proot none none
                              .ok (((r.withChildren
                                (r.children ++ mp.children)).withInh (some mp)))
              | _ => .error .structural

/-- The section loop of Tree.build: scan the node sections in document
order; a parentless section becomes the root (loading the parent scene
through the given loader when it instances one), any other section is
merged into the node resolved from its parent path, failing structurally
when the path does not resolve. -/
def buildLoopF (loadParent : TNode → Except BuildErr TNode) (f : GDFile)
    (root : Option TNode) : List GDSection → Except BuildErr TreeT
  | [] => .ok ⟨root⟩
  | s :: rest =>
      match s.nodeParent with
      | none =>
          match TNode.fromSection s with
          | none => .error .structural
          | some r =>
              if r.inst.isSome then
                match loadParent r with
                | .error e => .error e
                | .ok r1 => buildLoopF loadParent f (some r1) rest
              else buildLoopF loadParent f (some r) rest
      | some (.str p) =>
          match root with
          | none => .error .structural
          | some rt =>
              match nodeModify rt p (fun par => mergeChild par s) with
              | none => .error .structural
              | some rt1 => buildLoopF loadParent f (some rt1) rest
      | some _ => .error .structural

/-- Tree.build with a recursion budget for the unbounded parent-scene
recursion: one unit is spent per inheritance level. -/
def buildTree (fuel : Nat) (env : String → Option GDFile) (f : GDFile) :
    Except BuildErr TreeT :=
  match fuel with
  | 0 => .error .fuelOut
  | fuel0 + 1 =>
      buildLoopF (loadParentIntoF (buildTree fuel0 env) env f) f none
        f.getNodes

/-- The outcome of a use_tree scope: failure during tree construction
(raised before the scope body runs), failure raised by the scope body
itself, or failure while committing the flattened nodes back. -/
inductive UseTreeErr where
  | buildFail (e : BuildErr)
  | scopeFail
  | commitFail
  deriving DecidableEq

/-- GDFile.use_tree as a whole-scope operation: build the tree, run the
editing body, and only on its normal completion pop every node section
and splice the flattened nodes back in at the position chosen by
add_section for the first of them.  The returned file is the state the
Python object holds when the scope ends (exceptionally or not). -/
def useTree (fuel : Nat) (env : String → Option GDFile) (f : GDFile)
    (edit : TreeT → Except Unit TreeT) : GDFile × Option UseTreeErr :=
  match buildTree fuel env f with
  | .error e => (f, some (.buildFail e))
  | .ok tree =>
      match edit tree with
      | .error _ => (f, some .scopeFail)
      | .ok tree1 =>
          let f1 : GDFile :=
            ⟨f.sections.filter (fun s => !(s.header.name = "node" : Bool))⟩
          let nodes := (treeFlatten tree1).2
          match nodes with
          | [] => (f1, none)
          | n0 :: restNodes =>
              match f1.commonAddSection n0 with
              | none => (f1, some .commitFail)
              | some (f2, i) =>
                  (⟨f2.sections.take (i + 1) ++ restNodes ++
                    f2.sections.drop (i + 1)⟩, none)

/-! ## Serialization of sections and files
(GDSectionHeader.__str__, GDSection.__str__, GDFile.__str__) -/

/-- Join strings with a separator (str.join). -/
def joinSep (sep : String) : List String → String
  | [] => ""
  | [x] => x
  | x :: rest => x ++ sep ++ joinSep sep rest

/-- GDSectionHeader.__str__: the bracketed name, with a space-joined
k=v attribute list when attributes are present. -/
def headerStr (h : GDSectionHeader) : String :=
  "[" ++ h.name ++
    (if h.attributes.isEmpty then ""
     else " " ++ joinSep " "
       (h.attributes.map (fun a => a.1 ++ "=" ++ stringifyValue a.2))) ++ "]"

/-- GDSection.__str__: the header line followed by one k = v line per
property; header line only when there are no properties. -/
def sectionStr (s : GDSection) : String :=
  headerStr s.header ++
    (if s.properties.isEmpty then ""
     else "\n" ++ joinSep "\n"
       (s.properties.map (fun p => p.1 ++ " = " ++ stringifyValue p.2)))

/-- GDFile.__str__: sections joined with one blank line, plus a
trailing newline. -/
def fileStr (f : GDFile) : String :=
  joinSep "\n\n" (f.sections.map sectionStr) ++ "\n"

/-! ## The parser (values.py and structure.py)

A recursive-descent embedding of the pyparsing grammar over character
lists.  The default pyparsing whitespace (space, tab, newline) is
skipped in front of every token except LineEnd, which skips only spaces
and tabs and then consumes a newline or matches the end of input.  The
fuel argument bounds recursion depth and loop length; every recursive
call decreases it, and the top-level entry supplies fuel proportional
to the input length.  Keyword boundaries are checked on the right; the
left-boundary check of pyparsing Keyword is vacuous here because every
position where a value is parsed follows a non-identifier character or
start of input. -/

/-- The pyparsing default whitespace characters. -/
def isWSChar (c : Char) : Bool := c = ' ' || c = '\t' || c = '\n'

/-- The LineEnd whitespace characters (newline excluded). -/
def isLWSChar (c : Char) : Bool := c = ' ' || c = '\t'

/-- Skip default whitespace. -/
def skipWS (s : List Char) : List Char := s.dropWhile isWSChar

/-- Skip LineEnd whitespace. -/
def skipLWS (s : List Char) : List Char := s.dropWhile isLWSChar

/-- The character class of var words (alphanumerics and underscore),
used for section kinds, attribute keys and the typed-array element
type. -/
def isVarChar (c : Char) : Bool := c.isAlphanum || c = '_'

/-- The character class of bare section property keys (alphanumerics,
underscore and slash). -/
def isKeyChar (c : Char) : Bool := c.isAlphanum || c = '_' || c = '/'

/-- The pyparsing Keyword identifier characters (alphanumerics,
underscore and dollar), used for the right boundary check. -/
def isIdentChar (c : Char) : Bool := c.isAlphanum || c = '_' || c = '$'

/-- Match a literal character sequence. -/
def matchLit : List Char → List Char → Option (List Char)
  | [], s => some s
  | _ :: _, [] => none
  | c :: cs, x :: xs => if x = c then matchLit cs xs else none

/-- The right boundary check of Keyword. -/
def afterKeywordOk : List Char → Bool
  | [] => true
  | c :: _ => !isIdentChar c

/-- Match a keyword with its right boundary check. -/
def parseKeywordTok (lit : List Char) (s : List Char) : Option (List Char) :=
  match matchLit lit s with
  | some r => if afterKeywordOk r then some r else none
  | none => none

/-- Skip whitespace and require one specific character (a suppressed
literal token). -/
def expectTok (c : Char) (s : List Char) : Option (List Char) :=
  match skipWS s with
  | x :: r => if x = c then some r else none
  | [] => none

/-- LineEnd: skip spaces and tabs, then consume a newline or match the
end of the input. -/
def expectLineEnd (s : List Char) : Option (List Char) :=
  match skipLWS s with
  | '\n' :: r => some r
  | [] => some []
  | _ => none

/-- A maximal nonempty run of characters of one class (Word with a
single character set). -/
def parseWordAll (p : Char → Bool) (s : List Char) : Option (String × List Char) :=
  let w := s.takeWhile p
  if w.isEmpty then none else some (String.mk w, s.dropWhile p)

/-- Word(initChars, bodyChars): one initial-class character followed by
a maximal run of body-class characters (the object literal name). -/
def parseWord1 (head tail : Char → Bool) (s : List Char) :
    Option (String × List Char) :=
  match s with
  | c :: r =>
      if head c then some (String.mk (c :: r.takeWhile tail), r.dropWhile tail)
      else none
  | [] => none

/-- The body scan of QuotedString: unescape backslash-any sequences,
stop at the closing quote, and reject raw (and escaped) newlines unless
multiline. -/
def scanQuoted (ml : Bool) : List Char → Option (List Char × List Char)
  | [] => none
  | c :: rest =>
      if c = '"' then some ([], rest)
      else if c = '\\' then
        match rest with
        | [] => none
        | e :: rest2 =>
            if !ml && e = '\n' then none
            else (scanQuoted ml rest2).map (fun p => (e :: p.1, p.2))
      else if !ml && c = '\n' then none
      else (scanQuoted ml rest).map (fun p => (c :: p.1, p.2))

/-- QuotedString with backslash escaping. -/
def parseQuoted (ml : Bool) (s : List Char) : Option (String × List Char) :=
  match s with
  | '"' :: r => (scanQuoted ml r).map (fun p => (String.mk p.1, p.2))
  | _ => none

/-- Numeric value of a digit run. -/
def digitsVal (w : List Char) : Nat :=
  w.foldl (fun a c => a * 10 + (c.toNat - 48)) 0

/-- An unsigned integer literal: a nonempty digit run not followed by a
fraction or exponent marker (the float forms of pyparsing
common.number lie outside the modeled integer grammar, so such inputs
fail here rather than parse differently). -/
def parseUnsigned (s : List Char) : Option (Nat × List Char) :=
  let w := s.takeWhile Char.isDigit
  if w.isEmpty then none
  else
    match s.dropWhile Char.isDigit with
    | c :: r =>
        if c = '.' || c = 'e' || c = 'E' then none
        else some (digitsVal w, c :: r)
    | [] => some (digitsVal w, [])

/-- common.number restricted to integers: an optional sign and digits. -/
def parseNumber (s : List Char) : Option (Int × List Char) :=
  match s with
  | '-' :: r => (parseUnsigned r).map (fun p => (-(p.1 : Int), p.2))
  | '+' :: r => (parseUnsigned r).map (fun p => ((p.1 : Int), p.2))
  | _ => (parseUnsigned s).map (fun p => ((p.1 : Int), p.2))

/-- Python str() of a parsed value, as used when GDObject.__init__
stores its first positional argument in self.name and __str__ renders
it with %s.  Scalars follow Python exactly (None, True, False, decimal
integers, the raw characters of a string); for container and object
values Python str() falls back to a repr-based rendering outside the
modeled grammar, approximated here by the file-format serialization
(no theorem below depends on those cases). -/
def pyStr : GDValue → String
  | .null => "None"
  | .bool true => "True"
  | .bool false => "False"
  | .int n => intStr n
  | .str s => s
  | v => stringifyValue v

/-- The object literal registry (GD_OBJECT_REGISTRY dispatch inside
GDObject.from_parser): GDObjectMeta.__new__ registers every class in
GD_OBJECT_REGISTRY, including the GDObject base class itself, so each
registered constructor enforces its positional arity (Color
additionally asserts every channel lies in [0, 1]); an unregistered
name builds a generic object via partial(GDObject, name).  The
registered "GDObject" entry dispatches to GDObject.__init__(self,
name, *args) directly: the first parsed argument is consumed as the
object name (coerced by str() when later printed) and only the rest
remain as args, and with no parsed argument the call raises TypeError.
A constructor failure aborts the parse. -/
def mkObjLit (name : String) (args : List GDValue) : Option GDValue :=
  match name with
  | "Vector2" => if args.length = 2 then some (.obj name args) else none
  | "Vector3" => if args.length = 3 then some (.obj name args) else none
  | "Color" =>
      if args.length = 4 &&
          args.all (fun a =>
            match a with
            | .int c => 0 ≤ c && c ≤ 1
            | _ => false) then
        some (.obj name args)
      else none
  | "NodePath" => if args.length = 1 then some (.obj name args) else none
  | "ExtResource" => if args.length = 1 then some (.obj name args) else none
  | "SubResource" => if args.length = 1 then some (.obj name args) else none
  | "GDObject" =>
      match args with
      | [] => none
      | a :: rest => some (.obj (pyStr a) rest)
  | _ => some (.obj name args)

mutual

/-- The value alternation, in grammar order: null keyword, quoted
string (multiline), boolean keyword, number, bracketed list, braced
dict, object literal, typed array. -/
def parseValue (fuel : Nat) (s : List Char) : Option (GDValue × List Char) :=
  match fuel with
  | 0 => none
  | fb + 1 =>
      let s1 := skipWS s
      match parseKeywordTok ("null".toList) s1 with
      | some r => some (.null, r)
      | none =>
      match parseQuoted true s1 with
      | some (str, r) => some (.str str, r)
      | none =>
      match parseKeywordTok ("true".toList) s1 with
      | some r => some (.bool true, r)
      | none =>
      match parseKeywordTok ("false".toList) s1 with
      | some r => some (.bool false, r)
      | none =>
      match parseNumber s1 with
      | some (n, r) => some (.int n, r)
      | none =>
      match parseListLit fb s1 with
      | some (vs, r) => some (.list vs, r)
      | none =>
      match parseDictLit fb s1 with
      | some (ps, r) => some (.dict ps, r)
      | none =>
      match parseObjLit fb s1 with
      | some (v, r) => some (v, r)
      | none =>
      match parseTarrLit fb s1 with
      | some (v, r) => some (v, r)
      | none => none

/-- list_: a bracketed, comma-delimited value list with an optional
trailing comma. -/
def parseListLit (fuel : Nat) (s : List Char) :
    Option (List GDValue × List Char) :=
  match fuel with
  | 0 => none
  | fb + 1 =>
      match s with
      | '[' :: r =>
          let vr := parseValuesOpt fb r
          let r1 := match expectTok ',' vr.2 with
            | some rr => rr
            | none => vr.2
          (expectTok ']' r1).map (fun r2 => (vr.1, r2))
      | _ => none

/-- dict_: a braced, comma-delimited list of quoted-key entries; the
dict comprehension collapses duplicate keys with insertion-order
update. -/
def parseDictLit (fuel : Nat) (s : List Char) :
    Option (List (String × GDValue) × List Char) :=
  match fuel with
  | 0 => none
  | fb + 1 =>
      match s with
      | '{' :: r =>
          let pr := parsePairsOpt fb r
          (expectTok '}' pr.2).map
            (fun r2 => (pr.1.foldl (fun m p => odSet m p.1 p.2) [], r2))
      | _ => none

/-- Opt(DelimitedList(key_val)). -/
def parsePairsOpt (fuel : Nat) (s : List Char) :
    List (String × GDValue) × List Char :=
  match fuel with
  | 0 => ([], s)
  | fb + 1 =>
      match parsePairOne fb s with
      | none => ([], s)
      | some (kv, r) =>
          let rest := parseMorePairs fb r
          (kv :: rest.1, rest.2)

/-- key_val: a single-line quoted key, a colon, and a value. -/
def parsePairOne (fuel : Nat) (s : List Char) :
    Option ((String × GDValue) × List Char) :=
  match fuel with
  | 0 => none
  | fb + 1 =>
      match parseQuoted false (skipWS s) with
      | none => none
      | some (k, r) =>
          match expectTok ':' r with
          | none => none
          | some r2 => (parseValue fb r2).map (fun p => ((k, p.1), p.2))

/-- The (comma then key_val) repetition, backtracking a comma that is
not followed by an entry. -/
def parseMorePairs (fuel : Nat) (s : List Char) :
    List (String × GDValue) × List Char :=
  match fuel with
  | 0 => ([], s)
  | fb + 1 =>
      match expectTok ',' s with
      | none => ([], s)
      | some r =>
          match parsePairOne fb r with
          | none => ([], s)
          | some (kv, r2) =>
              let rest := parseMorePairs fb r2
              (kv :: rest.1, rest.2)

/-- Opt(DelimitedList(value)). -/
def parseValuesOpt (fuel : Nat) (s : List Char) : List GDValue × List Char :=
  match fuel with
  | 0 => ([], s)
  | fb + 1 =>
      match parseValue fb s with
      | none => ([], s)
      | some (v, r) =>
          let rest := parseMoreValues fb r
          (v :: rest.1, rest.2)

/-- The (comma then value) repetition, backtracking a comma that is not
followed by a value (which permits the optional trailing comma of the
list grammar). -/
def parseMoreValues (fuel : Nat) (s : List Char) : List GDValue × List Char :=
  match fuel with
  | 0 => ([], s)
  | fb + 1 =>
      match expectTok ',' s with
      | none => ([], s)
      | some r =>
          match parseValue fb r with
          | none => ([], s)
          | some (v, r2) =>
              let rest := parseMoreValues fb r2
              (v :: rest.1, rest.2)

/-- obj_type: Word(alphas, alphanums), a parenthesized optional value
list, and the registry constructor. -/
def parseObjLit (fuel : Nat) (s : List Char) : Option (GDValue × List Char) :=
  match fuel with
  | 0 => none
  | fb + 1 =>
      match parseWord1 Char.isAlpha Char.isAlphanum s with
      | none => none
      | some (name, r) =>
          match expectTok '(' r with
          | none => none
          | some r2 =>
              let vr := parseValuesOpt fb r2
              match expectTok ')' vr.2 with
              | none => none
              | some r3 =>
                  match mkObjLit name vr.1 with
                  | some v => some (v, r3)
                  | none => none

/-- typed_array: the Array literal, a bracketed element-type word, and
a parenthesized list literal. -/
def parseTarrLit (fuel : Nat) (s : List Char) : Option (GDValue × List Char) :=
  match fuel with
  | 0 => none
  | fb + 1 =>
      match matchLit ("Array".toList) s with
      | none => none
      | some r =>
          match expectTok '[' r with
          | none => none
          | some r1 =>
              match parseWordAll isVarChar (skipWS r1) with
              | none => none
              | some (t, r2) =>
                  match expectTok ']' r2 with
                  | none => none
                  | some r3 =>
                      match expectTok '(' r3 with
                      | none => none
                      | some r4 =>
                          match parseListLit fb (skipWS r4) with
                          | none => none
                          | some (vs, r5) =>
                              (expectTok ')' r5).map
                                (fun r6 => (GDValue.tarr t vs, r6))

end

/-- attribute: var, an equals sign, a value. -/
def parseAttrOne (fuel : Nat) (s : List Char) :
    Option ((String × GDValue) × List Char) :=
  match fuel with
  | 0 => none
  | fb + 1 =>
      match parseWordAll isVarChar (skipWS s) with
      | none => none
      | some (k, r) =>
          match expectTok '=' r with
          | none => none
          | some r2 => (parseValue fb r2).map (fun p => ((k, p.1), p.2))

/-- The attribute repetition of a section header. -/
def parseAttrs (fuel : Nat) (s : List Char) :
    List (String × GDValue) × List Char :=
  match fuel with
  | 0 => ([], s)
  | fb + 1 =>
      match parseAttrOne fb s with
      | none => ([], s)
      | some (kv, r) =>
          let rest := parseAttrs fb r
          (kv :: rest.1, rest.2)

/-- section_header: bracketed kind word and attributes, closed by a
line end; GDSectionHeader.from_parser folds the attributes into the
ordered attribute map. -/
def parseHeader (fuel : Nat) (s : List Char) :
    Option (GDSectionHeader × List Char) :=
  match fuel with
  | 0 => none
  | fb + 1 =>
      match expectTok '[' s with
      | none => none
      | some r =>
          match parseWordAll isVarChar (skipWS r) with
          | none => none
          | some (name, r1) =>
              let ar := parseAttrs fb r1
              match expectTok ']' ar.2 with
              | none => none
              | some r2 =>
                  (expectLineEnd r2).map
                    (fun r3 =>
                      (⟨name, ar.1.foldl (fun m p => odSet m p.1 p.2) []⟩, r3))

/-- section_entry: a quoted or bare key, an equals sign, a value and a
line end. -/
def parseEntryOne (fuel : Nat) (s : List Char) :
    Option ((String × GDValue) × List Char) :=
  match fuel with
  | 0 => none
  | fb + 1 =>
      let s1 := skipWS s
      let key : Option (String × List Char) :=
        match parseQuoted false s1 with
        | some kr => some kr
        | none => parseWordAll isKeyChar s1
      match key with
      | none => none
      | some (k, r) =>
          match expectTok '=' r with
          | none => none
          | some r2 =>
              match parseValue fb r2 with
              | none => none
              | some (v, r3) =>
                  (expectLineEnd r3).map (fun r4 => ((k, v), r4))

/-- The entry repetition of a section body. -/
def parseEntries (fuel : Nat) (s : List Char) :
    List (String × GDValue) × List Char :=
  match fuel with
  | 0 => ([], s)
  | fb + 1 =>
      match parseEntryOne fb s with
      | none => ([], s)
      | some (kv, r) =>
          let rest := parseEntries fb r
          (kv :: rest.1, rest.2)

/-- section: header plus optional contents; GDSection.from_parser folds
the entries into the ordered property map (the registry choice of the
section subclass is a behavioral dispatch on the header name and does
not change the stored data). -/
def parseSectionOne (fuel : Nat) (s : List Char) :
    Option (GDSection × List Char) :=
  match fuel with
  | 0 => none
  | fb + 1 =>
      match parseHeader fb s with
      | none => none
      | some (h, r) =>
          let er := parseEntries fb r
          some (⟨h, er.1.foldl (fun m p => odSet m p.1 p.2) []⟩, er.2)

/-- scene_file: one or more sections. -/
def parseSectionsLoop (fuel : Nat) (s : List Char) :
    Option (List GDSection × List Char) :=
  match fuel with
  | 0 => none
  | fb + 1 =>
      match parseSectionOne fb s with
      | none => none
      | some (sec, r) =>
          match parseSectionsLoop fb r with
          | some (rest, r2) => some (sec :: rest, r2)
          | none => some ([sec], r)

/-- GDFile.parse / parseString(parseAll=True): parse the section list
and require only trailing whitespace to remain. -/
def parseGDFile (t : String) : Option GDFile :=
  let s := t.toList
  match parseSectionsLoop (8 * (s.length + 1)) s with
  | some (secs, r) => if (skipWS r).isEmpty then some ⟨secs⟩ else none
  | none => none

/-! ## Syntactic well-formedness (facts established by every successful
parse) and cleanliness (the extra conditions under which the serializer
re-quotes what it printed) -/

/-- A nonempty var word. -/
def varWordOk (s : String) : Bool := !s.isEmpty && s.toList.all isVarChar

/-- A valid object literal name that no keyword alternative shadows. -/
def objNameOk (s : String) : Bool :=
  (match s.toList with
   | [] => false
   | c :: rest => c.isAlpha && rest.all Char.isAlphanum) &&
  !(s = "null" || s = "true" || s = "false")

/-- A dict key parseable by the single-line quoted key grammar. -/
def dictKeyOk (k : String) : Bool := k.toList.all (fun c => !(c = '\n'))

/-- No duplicate keys in an ordered map. -/
def nodupKeys : List (String × GDValue) → Bool
  | [] => true
  | (k, _) :: rest => !odHas rest k && nodupKeys rest

mutual

/-- The shape invariants that hold of every parsed value. -/
def wfV : GDValue → Bool
  | .null => true
  | .bool _ => true
  | .int _ => true
  | .str _ => true
  | .list xs => wfL xs
  | .dict xs =>
      xs.all (fun p => dictKeyOk p.1) && nodupKeys xs && wfP xs
  | .obj n args => objNameOk n && (mkObjLit n args).isSome && wfL args
  | .tarr t xs => varWordOk t && wfL xs

/-- wfV over list elements. -/
def wfL : List GDValue → Bool
  | [] => true
  | v :: rest => wfV v && wfL rest

/-- wfV over map values. -/
def wfP : List (String × GDValue) → Bool
  | [] => true
  | (_, v) :: rest => wfV v && wfP rest

end

/-- A string the serializer re-quotes verbatim: no quote and no
backslash (stringify_object performs no escaping). -/
def strClean (s : String) : Bool :=
  s.toList.all (fun c => !(c = '"' || c = '\\'))

mutual

/-- The cleanliness conditions of the round trip: every string value
and dict key is quote- and backslash-free, every NodePath carries a
single clean string argument (its __str__ prints the bare argument
inside quotes), and no object is named GDObject (its printed form
re-parses through the registered base-class constructor, which
consumes the first argument as the name — or raises TypeError when
there is none — so such a value never reprints to itself). -/
def cleanV : GDValue → Bool
  | .null => true
  | .bool _ => true
  | .int _ => true
  | .str s => strClean s
  | .list xs => cleanL xs
  | .dict xs => xs.all (fun p => strClean p.1) && cleanP xs
  | .obj n args =>
      if n = "NodePath" then
        match args with
        | [.str p] => strClean p
        | _ => false
      else if n = "GDObject" then false
      else cleanL args
  | .tarr _ xs => cleanL xs

/-- cleanV over list elements. -/
def cleanL : List GDValue → Bool
  | [] => true
  | v :: rest => cleanV v && cleanL rest

/-- cleanV over map values. -/
def cleanP : List (String × GDValue) → Bool
  | [] => true
  | (_, v) :: rest => cleanV v && cleanP rest

end

/-- A property key the serializer prints bare and the parser re-lexes
as one bare-word key. -/
def keyBareOk (k : String) : Bool := !k.isEmpty && k.toList.all isKeyChar

/-- The shape invariants of every parsed section. -/
def wfSectionB (s : GDSection) : Bool :=
  varWordOk s.header.name &&
  s.header.attributes.all (fun a => varWordOk a.1) &&
  nodupKeys s.header.attributes &&
  s.header.attributes.all (fun a => wfV a.2) &&
  nodupKeys s.properties &&
  s.properties.all (fun p => wfV p.2)

/-- The cleanliness conditions of a section for the round trip. -/
def cleanSectionB (s : GDSection) : Bool :=
  s.properties.all (fun p => keyBareOk p.1) &&
  s.header.attributes.all (fun a => cleanV a.2) &&
  s.properties.all (fun p => cleanV p.2)

/-- The shape invariants of every parsed file. -/
def wfFileB (f : GDFile) : Bool :=
  !f.sections.isEmpty && f.sections.all wfSectionB

/-- The cleanliness conditions of a file for the round trip. -/
def cleanFileB (f : GDFile) : Bool := f.sections.all cleanSectionB

/-! ## Concrete instances used by the counterexamples and witnesses -/

/-- The exactly-one-of-type-and-instance invariant of a node section. -/
def xorTI (s : GDSection) : Bool :=
  (odHas s.header.attributes "type").xor (odHas s.header.attributes "instance")

/-- A well-formed input whose string value contains an escaped quote. -/
def srcBad : String := "[gd_resource]\nk = \"a\\\"b\"\n"

/-- The parse of srcBad: the property holds the unescaped quote. -/
def fileBad : GDFile := ⟨[⟨⟨"gd_resource", []⟩, [("k", .str "a\"b")]⟩]⟩

/-- The result of renumber_resource_ids on c4file: ids 3 and 7 become
1 and 2, references follow. -/
def c4f1 : GDFile :=
  ⟨[⟨⟨"gd_scene", [("load_steps", .int 3), ("format", .int 2)]⟩, []⟩,
    mkExtResourceSection "res://a.png" "Texture" 1,
    mkExtResourceSection "res://b.png" "Texture" 2,
    ⟨⟨"node", [("name", .str "Root"), ("type", .str "Node2D")]⟩,
     [("a", GDValue.extRef 2), ("b", GDValue.extRef 1)]⟩]⟩

/-- A scene with gapped resource ids for the renumbering witness. -/
def c4file : GDFile :=
  mkScene
    [mkExtResourceSection "res://a.png" "Texture" 3,
     mkExtResourceSection "res://b.png" "Texture" 7,
     ⟨⟨"node", [("name", .str "Root"), ("type", .str "Node2D")]⟩,
      [("a", GDValue.extRef 7), ("b", GDValue.extRef 3)]⟩]

/-- The parent scene of the inheritance scenario: node N under the root
carries p = 1. -/
def pFile : GDFile :=
  mkScene
    [⟨⟨"node", [("name", .str "Par"), ("type", .str "Node2D")]⟩, []⟩,
     ⟨⟨"node", [("name", .str "N"), ("type", .str "Sprite"),
       ("parent", .str ".")]⟩, [("p", .int 1)]⟩]

/-- The child scene instancing the parent scene. -/
def cFile : GDFile :=
  mkScene
    [mkExtResourceSection "res://P.tscn" "PackedScene" 1,
     ⟨⟨"node", [("name", .str "Root"), ("instance", GDValue.extRef 1)]⟩, []⟩]

/-- The loader environment of the inheritance scenario. -/
def env7 : String → Option GDFile :=
  fun p => if p = "res://P.tscn" then some pFile else none

/-- Flatten the built child tree unchanged. -/
def c7Flatten : Option (List GDSection) :=
  match buildTree 10 env7 cFile with
  | .ok t => some (treeFlatten t).2
  | .error _ => none

/-- Set p on node N of the built child tree, then flatten. -/
def c7SetFlatten (v : Int) : Option (List GDSection) :=
  match buildTree 10 env7 cFile with
  | .ok t =>
      match t.root with
      | some r =>
          (nodeModify r "N" (fun nd => some (nd.setProp "p" (.int v)))).map
            (fun r1 => (treeFlatten ⟨some r1⟩).2)
      | none => none
  | .error _ => none

/-- The root section emitted by flattening the built child tree. -/
def c7root : GDSection :=
  ⟨⟨"node", [("name", .str "Root"), ("instance", GDValue.extRef 1)]⟩, []⟩

/-- The overridden-N section emitted after setting p = 2. -/
def c7nsec : GDSection :=
  ⟨⟨"node", [("name", .str "N"), ("parent", .str "."), ("index", .str "0")]⟩,
   [("p", .int 2)]⟩

/-- Whether a section list contains a node section of the given name. -/
def hasNodeNamed (l : List GDSection) (nm : String) : Bool :=
  l.any (fun s => s.attr "name" = some (.str nm))

/-- A concrete inherited snapshot for the property-write witness. -/
def w7inh : TNode :=
  .mk "W" none none none (mkNodeSection "W" none none none none)
    [("p", .int 1)] [] none

/-- A concrete inherited node carrying one unrelated override. -/
def w7node : TNode :=
  .mk "W" none none none (mkNodeSection "W" none none none none)
    [("q", .int 5)] [] (some w7inh)

/-- Scene A of the cyclic inheritance pair: instances scene B. -/
def aFile : GDFile :=
  mkScene
    [mkExtResourceSection "res://B.tscn" "PackedScene" 1,
     ⟨⟨"node", [("name", .str "RootA"), ("instance", GDValue.extRef 1)]⟩, []⟩]

/-- Scene B of the cyclic inheritance pair: instances scene A. -/
def bFile : GDFile :=
  mkScene
    [mkExtResourceSection "res://A.tscn" "PackedScene" 1,
     ⟨⟨"node", [("name", .str "RootB"), ("instance", GDValue.extRef 1)]⟩, []⟩]

/-- The cyclic loader environment. -/
def env8 : String → Option GDFile :=
  fun p =>
    if p = "res://A.tscn" then some aFile
    else if p = "res://B.tscn" then some bFile else none

/-- Whether a build outcome is the exhausted recursion budget. -/
def isFuelOut : Except BuildErr TreeT → Bool
  | .error .fuelOut => true
  | _ => false

/-- A generic section with an unknown kind name. -/
def weirdSection : GDSection := ⟨⟨"weird", []⟩, []⟩

/-- A file holding a node section followed by an unknown-kind section. -/
def c10file : GDFile :=
  ⟨[⟨⟨"node", [("name", .str "A")]⟩, []⟩, weirdSection]⟩

mutual

/-- Every reference of the given class inside a value carries an
integer id between 1 and N, the shape a successful renumbering pass
leaves behind; the traversal mirrors rnV. -/
def okRefsV (refName : String) (N : Nat) : GDValue → Bool
  | .obj n args =>
      if n = "ExtResource" ∨ n = "SubResource" then
        if n = refName then
          match args with
          | .int j :: _ => decide (1 ≤ j) && decide (j ≤ (N : Int))
          | _ => false
        else true
      else okRefsL refName N args
  | .list xs => okRefsL refName N xs
  | .dict xs => okRefsD refName N xs
  | _ => true

/-- okRefsV over list elements. -/
def okRefsL (refName : String) (N : Nat) : List GDValue → Bool
  | [] => true
  | v :: rest => okRefsV refName N v && okRefsL refName N rest

/-- okRefsV over dict entries and property values. -/
def okRefsD (refName : String) (N : Nat) : List (String × GDValue) → Bool
  | [] => true
  | (_, v) :: rest => okRefsV refName N v && okRefsD refName N rest

end

/-- The class invariant over one section, mirroring rnSection: node
sections carry it on header attributes and properties, resource
sections on properties, every other section trivially. -/
def okRefsSection (refName : String) (N : Nat) (s : GDSection) : Bool :=
  if s.header.name = "node" then
    okRefsD refName N s.header.attributes && okRefsD refName N s.properties
  else if s.header.name = "resource" then
    okRefsD refName N s.properties
  else true

/-- The class invariant over a section list. -/
def okRefsSections (refName : String) (N : Nat) (l : List GDSection) : Bool :=
  l.all (okRefsSection refName N)

/-- The sections of the given kind, scanned left to right, carry the
sequential ids i+1, i+2, ...; other sections are unconstrained. -/
def idsSeqP (secKind : String) : Nat → List GDSection → Prop
  | _, [] => True
  | i, s :: rest =>
      if s.header.name = secKind then
        s.idAttr = some (.int (Int.ofNat (i + 1))) ∧ idsSeqP secKind (i + 1) rest
      else idsSeqP secKind i rest

/-- Sequential ids on an already filtered list of sections of one kind. -/
def seqIds : Nat → List GDSection → Prop
  | _, [] => True
  | i, s :: rest =>
      s.idAttr = some (.int (Int.ofNat (i + 1))) ∧ seqIds (i + 1) rest

/-- The head of the remainder, if any, fails the class. -/
def headNo (p : Char → Bool) : List Char → Bool
  | [] => true
  | c :: _ => !p c

/-- The follow set of a printed value: end of input, or a separator
drawn from the printer contexts (comma, space, newline and the three
closers). -/
def sepOK : List Char → Bool
  | [] => true
  | c :: _ =>
      c = ',' || c = ' ' || c = '\t' || c = '\n' || c = ']' || c = ')' || c = '}'

/-- The remainder after a printed argument list: whitespace and then a
bracket or parenthesis closer. -/
def closeOk (l : List Char) : Bool :=
  match skipWS l with
  | c :: _ => c = ']' || c = ')'
  | [] => false

/-- The remainder after a printed pair list: whitespace and then the
brace closer. -/
def closeBrace (l : List Char) : Bool :=
  match skipWS l with
  | c :: _ => c = '}'
  | [] => false

mutual

/-- A fuel budget sufficient to parse the printed form of a value. -/
def needV : GDValue → Nat
  | .null => 1
  | .bool _ => 1
  | .int _ => 1
  | .str _ => 1
  | .list xs => needArgsL xs + 3
  | .dict xs => needPairs xs + 3
  | .obj _ args => needArgsL args + 3
  | .tarr _ xs => needArgsL xs + 5

/-- Fuel budget for a printed argument list. -/
def needArgsL : List GDValue → Nat
  | [] => 2
  | v :: rest => needV v + needArgsL rest + 3

/-- Fuel budget for a printed pair list. -/
def needPairs : List (String × GDValue) → Nat
  | [] => 2
  | (_, v) :: rest => needV v + needPairs rest + 3

end

/-- The characters a comma-separated argument tail contributes. -/
def moreArgsChars : List GDValue → List Char
  | [] => []
  | v :: rest => ',' :: ' ' :: (stringifyValue v).toList ++ moreArgsChars rest

/-- The characters one printed dict pair contributes. -/
def pairChars (p : String × GDValue) : List Char :=
  '"' :: p.1.toList ++ '"' :: ':' :: ' ' :: (stringifyValue p.2).toList

/-- The characters a comma-newline separated pair tail contributes. -/
def morePairsChars : List (String × GDValue) → List Char
  | [] => []
  | p :: rest => ',' :: '\n' :: pairChars p ++ morePairsChars rest

/-! ## Character-level decompositions and fuel measures of the printed
file (used by the round trip of sections and files) -/

/-- The characters of one printed header attribute. -/
def attrChars (a : String × GDValue) : List Char :=
  a.1.toList ++ '=' :: (stringifyValue a.2).toList

/-- The characters a space-joined attribute list contributes. -/
def attrsChars : List (String × GDValue) → List Char
  | [] => []
  | a :: rest => ' ' :: attrChars a ++ attrsChars rest

/-- The characters of one printed section property line (after its
leading newline). -/
def entryChars (p : String × GDValue) : List Char :=
  p.1.toList ++ ' ' :: '=' :: ' ' :: (stringifyValue p.2).toList

/-- The newline-prefixed characters of the printed property lines. -/
def entriesChars : List (String × GDValue) → List Char
  | [] => []
  | p :: rest => '\n' :: entryChars p ++ entriesChars rest

/-- The remaining input seen by the entry loop after a line end has
been consumed: each entry is followed by the newline the next line end
consumes, and the terminator follows the last one. -/
def entriesTail : List (String × GDValue) → List Char → List Char
  | [], t2 => t2
  | p :: ps, t2 => entryChars p ++ '\n' :: entriesTail ps t2

/-- The bracketed header characters. -/
def headerCoreChars (s : GDSection) : List Char :=
  '[' :: (s.header.name.toList ++ (attrsChars s.header.attributes ++ [']']))

/-- One printed section followed by a newline and the given terminator
(the newline is consumed by a line end inside the section parse). -/
def sectionTail (s : GDSection) (t2 : List Char) : List Char :=
  headerCoreChars s ++ ('\n' :: entriesTail s.properties t2)

/-- The remaining printed sections, each led by the second newline of
the blank-line join. -/
def restSectionsChars : List GDSection → List Char
  | [] => []
  | s :: rest => '\n' :: sectionTail s (restSectionsChars rest)

/-- Fuel budget for the attribute loop. -/
def needAttrs : List (String × GDValue) → Nat
  | [] => 0
  | a :: rest => needV a.2 + needAttrs rest + 2

/-- Fuel budget for a header. -/
def needHeader (h : GDSectionHeader) : Nat := needAttrs h.attributes + 1

/-- Fuel budget for the entry loop. -/
def needEntries : List (String × GDValue) → Nat
  | [] => 0
  | p :: rest => needV p.2 + needEntries rest + 2

/-- Fuel budget for one section. -/
def needSection (s : GDSection) : Nat :=
  needHeader s.header + needEntries s.properties + 1

/-- Fuel budget for the section loop. -/
def needSections : List GDSection → Nat
  | [] => 0
  | s :: rest => needSection s + needSections rest + 1

/-! ## Helper lemmas about ordered maps -/

theorem odGet_odSet_self (l : List (String × GDValue)) (k : String) (v : GDValue) :
    odGet (odSet l k v) k = some v := by
  induction l with
  | nil => simp [odSet, odGet]
  | cons hd tl ih =>
      obtain ⟨k0, v0⟩ := hd
      by_cases h : k0 = k
      · subst h; simp [odSet, odGet]
      · simp [odSet, odGet, h, ih]

theorem odGet_odSet_ne (l : List (String × GDValue)) (k k1 : String) (v : GDValue)
    (h : k1 ≠ k) : odGet (odSet l k v) k1 = odGet l k1 := by
  have hkk : ¬(k = k1) := fun hh => h hh.symm
  induction l with
  | nil => simp [odSet, odGet, hkk]
  | cons hd tl ih =>
      obtain ⟨k0, v0⟩ := hd
      by_cases h0 : k0 = k
      · subst h0
        simp [odSet, odGet, hkk]
      · simp only [odSet, if_neg h0, odGet]
        by_cases h1 : k0 = k1 <;> simp [h1, ih]

theorem odGet_odDel_ne (l : List (String × GDValue)) (k k1 : String)
    (h : k1 ≠ k) : odGet (odDel l k) k1 = odGet l k1 := by
  induction l with
  | nil => simp [odDel, odGet]
  | cons hd tl ih =>
      obtain ⟨k0, v0⟩ := hd
      by_cases h0 : k0 = k
      · subst h0
        have hkk : ¬(k0 = k1) := fun hh => h (hh.symm)
        simp [odDel, odGet, hkk]
      · simp only [odDel, if_neg h0, odGet]
        by_cases h1 : k0 = k1 <;> simp [h1, ih]

theorem odHas_odDel_self (l : List (String × GDValue)) (k : String)
    (h : nodupKeys l = true) : odHas (odDel l k) k = false := by
  induction l with
  | nil => simp [odDel, odHas, odGet]
  | cons hd tl ih =>
      obtain ⟨k0, v0⟩ := hd
      simp only [nodupKeys, Bool.and_eq_true, Bool.not_eq_true'] at h
      by_cases h0 : k0 = k
      · subst h0
        simpa [odDel, odHas] using h.1
      · simp only [odDel, if_neg h0, odHas, odGet, if_neg h0]
        exact ih h.2

theorem nodupKeys_odSet (l : List (String × GDValue)) (k : String) (v : GDValue)
    (h : nodupKeys l = true) : nodupKeys (odSet l k v) = true := by
  induction l with
  | nil => simp [odSet, nodupKeys, odHas, odGet]
  | cons hd tl ih =>
      obtain ⟨k0, v0⟩ := hd
      simp only [nodupKeys, Bool.and_eq_true, Bool.not_eq_true'] at h
      by_cases h0 : k0 = k
      · subst h0
        simp only [odSet, if_pos rfl, nodupKeys, Bool.and_eq_true,
          Bool.not_eq_true']
        exact h
      · simp only [odSet, if_neg h0, nodupKeys, Bool.and_eq_true,
          Bool.not_eq_true']
        constructor
        · rw [odHas, odGet_odSet_ne tl k k0 v h0]
          exact h.1
        · exact ih h.2

/-! ## Claim C9: the type/instance exclusion of node sections -/

/-- C9 counterexample: the GDNodeSection constructor called with both a
type and an instance stores both header attributes, violating the
exactly-one invariant on a reachable section. -/
theorem C9_counterexample :
    xorTI (mkNodeSection "A" (some "Sprite") none (some 1) none) = false := by
  decide

/-- C9 (amended): the setters do preserve the invariant — assigning a
non-null type clears instance and vice versa, so any non-null
assignment establishes exactly-one on a duplicate-free header — and the
constructor establishes it when exactly one of the type and instance
arguments is non-null; only a constructor call passing both (or
neither) escapes it. -/
theorem C9_amended :
    (∀ (s : GDSection) (t : GDValue), nodupKeys s.header.attributes = true →
        xorTI (s.nodeSetType (some t)) = true) ∧
    (∀ (s : GDSection) (v : GDValue), nodupKeys s.header.attributes = true →
        xorTI (s.nodeSetInstance (some v)) = true) ∧
    (∀ (nm : String) (t : String) (p : Option String) (i : Option Int),
        xorTI (mkNodeSection nm (some t) p none i) = true) ∧
    (∀ (nm : String) (p : Option String) (ins : Int) (i : Option Int),
        xorTI (mkNodeSection nm none p (some ins) i) = true) := by
  refine ⟨?_, ?_, ?_, ?_⟩
  · intro s t h
    show (odHas _ "type").xor (odHas _ "instance") = true
    have hA : (s.setAttr "type" t).header.attributes
        = odSet s.header.attributes "type" t := rfl
    simp only [GDSection.nodeSetType, GDSection.delAttr, GDSection.withAttrs, hA]
    have h1 : odGet (odDel (odSet s.header.attributes "type" t) "instance") "type"
        = some t := by
      rw [odGet_odDel_ne _ _ _ (by decide), odGet_odSet_self]
    have h2 : odHas (odDel (odSet s.header.attributes "type" t) "instance")
        "instance" = false :=
      odHas_odDel_self _ _ (nodupKeys_odSet _ _ _ h)
    simp [odHas, h1] at h2 ⊢
    simp [h2]
  · intro s v h
    show (odHas _ "type").xor (odHas _ "instance") = true
    have h1 : odGet (odDel (odSet s.header.attributes "instance"
        (.obj "ExtResource" [v])) "type") "instance"
        = some (.obj "ExtResource" [v]) := by
      rw [odGet_odDel_ne _ _ _ (by decide), odGet_odSet_self]
    have h2 : odHas (odDel (odSet s.header.attributes "instance"
        (.obj "ExtResource" [v])) "type") "type" = false :=
      odHas_odDel_self _ _ (nodupKeys_odSet _ _ _ h)
    simp only [GDSection.nodeSetInstance, GDSection.delAttr, GDSection.setAttr,
      GDSection.withAttrs]
    simp [odHas, h1] at h2 ⊢
    simp [h2]
  · intro nm t p i
    cases p <;> cases i <;> simp [mkNodeSection, xorTI, odHas, odGet]
  · intro nm p ins i
    cases p <;> cases i <;> simp [mkNodeSection, xorTI, odHas, odGet]

/-- C9 witness: the amended theorem applied to a concrete section and
type value. -/
theorem C9_witness :
    nodupKeys (mkNodeSection "A" none none none none).header.attributes = true ∧
    xorTI ((mkNodeSection "A" none none none none).nodeSetType
      (some (.str "Sprite"))) = true :=
  ⟨by decide, C9_amended.1 (mkNodeSection "A" none none none none)
    (.str "Sprite") (by decide)⟩

/-! ## Claim C10: add_section on unknown section kinds -/

theorem insertScan_eq_none_iff (n : Nat) (s : GDSection) : ∀ l : List GDSection,
    GDFile.insertScan n s l = none ↔
      ∃ pre x post, l = pre ++ x :: post ∧ sceneOrderIdx x.header.name = none ∧
        ∀ y ∈ pre, ∃ m, sceneOrderIdx y.header.name = some m ∧ m ≤ n := by
  intro l
  induction l with
  | nil =>
      simp only [GDFile.insertScan]
      constructor
      · intro h; cases h
      · rintro ⟨pre, x, post, heq, _, _⟩
        exact absurd heq (by simp)
  | cons sec rest ih =>
      cases h : sceneOrderIdx sec.header.name with
      | none =>
          simp only [GDFile.insertScan, h]
          constructor
          · intro _
            exact ⟨[], sec, rest, rfl, h, by simp⟩
          · intro _; trivial
      | some idx =>
          by_cases hlt : n < idx
          · simp only [GDFile.insertScan, h, if_pos hlt]
            constructor
            · intro hc; cases hc
            · rintro ⟨pre, x, post, heq, hx, hpre⟩
              cases pre with
              | nil =>
                  simp only [List.nil_append, List.cons.injEq] at heq
                  rw [heq.1] at h
                  rw [h] at hx; cases hx
              | cons y pre0 =>
                  simp only [List.cons_append, List.cons.injEq] at heq
                  obtain ⟨m, hm, hle⟩ := hpre y (by simp)
                  rw [heq.1] at h
                  rw [h] at hm
                  cases hm
                  omega
          · simp only [GDFile.insertScan, h, if_neg hlt, Option.map_eq_none']
            rw [ih]
            constructor
            · rintro ⟨pre, x, post, heq, hx, hpre⟩
              refine ⟨sec :: pre, x, post, by rw [heq]; simp, hx, ?_⟩
              intro y hy
              rcases List.mem_cons.mp hy with hy1 | hy2
              · exact ⟨idx, by rw [hy1]; exact h, by omega⟩
              · exact hpre y hy2
            · rintro ⟨pre, x, post, heq, hx, hpre⟩
              cases pre with
              | nil =>
                  simp only [List.nil_append, List.cons.injEq] at heq
                  rw [heq.1] at h; rw [h] at hx; cases hx
              | cons y pre0 =>
                  simp only [List.cons_append, List.cons.injEq] at heq
                  exact ⟨pre0, x, post, heq.2, hx,
                    fun z hz => hpre z (List.mem_cons_of_mem _ hz)⟩

/-- C10 counterexample: add_section of a known ext_resource kind on a
file that already contains an unknown-kind section succeeds (inserting
at index 0) because the scan finds its insertion point at the first
node section, before ever reaching the unknown section — the claim that
such a call likewise raises is false. -/
theorem C10_counterexample :
    GDFile.addSection c10file (mkExtResourceSection "res://x.png" "Texture" 1)
      = some (⟨[mkExtResourceSection "res://x.png" "Texture" 1,
          ⟨⟨"node", [("name", .str "A")]⟩, []⟩, weirdSection]⟩, 0) := by
  decide

/-- C10 (amended): add_section with an unknown-kind new section always
raises ValueError; add_section of a known kind on a file containing an
unknown-kind section raises exactly when the scan reaches that section,
i.e. when every earlier section has a known kind of order not exceeding
the new section's order. -/
theorem C10_amended :
    (∀ (f : GDFile) (s : GDSection), sceneOrderIdx s.header.name = none →
        f.addSection s = none) ∧
    (∀ (f : GDFile) (s : GDSection) (n : Nat),
        sceneOrderIdx s.header.name = some n →
        (f.addSection s = none ↔
          ∃ pre x post, f.sections = pre ++ x :: post ∧
            sceneOrderIdx x.header.name = none ∧
            ∀ y ∈ pre, ∃ m, sceneOrderIdx y.header.name = some m ∧ m ≤ n)) := by
  constructor
  · intro f s h
    simp [GDFile.addSection, h]
  · intro f s n h
    simp only [GDFile.addSection, h, Option.map_eq_none']
    exact insertScan_eq_none_iff n s f.sections

/-- C10 witness: the amended theorem applied to the unknown-kind
section on an empty file. -/
theorem C10_witness :
    sceneOrderIdx weirdSection.header.name = none ∧
    GDFile.addSection ⟨[]⟩ weirdSection = none :=
  ⟨by decide, C10_amended.1 ⟨[]⟩ weirdSection (by decide)⟩

/-! ## Claim C2: the load_steps invariant -/

theorem rootKind_orderIdx (nm : String) (h : rootKindB nm = true) :
    sceneOrderIdx nm = some 0 ∨ sceneOrderIdx nm = some 1 := by
  simp only [rootKindB, Bool.or_eq_true, decide_eq_true_eq] at h
  rcases h with h | h <;> subst h
  · left; decide
  · right; decide

theorem map_succ_ne_zero (o : Option Nat) : ¬(o.map (· + 1) = some 0) := by
  cases o <;> simp

theorem orderIdxIn_zero (x : String) (rest : List String) (nm : String)
    (h : orderIdxIn (x :: rest) nm = some 0) : x = nm := by
  by_cases e : x = nm
  · exact e
  · rw [orderIdxIn, if_neg e] at h
    exact absurd h (map_succ_ne_zero _)

theorem orderIdxIn_succ (x : String) (rest : List String) (nm : String) (k : Nat)
    (h : orderIdxIn (x :: rest) nm = some (k + 1)) :
    orderIdxIn rest nm = some k := by
  by_cases e : x = nm
  · rw [orderIdxIn, if_pos e] at h; cases h
  · rw [orderIdxIn, if_neg e] at h
    cases h0 : orderIdxIn rest nm with
    | none => rw [h0] at h; cases h
    | some j =>
        rw [h0] at h
        have hj : j + 1 = k + 1 := by simpa using h
        have hjk : j = k := by omega
        rw [hjk]

theorem nonRootKind_orderIdx (nm : String) (k : Nat)
    (h : sceneOrderIdx nm = some k) (hr : rootKindB nm = false) : 2 ≤ k := by
  simp only [rootKindB, Bool.or_eq_false_iff, decide_eq_false_iff_not] at hr
  match k with
  | 0 =>
      have := orderIdxIn_zero _ _ _ h
      exact absurd this.symm hr.1
  | 1 =>
      have h1 := orderIdxIn_succ _ _ _ _ h
      have := orderIdxIn_zero _ _ _ h1
      exact absurd this.symm hr.2
  | k + 2 => omega

theorem insertScan_decomp (n : Nat) (s : GDSection) : ∀ (l l' : List GDSection)
    (i : Nat), GDFile.insertScan n s l = some (l', i) →
    ∃ pre post, l = pre ++ post ∧ l' = pre ++ s :: post := by
  intro l
  induction l with
  | nil =>
      intro l' i h
      simp only [GDFile.insertScan] at h
      cases h
      exact ⟨[], [], rfl, rfl⟩
  | cons sec rest ih =>
      intro l' i h
      cases h0 : sceneOrderIdx sec.header.name with
      | none => simp only [GDFile.insertScan, h0] at h; cases h
      | some idx =>
          simp only [GDFile.insertScan, h0] at h
          by_cases hlt : n < idx
          · rw [if_pos hlt] at h
            cases h
            exact ⟨[], sec :: rest, rfl, rfl⟩
          · rw [if_neg hlt] at h
            cases hin : GDFile.insertScan n s rest with
            | none => rw [hin] at h; cases h
            | some p =>
                rw [hin] at h
                simp only [Option.map_some'] at h
                cases h
                obtain ⟨pre, post, hl, hl2⟩ := ih p.1 p.2 hin
                exact ⟨sec :: pre, post, by rw [hl]; rfl, by rw [hl2]; rfl⟩

theorem insertScan_cons_keep (n rk : Nat) (s root : GDSection)
    (hroot : sceneOrderIdx root.header.name = some rk) (hrk : rk ≤ 1)
    (hn : 2 ≤ n) (rest : List GDSection) :
    GDFile.insertScan n s (root :: rest) =
      (GDFile.insertScan n s rest).map (fun p => (root :: p.1, p.2 + 1)) := by
  simp only [GDFile.insertScan, hroot, if_neg (by omega : ¬ n < rk)]

theorem popAt_decomp : ∀ (l : List GDSection) (i : Nat) (x : GDSection)
    (l' : List GDSection), GDFile.popAt l i = some (x, l') →
    ∃ pre post, l = pre ++ x :: post ∧ l' = pre ++ post := by
  intro l
  induction l with
  | nil => intro i x l' h; cases h
  | cons sec rest ih =>
      intro i x l' h
      cases i with
      | zero =>
          simp only [GDFile.popAt] at h
          cases h
          exact ⟨[], rest, rfl, rfl⟩
      | succ j =>
          simp only [GDFile.popAt] at h
          cases hin : GDFile.popAt rest j with
          | none => rw [hin] at h; cases h
          | some p =>
              rw [hin] at h
              cases h
              obtain ⟨pre, post, hl, hl2⟩ := ih j p.1 p.2 hin
              exact ⟨sec :: pre, post, by rw [hl]; rfl, by rw [hl2]; rfl⟩

theorem extCount_cons (sec : GDSection) (l : List GDSection) :
    (⟨sec :: l⟩ : GDFile).extCount =
      (if sec.header.name = "ext_resource" then 1 else 0) +
        (⟨l⟩ : GDFile).extCount := by
  simp only [GDFile.extCount, GDFile.getExtResources, GDFile.getSections,
    List.filter_cons]
  by_cases hc : sec.header.name = "ext_resource"
  · simp [hc, Nat.add_comm]
  · simp [hc]

theorem subCount_cons (sec : GDSection) (l : List GDSection) :
    (⟨sec :: l⟩ : GDFile).subCount =
      (if sec.header.name = "sub_resource" then 1 else 0) +
        (⟨l⟩ : GDFile).subCount := by
  simp only [GDFile.subCount, GDFile.getSubResources, GDFile.getSections,
    List.filter_cons]
  by_cases hc : sec.header.name = "sub_resource"
  · simp [hc, Nat.add_comm]
  · simp [hc]

theorem extCount_append (a b : List GDSection) :
    (⟨a ++ b⟩ : GDFile).extCount = (⟨a⟩ : GDFile).extCount +
      (⟨b⟩ : GDFile).extCount := by
  simp [GDFile.extCount, GDFile.getExtResources, GDFile.getSections,
    List.filter_append]

theorem subCount_append (a b : List GDSection) :
    (⟨a ++ b⟩ : GDFile).subCount = (⟨a⟩ : GDFile).subCount +
      (⟨b⟩ : GDFile).subCount := by
  simp [GDFile.subCount, GDFile.getSubResources, GDFile.getSections,
    List.filter_append]

theorem setAttr_name (s : GDSection) (k : String) (v : GDValue) :
    (s.setAttr k v).header.name = s.header.name := rfl

theorem rootKind_not_res (nm : String) (h : rootKindB nm = true) :
    ¬(nm = "ext_resource") ∧ ¬(nm = "sub_resource") := by
  simp only [rootKindB, Bool.or_eq_true, decide_eq_true_eq] at h
  rcases h with h | h <;> subst h <;> exact ⟨by decide, by decide⟩

theorem stepsInv_build (root : GDSection) (l : List GDSection)
    (h1 : rootKindB root.header.name = true)
    (h2 : odGet root.header.attributes "load_steps" =
      some (.int (1 + (((⟨root :: l⟩ : GDFile).extCount +
        (⟨root :: l⟩ : GDFile).subCount : Nat))))) :
    stepsInv ⟨root :: l⟩ = true := by
  rw [stepsInv]
  simp only [Bool.and_eq_true, decide_eq_true_eq]
  exact ⟨h1, h2⟩

theorem commonAdd_preserves (f f1 : GDFile) (s : GDSection) (i : Nat)
    (hI : stepsInv f = true) (hk : rootKindB s.header.name = false)
    (h : f.commonAddSection s = some (f1, i)) : stepsInv f1 = true := by
  cases hsec : f.sections with
  | nil => rw [stepsInv, hsec] at hI; cases hI
  | cons root rest =>
      rw [stepsInv, hsec] at hI
      simp only [Bool.and_eq_true, decide_eq_true_eq] at hI
      obtain ⟨hroot, hload⟩ := hI
      have hcounts : f.extCount = (⟨root :: rest⟩ : GDFile).extCount ∧
          f.subCount = (⟨root :: rest⟩ : GDFile).subCount := by
        constructor <;> simp [GDFile.extCount, GDFile.subCount,
          GDFile.getExtResources, GDFile.getSubResources, GDFile.getSections, hsec]
      cases hn : sceneOrderIdx s.header.name with
      | none =>
          simp only [GDFile.commonAddSection, GDFile.addSection, hn] at h
          cases h
      | some n =>
          simp only [GDFile.commonAddSection, GDFile.addSection, hn] at h
          have hn2 : 2 ≤ n := nonRootKind_orderIdx _ _ hn hk
          have hrk := rootKind_orderIdx _ hroot
          have hkeep : GDFile.insertScan n s f.sections =
              (GDFile.insertScan n s rest).map (fun p => (root :: p.1, p.2 + 1)) := by
            rw [hsec]
            rcases hrk with hr0 | hr0
            · exact insertScan_cons_keep n 0 s root hr0 (by omega) hn2 rest
            · exact insertScan_cons_keep n 1 s root hr0 (by omega) hn2 rest
          rw [hkeep] at h
          cases hin : GDFile.insertScan n s rest with
          | none => rw [hin] at h; cases h
          | some p =>
              obtain ⟨pre, post, hrest, hl2⟩ := insertScan_decomp n s rest p.1 p.2 hin
              simp only [hin, Option.map_some'] at h
              have hEafter : (⟨p.1⟩ : GDFile).extCount =
                  (⟨rest⟩ : GDFile).extCount +
                    (if s.header.name = "ext_resource" then 1 else 0) := by
                rw [hl2, hrest, extCount_append, extCount_append, extCount_cons]
                omega
              have hSafter : (⟨p.1⟩ : GDFile).subCount =
                  (⟨rest⟩ : GDFile).subCount +
                    (if s.header.name = "sub_resource" then 1 else 0) := by
                rw [hl2, hrest, subCount_append, subCount_append, subCount_cons]
                omega
              have hER := rootKind_not_res root.header.name hroot
              by_cases hes : s.header.name = "ext_resource" ∨ s.header.name = "sub_resource"
              · rw [if_pos hes] at h
                simp only [GDFile.bumpLoadSteps, GDFile.loadSteps] at h
                rw [hload] at h
                simp only [GDFile.setLoadSteps, Option.map_some'] at h
                cases h
                apply stepsInv_build
                · exact hroot
                · show odGet (odSet root.header.attributes "load_steps"
                    (.int (1 + (f.extCount + f.subCount : Nat) + 1)))
                    "load_steps" = _
                  rw [odGet_odSet_self]
                  have hcnt : ((⟨(root.setAttr "load_steps"
                      (.int (1 + (f.extCount + f.subCount : Nat) + 1))) ::
                        p.1⟩ : GDFile).extCount +
                      (⟨(root.setAttr "load_steps"
                      (.int (1 + (f.extCount + f.subCount : Nat) + 1))) ::
                        p.1⟩ : GDFile).subCount : Nat) =
                      f.extCount + f.subCount + 1 := by
                    rw [extCount_cons, subCount_cons, setAttr_name,
                      if_neg hER.1, if_neg hER.2, hEafter, hSafter,
                      hcounts.1, hcounts.2, extCount_cons, subCount_cons,
                      if_neg hER.1, if_neg hER.2]
                    rcases hes with hes | hes <;> rw [hes] <;> simp <;> omega
                  rw [hcnt]
                  congr 2

              · rw [if_neg hes] at h
                cases h
                have hne : ¬(s.header.name = "ext_resource") ∧
                    ¬(s.header.name = "sub_resource") := by
                  constructor <;> intro hh <;> exact hes (by simp [hh])
                apply stepsInv_build
                · exact hroot
                · rw [hload]
                  have hcnt : ((⟨root :: p.1⟩ : GDFile).extCount +
                      (⟨root :: p.1⟩ : GDFile).subCount : Nat) =
                      f.extCount + f.subCount := by
                    rw [extCount_cons, subCount_cons, if_neg hER.1, if_neg hER.2,
                      hEafter, hSafter, if_neg hne.1, if_neg hne.2,
                      hcounts.1, hcounts.2, extCount_cons, subCount_cons,
                      if_neg hER.1, if_neg hER.2]
                    omega
                  rw [hcnt]

theorem commonRemoveAt_preserves (f f1 : GDFile) (i : Nat)
    (hI : stepsInv f = true) (hi : 1 ≤ i)
    (h : f.commonRemoveAt i = some f1) : stepsInv f1 = true := by
  cases hsec : f.sections with
  | nil => rw [stepsInv, hsec] at hI; cases hI
  | cons root rest =>
      rw [stepsInv, hsec] at hI
      simp only [Bool.and_eq_true, decide_eq_true_eq] at hI
      obtain ⟨hroot, hload⟩ := hI
      have hcounts : f.extCount = (⟨root :: rest⟩ : GDFile).extCount ∧
          f.subCount = (⟨root :: rest⟩ : GDFile).subCount := by
        constructor <;> simp [GDFile.extCount, GDFile.subCount,
          GDFile.getExtResources, GDFile.getSubResources, GDFile.getSections, hsec]
      have hER := rootKind_not_res root.header.name hroot
      cases i with
      | zero => omega
      | succ j =>
          have hpops : GDFile.popAt (root :: rest) (j + 1) =
              (GDFile.popAt rest j).map (fun p => (p.1, root :: p.2)) := rfl
          rw [GDFile.commonRemoveAt, GDFile.removeAt, hsec, hpops] at h
          cases hp : GDFile.popAt rest j with
          | none => rw [hp] at h; cases h
          | some q =>
              obtain ⟨pre, post, hrest, hq2⟩ := popAt_decomp rest j q.1 q.2 hp
              have hEafter : (⟨q.2⟩ : GDFile).extCount +
                  (if q.1.header.name = "ext_resource" then 1 else 0) =
                  (⟨rest⟩ : GDFile).extCount := by
                rw [hq2, hrest, extCount_append, extCount_append, extCount_cons]
                omega
              have hSafter : (⟨q.2⟩ : GDFile).subCount +
                  (if q.1.header.name = "sub_resource" then 1 else 0) =
                  (⟨rest⟩ : GDFile).subCount := by
                rw [hq2, hrest, subCount_append, subCount_append, subCount_cons]
                omega
              simp only [hp, Option.map_some'] at h
              by_cases hes : q.1.header.name = "ext_resource" ∨
                  q.1.header.name = "sub_resource"
              · rw [if_pos hes] at h
                simp only [GDFile.bumpLoadSteps, GDFile.loadSteps] at h
                rw [hload] at h
                simp only [GDFile.setLoadSteps, Option.map_some'] at h
                cases h
                apply stepsInv_build
                · exact hroot
                · show odGet (odSet root.header.attributes "load_steps"
                    (.int (1 + (f.extCount + f.subCount : Nat) + (-1))))
                    "load_steps" = _
                  rw [odGet_odSet_self]
                  have hsum : ((⟨q.2⟩ : GDFile).extCount +
                      (⟨q.2⟩ : GDFile).subCount : Nat) + 1 =
                      (⟨rest⟩ : GDFile).extCount + (⟨rest⟩ : GDFile).subCount := by
                    rcases hes with hes | hes
                    · rw [hes] at hEafter hSafter
                      rw [if_pos (rfl : ("ext_resource" : String) =
                        "ext_resource")] at hEafter
                      rw [if_neg (by decide :
                        ¬(("ext_resource" : String) = "sub_resource"))] at hSafter
                      omega
                    · rw [hes] at hEafter hSafter
                      rw [if_neg (by decide :
                        ¬(("sub_resource" : String) = "ext_resource"))] at hEafter
                      rw [if_pos (rfl : ("sub_resource" : String) =
                        "sub_resource")] at hSafter
                      omega
                  have hcnt : ((⟨(root.setAttr "load_steps"
                      (.int (1 + (f.extCount + f.subCount : Nat) + (-1)))) ::
                        q.2⟩ : GDFile).extCount +
                      (⟨(root.setAttr "load_steps"
                      (.int (1 + (f.extCount + f.subCount : Nat) + (-1)))) ::
                        q.2⟩ : GDFile).subCount : Nat) + 1 =
                      f.extCount + f.subCount := by
                    rw [extCount_cons, subCount_cons, setAttr_name,
                      if_neg hER.1, if_neg hER.2,
                      hcounts.1, hcounts.2, extCount_cons, subCount_cons,
                      if_neg hER.1, if_neg hER.2]
                    omega
                  congr 2
                  omega
              · rw [if_neg hes] at h
                cases h
                have hne : ¬(q.1.header.name = "ext_resource") ∧
                    ¬(q.1.header.name = "sub_resource") := by
                  constructor <;> intro hh <;> exact hes (by simp [hh])
                apply stepsInv_build
                · exact hroot
                · rw [hload]
                  have hsum : ((⟨q.2⟩ : GDFile).extCount +
                      (⟨q.2⟩ : GDFile).subCount : Nat) =
                      (⟨rest⟩ : GDFile).extCount + (⟨rest⟩ : GDFile).subCount := by
                    rw [if_neg hne.1] at hEafter
                    rw [if_neg hne.2] at hSafter
                    omega
                  have hcnt : ((⟨root :: q.2⟩ : GDFile).extCount +
                      (⟨root :: q.2⟩ : GDFile).subCount : Nat) =
                      f.extCount + f.subCount := by
                    rw [extCount_cons, subCount_cons, if_neg hER.1, if_neg hER.2,
                      hcounts.1, hcounts.2, extCount_cons, subCount_cons,
                      if_neg hER.1, if_neg hER.2]
                    omega
                  rw [hcnt]

theorem commonRemoveSection_preserves (f f1 : GDFile) (s : GDSection)
    (hI : stepsInv f = true) (hk : rootKindB s.header.name = false)
    (h : f.commonRemoveSection s = some f1) : stepsInv f1 = true := by
  cases hsec : f.sections with
  | nil => rw [stepsInv, hsec] at hI; cases hI
  | cons root rest =>
      have hroot : rootKindB root.header.name = true := by
        rw [stepsInv, hsec] at hI
        simp only [Bool.and_eq_true, decide_eq_true_eq] at hI
        exact hI.1
      have hrs : ¬(root = s) := by
        intro he
        rw [he] at hroot
        rw [hroot] at hk
        cases hk
      simp only [GDFile.commonRemoveSection, hsec, GDFile.findEqIdx,
        if_neg hrs] at h
      cases hf : GDFile.findEqIdx s rest with
      | none =>
          rw [hf] at h
          simp only [Option.map_none'] at h
          cases h
          exact hI
      | some j =>
          rw [hf] at h
          simp only [Option.map_some'] at h
          exact commonRemoveAt_preserves f f1 (j + 1) hI (by omega) h

theorem applyOp_preserves (f f1 : GDFile) (op : FileOp)
    (hI : stepsInv f = true) (hs : opSafe op = true)
    (h : applyOp f op = some f1) : stepsInv f1 = true := by
  cases op with
  | addSection s =>
      simp only [opSafe, Bool.not_eq_true'] at hs
      simp only [applyOp] at h
      cases hc : f.commonAddSection s with
      | none => rw [hc] at h; cases h
      | some p =>
          rw [hc] at h
          simp only [Option.map_some'] at h
          cases h
          exact commonAdd_preserves f p.1 s p.2 hI hs (by rw [hc])
  | addExtResource path ty =>
      simp only [applyOp, GDFile.addExtResource] at h
      cases hn : GDFile.nextResId f.getExtResources with
      | none => rw [hn] at h; cases h
      | some nid =>
          simp only [hn] at h
          cases hc : f.commonAddSection (mkExtResourceSection path ty nid) with
          | none => rw [hc] at h; cases h
          | some p =>
              rw [hc] at h
              simp only [Option.map_some'] at h
              cases h
              exact commonAdd_preserves f p.1 (mkExtResourceSection path ty nid)
                p.2 hI (by rfl) (by rw [hc])
  | addSubResource ty props =>
      simp only [applyOp, GDFile.addSubResource] at h
      cases hn : GDFile.nextResId f.getSubResources with
      | none => rw [hn] at h; cases h
      | some nid =>
          simp only [hn] at h
          cases hc : f.commonAddSection (mkSubResourceSection ty nid props) with
          | none => rw [hc] at h; cases h
          | some p =>
              rw [hc] at h
              simp only [Option.map_some'] at h
              cases h
              exact commonAdd_preserves f p.1 (mkSubResourceSection ty nid props)
                p.2 hI (by rfl) (by rw [hc])
  | addNode nm ty parent index =>
      simp only [applyOp, GDFile.addNode] at h
      cases hc : f.commonAddSection (mkNodeSection nm ty parent none index) with
      | none => rw [hc] at h; cases h
      | some p =>
          rw [hc] at h
          simp only [Option.map_some'] at h
          cases h
          exact commonAdd_preserves f p.1 (mkNodeSection nm ty parent none index)
            p.2 hI (by rfl) (by rw [hc])
  | addExtNode nm inst parent index =>
      simp only [applyOp, GDFile.addExtNode, mkExtNodeSection] at h
      cases hc : f.commonAddSection
          (mkNodeSection nm none parent (some inst) index) with
      | none => rw [hc] at h; cases h
      | some p =>
          rw [hc] at h
          simp only [Option.map_some'] at h
          cases h
          exact commonAdd_preserves f p.1
            (mkNodeSection nm none parent (some inst) index)
            p.2 hI (by rfl) (by rw [hc])
  | removeSection s =>
      simp only [opSafe, Bool.not_eq_true'] at hs
      exact commonRemoveSection_preserves f f1 s hI hs h
  | removeAt i =>
      simp only [opSafe, decide_eq_true_eq] at hs
      exact commonRemoveAt_preserves f f1 i hI hs h

/-- C2 counterexample: remove_at(0) on a freshly constructed scene
succeeds while removing the root header section itself; afterwards
reading load_steps raises (None) instead of equaling
1 + |ext_resource| + |sub_resource| = 1. -/
theorem C2_counterexample :
    applyOps (mkScene []) [FileOp.removeAt 0] = some (⟨[]⟩ : GDFile) ∧
    ¬(GDFile.loadSteps (⟨[]⟩ : GDFile) =
      some (.int (1 + (((⟨[]⟩ : GDFile).extCount +
        (⟨[]⟩ : GDFile).subCount : Nat))))) := by
  decide

/-- C2 (amended): on any file satisfying the load_steps invariant with
a root first section — as the GDScene / GDResource constructors
establish — every successful sequence of the mutating operations that
never inserts another root-kind section, never removes a root-kind
section by value and never removes index 0 maintains
load_steps = 1 + |ext_resource| + |sub_resource|, each mutating call
adjusting the stored count incrementally. -/
theorem C2_amended : ∀ (ops : List FileOp) (f f1 : GDFile),
    stepsInv f = true → (∀ op ∈ ops, opSafe op = true) →
    applyOps f ops = some f1 → stepsInv f1 = true := by
  intro ops
  induction ops with
  | nil =>
      intro f f1 hI _ h
      simp only [applyOps] at h
      cases h
      exact hI
  | cons op rest ih =>
      intro f f1 hI hsafe h
      simp only [applyOps] at h
      cases hop : applyOp f op with
      | none => rw [hop] at h; cases h
      | some g =>
          rw [hop] at h
          simp only [Option.some_bind] at h
          have hg := applyOp_preserves f g op hI (hsafe op (by simp)) hop
          exact ih g f1 hg (fun o ho => hsafe o (by simp [ho])) h

/-! ## Claim C3: remove_unused_resources -/

/-- C2 witness: the amended theorem applied to adding one ext_resource
to an empty scene (the spec scenario: load_steps becomes 2). -/
theorem C2_witness :
    stepsInv (⟨[⟨⟨"gd_scene", [("load_steps", .int 2), ("format", .int 2)]⟩, []⟩,
      mkExtResourceSection "res://Other.tscn" "PackedScene" 1]⟩ : GDFile)
      = true :=
  C2_amended [FileOp.addExtResource "res://Other.tscn" "PackedScene"]
    (mkScene [])
    ⟨[⟨⟨"gd_scene", [("load_steps", .int 2), ("format", .int 2)]⟩, []⟩,
      mkExtResourceSection "res://Other.tscn" "PackedScene" 1]⟩
    (by decide) (by decide) (by decide)

/-! ## Renumbering lemmas (claim C4) -/

theorem odSet_get_eq (k : String) (v : GDValue) :
    ∀ l : List (String × GDValue), odGet l k = some v → odSet l k v = l := by
  intro l
  induction l with
  | nil => intro h; cases h
  | cons hd tl ih =>
      obtain ⟨k0, v0⟩ := hd
      intro h
      by_cases hk : k0 = k
      · subst hk
        rw [odGet, if_pos rfl] at h
        cases h
        rw [odSet, if_pos rfl]
      · rw [odGet, if_neg hk] at h
        rw [odSet, if_neg hk, ih h]

theorem setId_of_idAttr (s : GDSection) (n : Int)
    (h : s.idAttr = some (.int n)) : s.setId n = s := by
  obtain ⟨⟨nm, a⟩, pr⟩ := s
  simp only [GDSection.setId, GDSection.setAttr, GDSection.withAttrs]
  rw [odSet_get_eq "id" (.int n) a h]

theorem setId_name (s : GDSection) (n : Int) :
    (s.setId n).header.name = s.header.name := rfl

theorem setId_idAttr (s : GDSection) (n : Int) :
    (s.setId n).idAttr = some (.int n) :=
  odGet_odSet_self s.header.attributes "id" (.int n)

theorem idMapGet_set (k k1 : GDValue) (v : Int) :
    ∀ m : List (GDValue × Int),
    idMapGet (idMapSet m k v) k1 = if k = k1 then some v else idMapGet m k1 := by
  intro m
  induction m with
  | nil =>
      by_cases h : k = k1
      · simp [idMapSet, idMapGet, h]
      · simp [idMapSet, idMapGet, h]
  | cons hd tl ih =>
      obtain ⟨k0, v0⟩ := hd
      by_cases h0 : k0 = k
      · subst h0
        rw [idMapSet, if_pos rfl]
        by_cases h1 : k0 = k1
        · rw [idMapGet, if_pos h1, if_pos h1]
        · rw [idMapGet, if_neg h1, if_neg h1, idMapGet, if_neg h1]
      · rw [idMapSet, if_neg h0]
        by_cases h1 : k0 = k1
        · subst h1
          rw [idMapGet, if_pos rfl, idMapGet, if_pos rfl]
          rw [if_neg (fun he => h0 he.symm)]
        · rw [idMapGet, if_neg h1, idMapGet, if_neg h1, ih]

theorem buildIdMap_range : ∀ (secs : List GDSection) (i : Nat)
    (m0 m : List (GDValue × Int)) (N : Nat),
    buildIdMap i m0 secs = .ok m →
    (∀ k j, idMapGet m0 k = some j → 1 ≤ j ∧ j ≤ (N : Int)) →
    i + secs.length ≤ N →
    ∀ k j, idMapGet m k = some j → 1 ≤ j ∧ j ≤ (N : Int) := by
  intro secs
  induction secs with
  | nil =>
      intro i m0 m N h h0 _ k j hk
      rw [buildIdMap] at h
      cases h
      exact h0 k j hk
  | cons s rest ih =>
      intro i m0 m N h h0 hlen k j hk
      cases ha : s.idAttr with
      | none =>
          rw [buildIdMap, ha] at h
          cases h
      | some a =>
          rw [buildIdMap, ha] at h
          refine ih (i + 1) (idMapSet m0 a (Int.ofNat (i + 1))) m N h ?_
            (by simp at hlen ⊢; omega) k j hk
          intro k2 j2 hk2
          rw [idMapGet_set] at hk2
          by_cases he : a = k2
          · rw [if_pos he] at hk2
            cases hk2
            simp only [List.length_cons] at hlen
            constructor
            · simp only [Int.ofNat_eq_natCast]
              omega
            · simp only [Int.ofNat_eq_natCast]
              omega
          · rw [if_neg he] at hk2
            exact h0 k2 j2 hk2

theorem buildIdMap_seq : ∀ (secs : List GDSection) (i : Nat)
    (m0 : List (GDValue × Int)),
    seqIds i secs →
    (∀ j : Int, 1 ≤ j → j ≤ (i : Int) → idMapGet m0 (.int j) = some j) →
    ∃ m, buildIdMap i m0 secs = .ok m ∧
      ∀ j : Int, 1 ≤ j → j ≤ (i : Int) + secs.length →
        idMapGet m (.int j) = some j := by
  intro secs
  induction secs with
  | nil =>
      intro i m0 _ h0
      refine ⟨m0, rfl, ?_⟩
      intro j h1 h2
      simp at h2
      exact h0 j h1 h2
  | cons s rest ih =>
      intro i m0 hseq h0
      obtain ⟨hid, hseq2⟩ := hseq
      have hpre : ∀ j : Int, 1 ≤ j → j ≤ ((i + 1 : Nat) : Int) →
          idMapGet (idMapSet m0 (.int (Int.ofNat (i + 1))) (Int.ofNat (i + 1)))
            (.int j) = some j := by
        intro j h1 h2
        rw [idMapGet_set]
        by_cases he : (GDValue.int (Int.ofNat (i + 1))) = .int j
        · rw [if_pos he]
          cases he
          rfl
        · rw [if_neg he]
          apply h0 j h1
          have hne : ¬(j = (Int.ofNat (i + 1))) := fun hj => he (by rw [hj])
          simp only [Int.ofNat_eq_natCast] at hne
          omega
      obtain ⟨m, hm, hmid⟩ := ih (i + 1)
        (idMapSet m0 (.int (Int.ofNat (i + 1))) (Int.ofNat (i + 1))) hseq2 hpre
      refine ⟨m, ?_, ?_⟩
      · rw [buildIdMap, hid]
        exact hm
      · intro j h1 h2
        apply hmid j h1
        simp only [List.length_cons] at h2
        omega

theorem idsSeqP_filter (secKind : String) : ∀ (l : List GDSection) (i : Nat),
    idsSeqP secKind i l →
    seqIds i (l.filter (fun s => s.header.name = secKind)) := by
  intro l
  induction l with
  | nil => intro i _; trivial
  | cons s rest ih =>
      intro i h
      by_cases hn : s.header.name = secKind
      · rw [idsSeqP, if_pos hn] at h
        rw [List.filter_cons_of_pos (by simp [hn])]
        exact ⟨h.1, ih (i + 1) h.2⟩
      · rw [idsSeqP, if_neg hn] at h
        rw [List.filter_cons_of_neg (by simp [hn])]
        exact ih i h

theorem okRefsSection_other (refName : String) (N : Nat) (s : GDSection)
    (h1 : ¬(s.header.name = "node")) (h2 : ¬(s.header.name = "resource")) :
    okRefsSection refName N s = true := by
  rw [okRefsSection, if_neg h1, if_neg h2]

theorem renumberSectionIds_names (secKind : String) :
    ∀ (l : List GDSection) (i : Nat),
    (renumberSectionIds secKind i l).map (fun s => s.header.name) =
      l.map (fun s => s.header.name) := by
  intro l
  induction l with
  | nil => intro i; rfl
  | cons s rest ih =>
      intro i
      by_cases hn : s.header.name = secKind
      · rw [renumberSectionIds, if_pos hn]
        simp only [List.map_cons, ih (i + 1), setId_name]
      · rw [renumberSectionIds, if_neg hn]
        simp only [List.map_cons, ih i]

theorem renumberSectionIds_seq (secKind : String) :
    ∀ (l : List GDSection) (i : Nat),
    idsSeqP secKind i (renumberSectionIds secKind i l) := by
  intro l
  induction l with
  | nil => intro i; trivial
  | cons s rest ih =>
      intro i
      by_cases hn : s.header.name = secKind
      · rw [renumberSectionIds, if_pos hn, idsSeqP,
          if_pos (by rw [setId_name]; exact hn)]
        exact ⟨setId_idAttr s _, ih (i + 1)⟩
      · rw [renumberSectionIds, if_neg hn, idsSeqP, if_neg hn]
        exact ih i

theorem renumberSectionIds_id (secKind : String) :
    ∀ (l : List GDSection) (i : Nat),
    idsSeqP secKind i l → renumberSectionIds secKind i l = l := by
  intro l
  induction l with
  | nil => intro i _; rfl
  | cons s rest ih =>
      intro i h
      by_cases hn : s.header.name = secKind
      · rw [idsSeqP, if_pos hn] at h
        rw [renumberSectionIds, if_pos hn, setId_of_idAttr s _ h.1,
          ih (i + 1) h.2]
      · rw [idsSeqP, if_neg hn] at h
        rw [renumberSectionIds, if_neg hn, ih i h]

theorem renumberSectionIds_seq_other (k2 secKind : String)
    (hne : ¬(k2 = secKind)) : ∀ (l : List GDSection) (i j : Nat),
    idsSeqP secKind i l → idsSeqP secKind i (renumberSectionIds k2 j l) := by
  intro l
  induction l with
  | nil => intro i j _; trivial
  | cons s rest ih =>
      intro i j h
      by_cases hk : s.header.name = k2
      · have hs : ¬(s.header.name = secKind) := by
          rw [hk]; exact hne
        rw [idsSeqP, if_neg hs] at h
        rw [renumberSectionIds, if_pos hk, idsSeqP,
          if_neg (by rw [setId_name]; exact hs)]
        exact ih i (j + 1) h
      · rw [renumberSectionIds, if_neg hk]
        by_cases hs : s.header.name = secKind
        · rw [idsSeqP, if_pos hs] at h
          rw [idsSeqP, if_pos hs]
          exact ⟨h.1, ih (i + 1) j h.2⟩
        · rw [idsSeqP, if_neg hs] at h
          rw [idsSeqP, if_neg hs]
          exact ih i j h

theorem renumberSectionIds_ok_other (k2 refName : String) (N : Nat)
    (h1 : ¬(k2 = "node")) (h2 : ¬(k2 = "resource")) :
    ∀ (l : List GDSection) (j : Nat),
    okRefsSections refName N l = true →
    okRefsSections refName N (renumberSectionIds k2 j l) = true := by
  intro l
  induction l with
  | nil => intro j _; rfl
  | cons s rest ih =>
      intro j h
      rw [okRefsSections, List.all_cons, Bool.and_eq_true] at h
      by_cases hk : s.header.name = k2
      · rw [renumberSectionIds, if_pos hk, okRefsSections, List.all_cons,
          Bool.and_eq_true]
        refine ⟨?_, ih (j + 1) h.2⟩
        apply okRefsSection_other
        · rw [setId_name, hk]; exact h1
        · rw [setId_name, hk]; exact h2
      · rw [renumberSectionIds, if_neg hk, okRefsSections, List.all_cons,
          Bool.and_eq_true]
        exact ⟨h.1, ih j h.2⟩

theorem filter_length_of_names (l l' : List GDSection)
    (h : l'.map (fun s => s.header.name) = l.map (fun s => s.header.name))
    (nm : String) :
    (l'.filter (fun s => s.header.name = nm)).length =
      (l.filter (fun s => s.header.name = nm)).length := by
  have h1 : ∀ z : List GDSection,
      (z.filter (fun s => s.header.name = nm)).length =
        ((z.map (fun s => s.header.name)).filter (fun x => x = nm)).length := by
    intro z
    induction z with
    | nil => rfl
    | cons a zs ihz =>
        by_cases ha : a.header.name = nm
        · rw [List.filter_cons_of_pos (by simp [ha]), List.map_cons,
            List.filter_cons_of_pos (by simp [ha])]
          simp [ihz]
        · rw [List.filter_cons_of_neg (by simp [ha]), List.map_cons,
            List.filter_cons_of_neg (by simp [ha])]
          exact ihz
  rw [h1 l', h1 l, h]

mutual

theorem rnV_okRefs (refName : String) (m : List (GDValue × Int)) (N : Nat)
    (hm : ∀ k j, idMapGet m k = some j → 1 ≤ j ∧ j ≤ (N : Int)) :
    ∀ v w, rnV refName m v = .ok w → okRefsV refName N w = true
  | .obj n args, w => by
      intro h
      simp only [rnV] at h
      by_cases hc : n = "ExtResource" ∨ n = "SubResource"
      · rw [if_pos hc] at h
        by_cases hr : n = refName
        · rw [if_pos hr] at h
          cases args with
          | nil => cases h
          | cons a rest =>
              cases hg : idMapGet m a with
              | none => simp only [hg] at h; cases a <;> cases h
              | some j =>
                  simp only [hg] at h
                  cases h
                  obtain ⟨hj1, hj2⟩ := hm a j hg
                  simp only [okRefsV]
                  rw [if_pos hc, if_pos hr]
                  simp [hj1, hj2]
        · rw [if_neg hr] at h
          cases h
          simp only [okRefsV]
          rw [if_pos hc, if_neg hr]
      · rw [if_neg hc] at h
        cases hl : rnL refName m args with
        | error e => rw [hl] at h; cases h
        | ok ws =>
            rw [hl] at h
            cases h
            simp only [okRefsV]
            rw [if_neg hc]
            exact rnL_okRefs refName m N hm args ws hl
  | .list xs, w => by
      intro h
      simp only [rnV] at h
      cases hl : rnL refName m xs with
      | error e => rw [hl] at h; cases h
      | ok ws =>
          rw [hl] at h
          cases h
          simp only [okRefsV]
          exact rnL_okRefs refName m N hm xs ws hl
  | .dict xs, w => by
      intro h
      simp only [rnV] at h
      cases hl : rnD refName m xs with
      | error e => rw [hl] at h; cases h
      | ok ws =>
          rw [hl] at h
          cases h
          simp only [okRefsV]
          exact rnD_okRefs refName m N hm xs ws hl
  | .null, w => by intro h; cases h; rfl
  | .bool b, w => by intro h; cases h; rfl
  | .int x, w => by intro h; cases h; rfl
  | .str x, w => by intro h; cases h; rfl
  | .tarr t xs, w => by intro h; cases h; rfl

theorem rnL_okRefs (refName : String) (m : List (GDValue × Int)) (N : Nat)
    (hm : ∀ k j, idMapGet m k = some j → 1 ≤ j ∧ j ≤ (N : Int)) :
    ∀ vs ws, rnL refName m vs = .ok ws → okRefsL refName N ws = true
  | [], ws => by
      intro h
      cases h
      rfl
  | v :: rest, ws => by
      intro h
      simp only [rnL] at h
      cases hv : rnV refName m v with
      | error e => rw [hv] at h; cases h
      | ok w =>
          rw [hv] at h
          cases hr : rnL refName m rest with
          | error e => rw [hr] at h; cases h
          | ok wr =>
              rw [hr] at h
              cases h
              simp only [okRefsL, Bool.and_eq_true]
              exact ⟨rnV_okRefs refName m N hm v w hv,
                rnL_okRefs refName m N hm rest wr hr⟩

theorem rnD_okRefs (refName : String) (m : List (GDValue × Int)) (N : Nat)
    (hm : ∀ k j, idMapGet m k = some j → 1 ≤ j ∧ j ≤ (N : Int)) :
    ∀ vs ws, rnD refName m vs = .ok ws → okRefsD refName N ws = true
  | [], ws => by
      intro h
      cases h
      rfl
  | (k, v) :: rest, ws => by
      intro h
      simp only [rnD] at h
      cases hv : rnV refName m v with
      | error e => rw [hv] at h; cases h
      | ok w =>
          rw [hv] at h
          cases hr : rnD refName m rest with
          | error e => rw [hr] at h; cases h
          | ok wr =>
              rw [hr] at h
              cases h
              simp only [okRefsD, Bool.and_eq_true]
              exact ⟨rnV_okRefs refName m N hm v w hv,
                rnD_okRefs refName m N hm rest wr hr⟩

end

mutual

theorem rnV_id (refName : String) (m : List (GDValue × Int)) (N : Nat)
    (hid : ∀ j : Int, 1 ≤ j → j ≤ (N : Int) → idMapGet m (.int j) = some j) :
    ∀ v, okRefsV refName N v = true → rnV refName m v = .ok v
  | .obj n args => by
      intro h
      simp only [okRefsV] at h
      simp only [rnV]
      by_cases hc : n = "ExtResource" ∨ n = "SubResource"
      · rw [if_pos hc] at h ⊢
        by_cases hr : n = refName
        · rw [if_pos hr] at h ⊢
          cases args with
          | nil => cases h
          | cons a rest =>
              cases a with
              | int j =>
                  simp only [Bool.and_eq_true, decide_eq_true_eq] at h
                  simp only [hid j h.1 h.2]
              | null => cases h
              | bool b => cases h
              | str s => cases h
              | list xs => cases h
              | dict xs => cases h
              | obj n2 args2 => cases h
              | tarr t xs => cases h
        · rw [if_neg hr]
      · rw [if_neg hc] at h ⊢
        rw [rnL_id refName m N hid args h]
        rfl
  | .list xs => by
      intro h
      simp only [okRefsV] at h
      simp only [rnV]
      rw [rnL_id refName m N hid xs h]
      rfl
  | .dict xs => by
      intro h
      simp only [okRefsV] at h
      simp only [rnV]
      rw [rnD_id refName m N hid xs h]
      rfl
  | .null => fun _ => rfl
  | .bool b => fun _ => rfl
  | .int x => fun _ => rfl
  | .str x => fun _ => rfl
  | .tarr t xs => fun _ => rfl

theorem rnL_id (refName : String) (m : List (GDValue × Int)) (N : Nat)
    (hid : ∀ j : Int, 1 ≤ j → j ≤ (N : Int) → idMapGet m (.int j) = some j) :
    ∀ vs, okRefsL refName N vs = true → rnL refName m vs = .ok vs
  | [] => fun _ => rfl
  | v :: rest => by
      intro h
      simp only [okRefsL, Bool.and_eq_true] at h
      simp only [rnL]
      rw [rnV_id refName m N hid v h.1, rnL_id refName m N hid rest h.2]
      rfl

theorem rnD_id (refName : String) (m : List (GDValue × Int)) (N : Nat)
    (hid : ∀ j : Int, 1 ≤ j → j ≤ (N : Int) → idMapGet m (.int j) = some j) :
    ∀ vs, okRefsD refName N vs = true → rnD refName m vs = .ok vs
  | [] => fun _ => rfl
  | (k, v) :: rest => by
      intro h
      simp only [okRefsD, Bool.and_eq_true] at h
      simp only [rnD]
      rw [rnV_id refName m N hid v h.1, rnD_id refName m N hid rest h.2]
      rfl

end

mutual

theorem rnV_pres (refName refName2 : String) (hne : ¬(refName2 = refName))
    (m2 : List (GDValue × Int)) (N : Nat) :
    ∀ v w, rnV refName2 m2 v = .ok w →
      okRefsV refName N v = true → okRefsV refName N w = true
  | .obj n args, w => by
      intro h hok
      simp only [rnV] at h
      by_cases hc : n = "ExtResource" ∨ n = "SubResource"
      · rw [if_pos hc] at h
        by_cases hr : n = refName2
        · rw [if_pos hr] at h
          cases args with
          | nil => cases h
          | cons a rest =>
              cases hg : idMapGet m2 a with
              | none => simp only [hg] at h; cases a <;> cases h
              | some j =>
                  simp only [hg] at h
                  cases h
                  simp only [okRefsV]
                  rw [if_pos hc, if_neg (by rw [hr]; exact hne)]
        · rw [if_neg hr] at h
          cases h
          exact hok
      · rw [if_neg hc] at h
        cases hl : rnL refName2 m2 args with
        | error e => rw [hl] at h; cases h
        | ok ws =>
            rw [hl] at h
            cases h
            simp only [okRefsV] at hok ⊢
            rw [if_neg hc] at hok ⊢
            exact rnL_pres refName refName2 hne m2 N args ws hl hok
  | .list xs, w => by
      intro h hok
      simp only [rnV] at h
      cases hl : rnL refName2 m2 xs with
      | error e => rw [hl] at h; cases h
      | ok ws =>
          rw [hl] at h
          cases h
          simp only [okRefsV] at hok ⊢
          exact rnL_pres refName refName2 hne m2 N xs ws hl hok
  | .dict xs, w => by
      intro h hok
      simp only [rnV] at h
      cases hl : rnD refName2 m2 xs with
      | error e => rw [hl] at h; cases h
      | ok ws =>
          rw [hl] at h
          cases h
          simp only [okRefsV] at hok ⊢
          exact rnD_pres refName refName2 hne m2 N xs ws hl hok
  | .null, w => by intro h _; cases h; rfl
  | .bool b, w => by intro h _; cases h; rfl
  | .int x, w => by intro h _; cases h; rfl
  | .str x, w => by intro h _; cases h; rfl
  | .tarr t xs, w => by intro h _; cases h; rfl

theorem rnL_pres (refName refName2 : String) (hne : ¬(refName2 = refName))
    (m2 : List (GDValue × Int)) (N : Nat) :
    ∀ vs ws, rnL refName2 m2 vs = .ok ws →
      okRefsL refName N vs = true → okRefsL refName N ws = true
  | [], ws => by
      intro h _
      cases h
      rfl
  | v :: rest, ws => by
      intro h hok
      simp only [okRefsL, Bool.and_eq_true] at hok
      simp only [rnL] at h
      cases hv : rnV refName2 m2 v with
      | error e => rw [hv] at h; cases h
      | ok w =>
          rw [hv] at h
          cases hr : rnL refName2 m2 rest with
          | error e => rw [hr] at h; cases h
          | ok wr =>
              rw [hr] at h
              cases h
              simp only [okRefsL, Bool.and_eq_true]
              exact ⟨rnV_pres refName refName2 hne m2 N v w hv hok.1,
                rnL_pres refName refName2 hne m2 N rest wr hr hok.2⟩

theorem rnD_pres (refName refName2 : String) (hne : ¬(refName2 = refName))
    (m2 : List (GDValue × Int)) (N : Nat) :
    ∀ vs ws, rnD refName2 m2 vs = .ok ws →
      okRefsD refName N vs = true → okRefsD refName N ws = true
  | [], ws => by
      intro h _
      cases h
      rfl
  | (k, v) :: rest, ws => by
      intro h hok
      simp only [okRefsD, Bool.and_eq_true] at hok
      simp only [rnD] at h
      cases hv : rnV refName2 m2 v with
      | error e => rw [hv] at h; cases h
      | ok w =>
          rw [hv] at h
          cases hr : rnD refName2 m2 rest with
          | error e => rw [hr] at h; cases h
          | ok wr =>
              rw [hr] at h
              cases h
              simp only [okRefsD, Bool.and_eq_true]
              exact ⟨rnV_pres refName refName2 hne m2 N v w hv hok.1,
                rnD_pres refName refName2 hne m2 N rest wr hr hok.2⟩

end

theorem rnSection_other (refName : String) (m : List (GDValue × Int))
    (s : GDSection) (h1 : ¬(s.header.name = "node"))
    (h2 : ¬(s.header.name = "resource")) :
    rnSection refName m s = .ok s := by
  rw [rnSection, if_neg h1, if_neg h2]

theorem rnSection_name (refName : String) (m : List (GDValue × Int))
    (s t : GDSection) (h : rnSection refName m s = .ok t) :
    t.header.name = s.header.name := by
  rw [rnSection] at h
  by_cases h1 : s.header.name = "node"
  · rw [if_pos h1] at h
    cases ha : rnD refName m s.header.attributes with
    | error e => rw [ha] at h; cases h
    | ok a =>
        rw [ha] at h
        cases hp : rnD refName m s.properties with
        | error e => rw [hp] at h; cases h
        | ok p =>
            rw [hp] at h
            cases h
            rfl
  · rw [if_neg h1] at h
    by_cases h2 : s.header.name = "resource"
    · rw [if_pos h2] at h
      cases hp : rnD refName m s.properties with
      | error e => rw [hp] at h; cases h
      | ok p =>
          rw [hp] at h
          cases h
          rfl
    · rw [if_neg h2] at h
      cases h
      rfl

theorem rnSection_okRefs (refName : String) (m : List (GDValue × Int)) (N : Nat)
    (hm : ∀ k j, idMapGet m k = some j → 1 ≤ j ∧ j ≤ (N : Int))
    (s t : GDSection) (h : rnSection refName m s = .ok t) :
    okRefsSection refName N t = true := by
  rw [rnSection] at h
  by_cases h1 : s.header.name = "node"
  · rw [if_pos h1] at h
    cases ha : rnD refName m s.header.attributes with
    | error e => rw [ha] at h; cases h
    | ok a =>
        rw [ha] at h
        cases hp : rnD refName m s.properties with
        | error e => rw [hp] at h; cases h
        | ok p =>
            rw [hp] at h
            cases h
            rw [okRefsSection, if_pos h1]
            simp only [Bool.and_eq_true]
            exact ⟨rnD_okRefs refName m N hm _ a ha,
              rnD_okRefs refName m N hm _ p hp⟩
  · rw [if_neg h1] at h
    by_cases h2 : s.header.name = "resource"
    · rw [if_pos h2] at h
      cases hp : rnD refName m s.properties with
      | error e => rw [hp] at h; cases h
      | ok p =>
          rw [hp] at h
          cases h
          rw [okRefsSection, if_neg h1, if_pos h2]
          exact rnD_okRefs refName m N hm _ p hp
    · rw [if_neg h2] at h
      cases h
      exact okRefsSection_other refName N s h1 h2

theorem rnSection_id (refName : String) (m : List (GDValue × Int)) (N : Nat)
    (hid : ∀ j : Int, 1 ≤ j → j ≤ (N : Int) → idMapGet m (.int j) = some j)
    (s : GDSection) (hok : okRefsSection refName N s = true) :
    rnSection refName m s = .ok s := by
  rw [okRefsSection] at hok
  rw [rnSection]
  by_cases h1 : s.header.name = "node"
  · rw [if_pos h1] at hok ⊢
    simp only [Bool.and_eq_true] at hok
    rw [rnD_id refName m N hid _ hok.1, rnD_id refName m N hid _ hok.2]
    rfl
  · rw [if_neg h1] at hok ⊢
    by_cases h2 : s.header.name = "resource"
    · rw [if_pos h2] at hok ⊢
      rw [rnD_id refName m N hid _ hok]
      rfl
    · rw [if_neg h2]

theorem rnSection_pres (refName refName2 : String) (hne : ¬(refName2 = refName))
    (m2 : List (GDValue × Int)) (N : Nat) (s t : GDSection)
    (h : rnSection refName2 m2 s = .ok t)
    (hok : okRefsSection refName N s = true) :
    okRefsSection refName N t = true := by
  rw [rnSection] at h
  rw [okRefsSection] at hok
  by_cases h1 : s.header.name = "node"
  · rw [if_pos h1] at h hok
    simp only [Bool.and_eq_true] at hok
    cases ha : rnD refName2 m2 s.header.attributes with
    | error e => rw [ha] at h; cases h
    | ok a =>
        rw [ha] at h
        cases hp : rnD refName2 m2 s.properties with
        | error e => rw [hp] at h; cases h
        | ok p =>
            rw [hp] at h
            cases h
            rw [okRefsSection, if_pos h1]
            simp only [Bool.and_eq_true]
            exact ⟨rnD_pres refName refName2 hne m2 N _ a ha hok.1,
              rnD_pres refName refName2 hne m2 N _ p hp hok.2⟩
  · rw [if_neg h1] at h hok
    by_cases h2 : s.header.name = "resource"
    · rw [if_pos h2] at h hok
      cases hp : rnD refName2 m2 s.properties with
      | error e => rw [hp] at h; cases h
      | ok p =>
          rw [hp] at h
          cases h
          rw [okRefsSection, if_neg h1, if_pos h2]
          exact rnD_pres refName refName2 hne m2 N _ p hp hok
    · rw [if_neg h2] at h
      cases h
      exact okRefsSection_other refName N s h1 h2

theorem rnSections_names (refName : String) (m : List (GDValue × Int)) :
    ∀ (l l' : List GDSection), rnSections refName m l = .ok l' →
    l'.map (fun s => s.header.name) = l.map (fun s => s.header.name) := by
  intro l
  induction l with
  | nil =>
      intro l' h
      cases h
      rfl
  | cons s rest ih =>
      intro l' h
      rw [rnSections] at h
      cases hs : rnSection refName m s with
      | error e => rw [hs] at h; cases h
      | ok t =>
          rw [hs] at h
          cases hr : rnSections refName m rest with
          | error e => rw [hr] at h; cases h
          | ok tr =>
              rw [hr] at h
              cases h
              simp only [List.map_cons, ih tr hr,
                rnSection_name refName m s t hs]

theorem rnSections_seq (refName secKind : String) (m : List (GDValue × Int))
    (hn : ¬(secKind = "node")) (hr2 : ¬(secKind = "resource")) :
    ∀ (l l' : List GDSection) (i : Nat), rnSections refName m l = .ok l' →
    idsSeqP secKind i l → idsSeqP secKind i l' := by
  intro l
  induction l with
  | nil =>
      intro l' i h _
      cases h
      trivial
  | cons s rest ih =>
      intro l' i h hseq
      rw [rnSections] at h
      cases hs : rnSection refName m s with
      | error e => rw [hs] at h; cases h
      | ok t =>
          rw [hs] at h
          cases hrr : rnSections refName m rest with
          | error e => rw [hrr] at h; cases h
          | ok tr =>
              rw [hrr] at h
              cases h
              have hname := rnSection_name refName m s t hs
              by_cases hk : s.header.name = secKind
              · have hts : t = s := by
                  have h1 : ¬(s.header.name = "node") := by rw [hk]; exact hn
                  have h2 : ¬(s.header.name = "resource") := by
                    rw [hk]; exact hr2
                  have := rnSection_other refName m s h1 h2
                  rw [this] at hs
                  cases hs
                  rfl
                subst hts
                rw [idsSeqP, if_pos hk] at hseq ⊢
                exact ⟨hseq.1, ih tr (i + 1) hrr hseq.2⟩
              · rw [idsSeqP, if_neg hk] at hseq
                rw [idsSeqP, if_neg (by rw [hname]; exact hk)]
                exact ih tr i hrr hseq

theorem rnSections_okRefs (refName : String) (m : List (GDValue × Int)) (N : Nat)
    (hm : ∀ k j, idMapGet m k = some j → 1 ≤ j ∧ j ≤ (N : Int)) :
    ∀ (l l' : List GDSection), rnSections refName m l = .ok l' →
    okRefsSections refName N l' = true := by
  intro l
  induction l with
  | nil =>
      intro l' h
      cases h
      rfl
  | cons s rest ih =>
      intro l' h
      rw [rnSections] at h
      cases hs : rnSection refName m s with
      | error e => rw [hs] at h; cases h
      | ok t =>
          rw [hs] at h
          cases hrr : rnSections refName m rest with
          | error e => rw [hrr] at h; cases h
          | ok tr =>
              rw [hrr] at h
              cases h
              rw [okRefsSections, List.all_cons, Bool.and_eq_true]
              exact ⟨rnSection_okRefs refName m N hm s t hs, ih tr hrr⟩

theorem rnSections_id (refName : String) (m : List (GDValue × Int)) (N : Nat)
    (hid : ∀ j : Int, 1 ≤ j → j ≤ (N : Int) → idMapGet m (.int j) = some j) :
    ∀ (l : List GDSection), okRefsSections refName N l = true →
    rnSections refName m l = .ok l := by
  intro l
  induction l with
  | nil => intro _; rfl
  | cons s rest ih =>
      intro hok
      rw [okRefsSections, List.all_cons, Bool.and_eq_true] at hok
      rw [rnSections, rnSection_id refName m N hid s hok.1, ih hok.2]
      rfl

theorem rnSections_pres (refName refName2 : String) (hne : ¬(refName2 = refName))
    (m2 : List (GDValue × Int)) (N : Nat) :
    ∀ (l l' : List GDSection), rnSections refName2 m2 l = .ok l' →
    okRefsSections refName N l = true → okRefsSections refName N l' = true := by
  intro l
  induction l with
  | nil =>
      intro l' h _
      cases h
      rfl
  | cons s rest ih =>
      intro l' h hok
      rw [okRefsSections, List.all_cons, Bool.and_eq_true] at hok
      rw [rnSections] at h
      cases hs : rnSection refName2 m2 s with
      | error e => rw [hs] at h; cases h
      | ok t =>
          rw [hs] at h
          cases hrr : rnSections refName2 m2 rest with
          | error e => rw [hrr] at h; cases h
          | ok tr =>
              rw [hrr] at h
              cases h
              rw [okRefsSections, List.all_cons, Bool.and_eq_true]
              exact ⟨rnSection_pres refName refName2 hne m2 N s t hs hok.1,
                ih tr hrr hok.2⟩

theorem renumberPass_post (f f1 : GDFile) (secKind refName : String)
    (hn : ¬(secKind = "node")) (hr : ¬(secKind = "resource"))
    (h : renumberPass f secKind refName = .ok f1) :
    idsSeqP secKind 0 f1.sections ∧
    okRefsSections refName (f.getSections secKind).length f1.sections = true ∧
    f1.sections.map (fun s => s.header.name) =
      f.sections.map (fun s => s.header.name) := by
  rw [renumberPass] at h
  cases hb : buildIdMap 0 [] (f.getSections secKind) with
  | error e => rw [hb] at h; cases h
  | ok m =>
      simp only [hb] at h
      cases hrn : rnSections refName m (renumberSectionIds secKind 0 f.sections)
        with
      | error e => simp only [hrn, Except.map] at h; cases h
      | ok l2 =>
          simp only [hrn, Except.map] at h
          cases h
          have hm : ∀ k j, idMapGet m k = some j →
              1 ≤ j ∧ j ≤ ((f.getSections secKind).length : Int) := by
            apply buildIdMap_range (f.getSections secKind) 0 [] m _ hb
            · intro k j hk
              cases hk
            · omega
          refine ⟨?_, ?_, ?_⟩
          · exact rnSections_seq refName secKind m hn hr _ l2 0 hrn
              (renumberSectionIds_seq secKind f.sections 0)
          · exact rnSections_okRefs refName m _ hm _ l2 hrn
          · rw [rnSections_names refName m _ l2 hrn,
              renumberSectionIds_names secKind f.sections 0]

theorem renumberPass_pres (f f2 : GDFile) (secKind refName k2 r2 : String)
    (N : Nat)
    (hn : ¬(secKind = "node")) (hr : ¬(secKind = "resource"))
    (hk2n : ¬(k2 = "node")) (hk2r : ¬(k2 = "resource"))
    (hkne : ¬(k2 = secKind)) (hrne : ¬(r2 = refName))
    (h : renumberPass f k2 r2 = .ok f2)
    (hseq : idsSeqP secKind 0 f.sections)
    (hok : okRefsSections refName N f.sections = true) :
    idsSeqP secKind 0 f2.sections ∧
    okRefsSections refName N f2.sections = true := by
  rw [renumberPass] at h
  cases hb : buildIdMap 0 [] (f.getSections k2) with
  | error e => rw [hb] at h; cases h
  | ok m2 =>
      simp only [hb] at h
      cases hrn : rnSections r2 m2 (renumberSectionIds k2 0 f.sections) with
      | error e => simp only [hrn, Except.map] at h; cases h
      | ok l2 =>
          simp only [hrn, Except.map] at h
          cases h
          constructor
          · exact rnSections_seq r2 secKind m2 hn hr _ l2 0 hrn
              (renumberSectionIds_seq_other k2 secKind hkne f.sections 0 0 hseq)
          · exact rnSections_pres refName r2 hrne m2 N _ l2 hrn
              (renumberSectionIds_ok_other k2 refName N hk2n hk2r f.sections 0
                hok)

theorem renumberPass_id (f : GDFile) (secKind refName : String)
    (hseq : idsSeqP secKind 0 f.sections)
    (hok : okRefsSections refName (f.getSections secKind).length
      f.sections = true) :
    renumberPass f secKind refName = .ok f := by
  have hfil : seqIds 0 (f.getSections secKind) :=
    idsSeqP_filter secKind f.sections 0 hseq
  obtain ⟨m, hbm, hid⟩ := buildIdMap_seq (f.getSections secKind) 0 [] hfil
    (by intro j h1 h2; omega)
  have hid2 : ∀ j : Int, 1 ≤ j →
      j ≤ (((f.getSections secKind).length : Nat) : Int) →
      idMapGet m (.int j) = some j := by
    intro j h1 h2
    apply hid j h1
    omega
  rw [renumberPass]
  simp only [hbm]
  rw [renumberSectionIds_id secKind f.sections 0 hseq,
    rnSections_id refName m _ hid2 f.sections hok]
  rfl

/-- C4: renumber_resource_ids is idempotent: a second call on the
result of a successful call returns the same file unchanged — after the
first call the ext and sub resource ids are sequential from 1 and every
rewritten reference carries an id in range, so the second call's id maps
are identities. -/
theorem C4_confirmed (f f1 : GDFile) (h : renumberResourceIds f = .ok f1) :
    renumberResourceIds f1 = .ok f1 := by
  rw [renumberResourceIds] at h ⊢
  cases hE : renumberPass f "ext_resource" "ExtResource" with
  | error e => rw [hE] at h; cases h
  | ok g =>
      simp only [hE, Except.bind] at h
      obtain ⟨hseqE, hokE, hnamesG⟩ :=
        renumberPass_post f g "ext_resource" "ExtResource" (by decide)
          (by decide) hE
      obtain ⟨hseqS, hokS, hnamesF1⟩ :=
        renumberPass_post g f1 "sub_resource" "SubResource" (by decide)
          (by decide) h
      obtain ⟨hseqE1, hokE1⟩ :=
        renumberPass_pres g f1 "ext_resource" "ExtResource" "sub_resource"
          "SubResource" (f.getSections "ext_resource").length (by decide)
          (by decide) (by decide) (by decide) (by decide) (by decide) h
          hseqE hokE
      have hcntE : (f1.getSections "ext_resource").length =
          (f.getSections "ext_resource").length := by
        apply filter_length_of_names
        rw [hnamesF1, hnamesG]
      have hcntS : (f1.getSections "sub_resource").length =
          (g.getSections "sub_resource").length := by
        apply filter_length_of_names
        rw [hnamesF1]
      have hpassE : renumberPass f1 "ext_resource" "ExtResource" = .ok f1 := by
        apply renumberPass_id f1 "ext_resource" "ExtResource" hseqE1
        rw [hcntE]
        exact hokE1
      have hpassS : renumberPass f1 "sub_resource" "SubResource" = .ok f1 := by
        apply renumberPass_id f1 "sub_resource" "SubResource" hseqS
        rw [hcntS]
        exact hokS
      simp only [hpassE, Except.bind]
      exact hpassS

/-- C4 witness: idempotence applied to the concrete gapped-id scene —
the first call renumbers ids 3, 7 to 1, 2, the second is the
identity. -/
theorem C4_witness : renumberResourceIds c4f1 = .ok c4f1 :=
  C4_confirmed c4file c4f1 (by rfl)

mutual

theorem walkRange_v (refName : String) (N : Nat) :
    ∀ v, okRefsV refName N v = true → ∀ r ∈ iterRes v,
      refKind r refName = true →
      ∃ j : Int, refIdOf r = some (.int j) ∧ 1 ≤ j ∧ j ≤ (N : Int)
  | .obj n args => by
      intro hok r hr hk
      simp only [okRefsV] at hok
      simp only [iterRes] at hr
      by_cases hc : n = "ExtResource" ∨ n = "SubResource"
      · rw [if_pos hc] at hok hr
        simp only [List.mem_singleton] at hr
        subst hr
        simp only [refKind, decide_eq_true_eq] at hk
        rw [if_pos hk] at hok
        cases args with
        | nil => cases hok
        | cons a rest =>
            cases a with
            | int j =>
                simp only [Bool.and_eq_true, decide_eq_true_eq] at hok
                exact ⟨j, rfl, hok.1, hok.2⟩
            | null => cases hok
            | bool b => cases hok
            | str s => cases hok
            | list xs => cases hok
            | dict xs => cases hok
            | obj n2 args2 => cases hok
            | tarr t xs => cases hok
      · rw [if_neg hc] at hok hr
        exact walkRange_l refName N args hok r hr hk
  | .list xs => by
      intro hok r hr hk
      simp only [okRefsV] at hok
      simp only [iterRes] at hr
      exact walkRange_l refName N xs hok r hr hk
  | .dict xs => by
      intro hok r hr hk
      simp only [okRefsV] at hok
      simp only [iterRes] at hr
      exact walkRange_d refName N xs hok r hr hk
  | .null => by intro _ r hr; cases hr
  | .bool b => by intro _ r hr; cases hr
  | .int x => by intro _ r hr; cases hr
  | .str x => by intro _ r hr; cases hr
  | .tarr t xs => by intro _ r hr; cases hr

theorem walkRange_l (refName : String) (N : Nat) :
    ∀ vs, okRefsL refName N vs = true → ∀ r ∈ iterResL vs,
      refKind r refName = true →
      ∃ j : Int, refIdOf r = some (.int j) ∧ 1 ≤ j ∧ j ≤ (N : Int)
  | [] => by intro _ r hr; cases hr
  | v :: rest => by
      intro hok r hr hk
      simp only [okRefsL, Bool.and_eq_true] at hok
      simp only [iterResL, List.mem_append] at hr
      rcases hr with h1 | h2
      · exact walkRange_v refName N v hok.1 r h1 hk
      · exact walkRange_l refName N rest hok.2 r h2 hk

theorem walkRange_d (refName : String) (N : Nat) :
    ∀ vs, okRefsD refName N vs = true → ∀ r ∈ iterResD vs,
      refKind r refName = true →
      ∃ j : Int, refIdOf r = some (.int j) ∧ 1 ≤ j ∧ j ≤ (N : Int)
  | [] => by intro _ r hr; cases hr
  | (k, v) :: rest => by
      intro hok r hr hk
      simp only [okRefsD, Bool.and_eq_true] at hok
      simp only [iterResD, List.mem_append] at hr
      rcases hr with h1 | h2
      · exact walkRange_v refName N v hok.1 r h1 hk
      · exact walkRange_d refName N rest hok.2 r h2 hk

end

mutual

theorem rnTotal_v (refName : String) (m : List (GDValue × Int)) :
    ∀ v, (∀ r ∈ iterRes v, refKind r refName = true →
      ∃ a, refIdOf r = some a ∧ (idMapGet m a).isSome = true) →
    ∃ w, rnV refName m v = .ok w
  | .obj n args => by
      intro h
      by_cases hc : n = "ExtResource" ∨ n = "SubResource"
      · by_cases hr : n = refName
        · obtain ⟨a, hida, hsome⟩ := h (.obj n args)
            (by simp [iterRes, if_pos hc]) (by simp [refKind, hr])
          cases args with
          | nil => cases hida
          | cons a0 rest =>
              rw [refIdOf] at hida
              cases hida
              cases hg : idMapGet m a with
              | none => rw [hg] at hsome; cases hsome
              | some j =>
                  refine ⟨.obj n (.int j :: rest), ?_⟩
                  simp only [rnV]
                  rw [if_pos hc, if_pos hr]
                  simp only [hg]
        · refine ⟨.obj n args, ?_⟩
          simp only [rnV]
          rw [if_pos hc, if_neg hr]
      · obtain ⟨ws, hws⟩ := rnTotal_l refName m args (by
          intro r hrm hk
          apply h r _ hk
          simp only [iterRes]
          rw [if_neg hc]
          exact hrm)
        refine ⟨.obj n ws, ?_⟩
        simp only [rnV]
        rw [if_neg hc, hws]
        rfl
  | .list xs => by
      intro h
      obtain ⟨ws, hws⟩ := rnTotal_l refName m xs (by
        intro r hrm hk
        exact h r (by simpa [iterRes] using hrm) hk)
      refine ⟨.list ws, ?_⟩
      simp only [rnV]
      rw [hws]
      rfl
  | .dict xs => by
      intro h
      obtain ⟨ws, hws⟩ := rnTotal_d refName m xs (by
        intro r hrm hk
        exact h r (by simpa [iterRes] using hrm) hk)
      refine ⟨.dict ws, ?_⟩
      simp only [rnV]
      rw [hws]
      rfl
  | .null => fun _ => ⟨.null, rfl⟩
  | .bool b => fun _ => ⟨.bool b, rfl⟩
  | .int x => fun _ => ⟨.int x, rfl⟩
  | .str x => fun _ => ⟨.str x, rfl⟩
  | .tarr t xs => fun _ => ⟨.tarr t xs, rfl⟩

theorem rnTotal_l (refName : String) (m : List (GDValue × Int)) :
    ∀ vs, (∀ r ∈ iterResL vs, refKind r refName = true →
      ∃ a, refIdOf r = some a ∧ (idMapGet m a).isSome = true) →
    ∃ ws, rnL refName m vs = .ok ws
  | [] => fun _ => ⟨[], rfl⟩
  | v :: rest => by
      intro h
      obtain ⟨w, hw⟩ := rnTotal_v refName m v (by
        intro r hrm hk
        exact h r (by simp [iterResL, hrm]) hk)
      obtain ⟨ws, hws⟩ := rnTotal_l refName m rest (by
        intro r hrm hk
        exact h r (by simp [iterResL, hrm]) hk)
      refine ⟨w :: ws, ?_⟩
      simp only [rnL]
      rw [hw, hws]
      rfl

theorem rnTotal_d (refName : String) (m : List (GDValue × Int)) :
    ∀ vs, (∀ r ∈ iterResD vs, refKind r refName = true →
      ∃ a, refIdOf r = some a ∧ (idMapGet m a).isSome = true) →
    ∃ ws, rnD refName m vs = .ok ws
  | [] => fun _ => ⟨[], rfl⟩
  | (k, v) :: rest => by
      intro h
      obtain ⟨w, hw⟩ := rnTotal_v refName m v (by
        intro r hrm hk
        exact h r (by simp [iterResD, hrm]) hk)
      obtain ⟨ws, hws⟩ := rnTotal_d refName m rest (by
        intro r hrm hk
        exact h r (by simp [iterResD, hrm]) hk)
      refine ⟨(k, w) :: ws, ?_⟩
      simp only [rnD]
      rw [hw, hws]
      rfl

end

mutual

theorem rnRes_v (refName : String) (m : List (GDValue × Int)) :
    ∀ v w, rnV refName m v = .ok w →
    ∀ r ∈ iterRes v, refKind r refName = true →
      ∃ a, refIdOf r = some a ∧ (idMapGet m a).isSome = true
  | .obj n args, w => by
      intro h r hr hk
      simp only [rnV] at h
      simp only [iterRes] at hr
      by_cases hc : n = "ExtResource" ∨ n = "SubResource"
      · rw [if_pos hc] at h hr
        simp only [List.mem_singleton] at hr
        subst hr
        simp only [refKind, decide_eq_true_eq] at hk
        rw [if_pos hk] at h
        cases args with
        | nil => cases h
        | cons a0 rest =>
            cases hg : idMapGet m a0 with
            | none => simp only [hg] at h; cases a0 <;> cases h
            | some j => exact ⟨a0, rfl, by rw [hg]; rfl⟩
      · rw [if_neg hc] at h hr
        cases hl : rnL refName m args with
        | error e => rw [hl] at h; cases h
        | ok ws => exact rnRes_l refName m args ws hl r hr hk
  | .list xs, w => by
      intro h r hr hk
      simp only [rnV] at h
      simp only [iterRes] at hr
      cases hl : rnL refName m xs with
      | error e => rw [hl] at h; cases h
      | ok ws => exact rnRes_l refName m xs ws hl r hr hk
  | .dict xs, w => by
      intro h r hr hk
      simp only [rnV] at h
      simp only [iterRes] at hr
      cases hl : rnD refName m xs with
      | error e => rw [hl] at h; cases h
      | ok ws => exact rnRes_d refName m xs ws hl r hr hk
  | .null, w => by intro _ r hr; cases hr
  | .bool b, w => by intro _ r hr; cases hr
  | .int x, w => by intro _ r hr; cases hr
  | .str x, w => by intro _ r hr; cases hr
  | .tarr t xs, w => by intro _ r hr; cases hr

theorem rnRes_l (refName : String) (m : List (GDValue × Int)) :
    ∀ vs ws, rnL refName m vs = .ok ws →
    ∀ r ∈ iterResL vs, refKind r refName = true →
      ∃ a, refIdOf r = some a ∧ (idMapGet m a).isSome = true
  | [], ws => by intro _ r hr; cases hr
  | v :: rest, ws => by
      intro h r hr hk
      simp only [rnL] at h
      simp only [iterResL, List.mem_append] at hr
      cases hv : rnV refName m v with
      | error e => rw [hv] at h; cases h
      | ok w =>
          rw [hv] at h
          cases hrr : rnL refName m rest with
          | error e => rw [hrr] at h; cases h
          | ok wr =>
              rcases hr with h1 | h2
              · exact rnRes_v refName m v w hv r h1 hk
              · exact rnRes_l refName m rest wr hrr r h2 hk

theorem rnRes_d (refName : String) (m : List (GDValue × Int)) :
    ∀ vs ws, rnD refName m vs = .ok ws →
    ∀ r ∈ iterResD vs, refKind r refName = true →
      ∃ a, refIdOf r = some a ∧ (idMapGet m a).isSome = true
  | [], ws => by intro _ r hr; cases hr
  | (k, v) :: rest, ws => by
      intro h r hr hk
      simp only [rnD] at h
      simp only [iterResD, List.mem_append] at hr
      cases hv : rnV refName m v with
      | error e => rw [hv] at h; cases h
      | ok w =>
          rw [hv] at h
          cases hrr : rnD refName m rest with
          | error e => rw [hrr] at h; cases h
          | ok wr =>
              rcases hr with h1 | h2
              · exact rnRes_v refName m v w hv r h1 hk
              · exact rnRes_d refName m rest wr hrr r h2 hk

end

mutual

theorem rnWalk_v (refName : String) (m : List (GDValue × Int)) :
    ∀ v w, rnV refName m v = .ok w → ∀ refName2, ¬(refName2 = refName) →
    (iterRes w).filter (fun r => refKind r refName2) =
      (iterRes v).filter (fun r => refKind r refName2)
  | .obj n args, w => by
      intro h refName2 hne
      simp only [rnV] at h
      by_cases hc : n = "ExtResource" ∨ n = "SubResource"
      · rw [if_pos hc] at h
        by_cases hr : n = refName
        · rw [if_pos hr] at h
          cases args with
          | nil => cases h
          | cons a0 rest =>
              cases hg : idMapGet m a0 with
              | none => simp only [hg] at h; cases a0 <;> cases h
              | some j =>
                  simp only [hg] at h
                  cases h
                  have hk : ∀ rest2 : List GDValue,
                      refKind (.obj n rest2) refName2 = false := by
                    intro rest2
                    simp only [refKind, decide_eq_false_iff_not]
                    rw [hr]
                    exact fun he => hne he.symm
                  rw [iterRes, if_pos hc, iterRes, if_pos hc,
                    List.filter_cons_of_neg (by simp [hk]),
                    List.filter_cons_of_neg (by simp [hk])]
        · rw [if_neg hr] at h
          cases h
          rfl
      · rw [if_neg hc] at h
        cases hl : rnL refName m args with
        | error e => rw [hl] at h; cases h
        | ok ws =>
            rw [hl] at h
            cases h
            rw [iterRes, if_neg hc, iterRes, if_neg hc]
            exact rnWalk_l refName m args ws hl refName2 hne
  | .list xs, w => by
      intro h refName2 hne
      simp only [rnV] at h
      cases hl : rnL refName m xs with
      | error e => rw [hl] at h; cases h
      | ok ws =>
          rw [hl] at h
          cases h
          rw [iterRes, iterRes]
          exact rnWalk_l refName m xs ws hl refName2 hne
  | .dict xs, w => by
      intro h refName2 hne
      simp only [rnV] at h
      cases hl : rnD refName m xs with
      | error e => rw [hl] at h; cases h
      | ok ws =>
          rw [hl] at h
          cases h
          rw [iterRes, iterRes]
          exact rnWalk_d refName m xs ws hl refName2 hne
  | .null, w => by intro h _ _; cases h; rfl
  | .bool b, w => by intro h _ _; cases h; rfl
  | .int x, w => by intro h _ _; cases h; rfl
  | .str x, w => by intro h _ _; cases h; rfl
  | .tarr t xs, w => by intro h _ _; cases h; rfl

theorem rnWalk_l (refName : String) (m : List (GDValue × Int)) :
    ∀ vs ws, rnL refName m vs = .ok ws → ∀ refName2, ¬(refName2 = refName) →
    (iterResL ws).filter (fun r => refKind r refName2) =
      (iterResL vs).filter (fun r => refKind r refName2)
  | [], ws => by intro h _ _; cases h; rfl
  | v :: rest, ws => by
      intro h refName2 hne
      simp only [rnL] at h
      cases hv : rnV refName m v with
      | error e => rw [hv] at h; cases h
      | ok w =>
          rw [hv] at h
          cases hrr : rnL refName m rest with
          | error e => rw [hrr] at h; cases h
          | ok wr =>
              rw [hrr] at h
              cases h
              rw [iterResL, iterResL, List.filter_append, List.filter_append,
                rnWalk_v refName m v w hv refName2 hne,
                rnWalk_l refName m rest wr hrr refName2 hne]

theorem rnWalk_d (refName : String) (m : List (GDValue × Int)) :
    ∀ vs ws, rnD refName m vs = .ok ws → ∀ refName2, ¬(refName2 = refName) →
    (iterResD ws).filter (fun r => refKind r refName2) =
      (iterResD vs).filter (fun r => refKind r refName2)
  | [], ws => by intro h _ _; cases h; rfl
  | (k, v) :: rest, ws => by
      intro h refName2 hne
      simp only [rnD] at h
      cases hv : rnV refName m v with
      | error e => rw [hv] at h; cases h
      | ok w =>
          rw [hv] at h
          cases hrr : rnD refName m rest with
          | error e => rw [hrr] at h; cases h
          | ok wr =>
              rw [hrr] at h
              cases h
              rw [iterResD, iterResD, List.filter_append, List.filter_append,
                rnWalk_v refName m v w hv refName2 hne,
                rnWalk_d refName m rest wr hrr refName2 hne]

end

mutual

theorem rnNoKey_v (refName : String) (m : List (GDValue × Int)) :
    ∀ v, (∀ r ∈ iterRes v, refKind r refName = true →
      ∃ k : Int, refIdOf r = some (.int k)) →
    ∀ e, rnV refName m v = .error e → e = RnErr.refError
  | .obj n args => by
      intro h e he
      simp only [rnV] at he
      by_cases hc : n = "ExtResource" ∨ n = "SubResource"
      · rw [if_pos hc] at he
        by_cases hr : n = refName
        · rw [if_pos hr] at he
          cases args with
          | nil =>
              obtain ⟨k, ha⟩ := h (.obj n [])
                (by simp [iterRes, if_pos hc]) (by simp [refKind, hr])
              cases ha
          | cons a0 rest =>
              obtain ⟨k, hk0⟩ := h (.obj n (a0 :: rest))
                (by simp [iterRes, if_pos hc]) (by simp [refKind, hr])
              injection hk0 with hk1
              subst hk1
              cases hg : idMapGet m (GDValue.int k) with
              | none =>
                  simp only [hg] at he
                  cases he
                  rfl
              | some j => simp only [hg] at he; cases he
        · rw [if_neg hr] at he
          cases he
      · rw [if_neg hc] at he
        cases hl : rnL refName m args with
        | error e2 =>
            rw [hl] at he
            injection he with hee
            rw [← hee]
            apply rnNoKey_l refName m args _ e2 hl
            intro r hrm hk
            apply h r _ hk
            simp only [iterRes]
            rw [if_neg hc]
            exact hrm
        | ok ws => rw [hl] at he; cases he
  | .list xs => by
      intro h e he
      simp only [rnV] at he
      cases hl : rnL refName m xs with
      | error e2 =>
          rw [hl] at he
          injection he with hee
          rw [← hee]
          apply rnNoKey_l refName m xs _ e2 hl
          intro r hrm hk
          exact h r (by simpa [iterRes] using hrm) hk
      | ok ws => rw [hl] at he; cases he
  | .dict xs => by
      intro h e he
      simp only [rnV] at he
      cases hl : rnD refName m xs with
      | error e2 =>
          rw [hl] at he
          injection he with hee
          rw [← hee]
          apply rnNoKey_d refName m xs _ e2 hl
          intro r hrm hk
          exact h r (by simpa [iterRes] using hrm) hk
      | ok ws => rw [hl] at he; cases he
  | .null => by intro _ e he; cases he
  | .bool b => by intro _ e he; cases he
  | .int x => by intro _ e he; cases he
  | .str x => by intro _ e he; cases he
  | .tarr t xs => by intro _ e he; cases he

theorem rnNoKey_l (refName : String) (m : List (GDValue × Int)) :
    ∀ vs, (∀ r ∈ iterResL vs, refKind r refName = true →
      ∃ k : Int, refIdOf r = some (.int k)) →
    ∀ e, rnL refName m vs = .error e → e = RnErr.refError
  | [] => by intro _ e he; cases he
  | v :: rest => by
      intro h e he
      simp only [rnL] at he
      cases hv : rnV refName m v with
      | error e2 =>
          rw [hv] at he
          injection he with hee
          rw [← hee]
          exact rnNoKey_v refName m v
            (fun r hrm hk => h r (by simp [iterResL, hrm]) hk) e2 hv
      | ok w =>
          rw [hv] at he
          cases hrr : rnL refName m rest with
          | error e2 =>
              rw [hrr] at he
              injection he with hee
              rw [← hee]
              exact rnNoKey_l refName m rest
                (fun r hrm hk => h r (by simp [iterResL, hrm]) hk) e2 hrr
          | ok wr => rw [hrr] at he; cases he

theorem rnNoKey_d (refName : String) (m : List (GDValue × Int)) :
    ∀ vs, (∀ r ∈ iterResD vs, refKind r refName = true →
      ∃ k : Int, refIdOf r = some (.int k)) →
    ∀ e, rnD refName m vs = .error e → e = RnErr.refError
  | [] => by intro _ e he; cases he
  | (k, v) :: rest => by
      intro h e he
      simp only [rnD] at he
      cases hv : rnV refName m v with
      | error e2 =>
          rw [hv] at he
          injection he with hee
          rw [← hee]
          exact rnNoKey_v refName m v
            (fun r hrm hk => h r (by simp [iterResD, hrm]) hk) e2 hv
      | ok w =>
          rw [hv] at he
          cases hrr : rnD refName m rest with
          | error e2 =>
              rw [hrr] at he
              injection he with hee
              rw [← hee]
              exact rnNoKey_d refName m rest
                (fun r hrm hk => h r (by simp [iterResD, hrm]) hk) e2 hrr
          | ok wr => rw [hrr] at he; cases he

end

theorem filter_nonnode_filter (nm : String) (hnm : ¬(nm = "node")) :
    ∀ l : List GDSection,
    ((l.filter (fun s => !(s.header.name = "node" : Bool))).filter
      (fun s => s.header.name = nm)) = l.filter (fun s => s.header.name = nm) := by
  intro l
  induction l with
  | nil => rfl
  | cons s rest ih =>
      by_cases h1 : s.header.name = "node"
      · have h2 : ¬(s.header.name = nm) := by
          rw [h1]
          exact fun he => hnm he.symm
        rw [List.filter_cons_of_neg (by simp [h1]),
          List.filter_cons_of_neg (by simp [h2]), ih]
      · rw [List.filter_cons_of_pos (by simp [h1])]
        by_cases h2 : s.header.name = nm
        · rw [List.filter_cons_of_pos (by simp [h2]),
            List.filter_cons_of_pos (by simp [h2]), ih]
        · rw [List.filter_cons_of_neg (by simp [h2]),
            List.filter_cons_of_neg (by simp [h2]), ih]

theorem filter_nonnode_node :
    ∀ l : List GDSection,
    ((l.filter (fun s => !(s.header.name = "node" : Bool))).filter
      (fun s => s.header.name = "node")) = [] := by
  intro l
  induction l with
  | nil => rfl
  | cons s rest ih =>
      by_cases h1 : s.header.name = "node"
      · rw [List.filter_cons_of_neg (by simp [h1]), ih]
      · rw [List.filter_cons_of_pos (by simp [h1]),
          List.filter_cons_of_neg (by simp [h1]), ih]

theorem insertScan_decomp_idx (n : Nat) (s : GDSection) :
    ∀ (l l' : List GDSection) (i : Nat),
    GDFile.insertScan n s l = some (l', i) →
    ∃ pre post, l = pre ++ post ∧ l' = pre ++ s :: post ∧ i = pre.length := by
  intro l
  induction l with
  | nil =>
      intro l' i h
      simp only [GDFile.insertScan] at h
      cases h
      exact ⟨[], [], rfl, rfl, rfl⟩
  | cons sec rest ih =>
      intro l' i h
      cases h0 : sceneOrderIdx sec.header.name with
      | none =>
          rw [GDFile.insertScan] at h
          simp only [h0] at h
          cases h
      | some idx =>
          rw [GDFile.insertScan] at h
          simp only [h0] at h
          by_cases hlt : n < idx
          · rw [if_pos hlt] at h
            cases h
            exact ⟨[], sec :: rest, rfl, rfl, rfl⟩
          · rw [if_neg hlt] at h
            cases hrec : GDFile.insertScan n s rest with
            | none => rw [hrec] at h; cases h
            | some p =>
                rw [hrec] at h
                simp only [Option.map_some'] at h
                cases h
                obtain ⟨pre, post, h1, h2, h3⟩ := ih p.1 p.2 hrec
                exact ⟨sec :: pre, post, by rw [h1]; rfl, by rw [h2]; rfl,
                  by simp [h3]⟩

theorem commonAddSection_node (f1 f2 : GDFile) (n0 : GDSection) (i : Nat)
    (hname : n0.header.name = "node")
    (h : f1.commonAddSection n0 = some (f2, i)) :
    ∃ pre post, f1.sections = pre ++ post ∧
      f2.sections = pre ++ n0 :: post ∧ i = pre.length := by
  rw [GDFile.commonAddSection] at h
  cases ha : f1.addSection n0 with
  | none => rw [ha] at h; cases h
  | some q =>
      simp only [ha] at h
      rw [if_neg (by rw [hname]; decide)] at h
      cases h
      rw [GDFile.addSection, hname] at ha
      cases hsc : GDFile.insertScan 5 n0 f1.sections with
      | none =>
          rw [show sceneOrderIdx "node" = some 5 from rfl] at ha
          simp only [hsc, Option.map_none'] at ha
          cases ha
      | some p =>
          rw [show sceneOrderIdx "node" = some 5 from rfl] at ha
          simp only [hsc, Option.map_some'] at ha
          cases ha
          obtain ⟨pre, post, h1, h2, h3⟩ := insertScan_decomp_idx 5 n0
            f1.sections p.1 p.2 hsc
          exact ⟨pre, post, h1, h2, h3⟩

/-- C6: use_tree is atomic on the file: a failure of tree construction
or an exception inside the scope leaves the section list exactly as it
was, and on normal completion the node sections are replaced by the
flattened tree while every other section kind is untouched. -/
theorem C6_confirmed (fuel : Nat) (env : String → Option GDFile) (f : GDFile)
    (edit : TreeT → Except Unit TreeT) :
    (∀ e, (useTree fuel env f edit).2 = some (UseTreeErr.buildFail e) →
      (useTree fuel env f edit).1 = f) ∧
    ((useTree fuel env f edit).2 = some UseTreeErr.scopeFail →
      (useTree fuel env f edit).1 = f) ∧
    (∀ tree tree1, buildTree fuel env f = .ok tree → edit tree = .ok tree1 →
      (∀ s ∈ (treeFlatten tree1).2, s.header.name = "node") →
      (useTree fuel env f edit).2 = none →
      (useTree fuel env f edit).1.getSections "node" = (treeFlatten tree1).2 ∧
      ∀ nm, ¬(nm = "node") →
        (useTree fuel env f edit).1.getSections nm = f.getSections nm) := by
  cases hb : buildTree fuel env f with
  | error e0 =>
      have hu : useTree fuel env f edit = (f, some (.buildFail e0)) := by
        simp only [useTree, hb]
      refine ⟨?_, ?_, ?_⟩
      · intro e h
        rw [hu]
      · intro h
        rw [hu] at h
        cases h
      · intro tree tree1 htree _ _ _
        cases htree
  | ok tree0 =>
      cases he : edit tree0 with
      | error u =>
          have hu : useTree fuel env f edit = (f, some .scopeFail) := by
            simp only [useTree, hb, he]
          refine ⟨?_, ?_, ?_⟩
          · intro e h
            rw [hu] at h
            cases h
          · intro _
            rw [hu]
          · intro tree tree1 htree hedit _ _
            injection htree with htree0
            subst htree0
            rw [he] at hedit
            cases hedit
      | ok tree1' =>
          refine ⟨?_, ?_, ?_⟩
          · intro e h
            simp only [useTree, hb, he] at h
            cases hn : (treeFlatten tree1').2 with
            | nil => simp only [hn] at h; cases h
            | cons n0 restN =>
                simp only [hn] at h
                cases hc : GDFile.commonAddSection
                    ⟨f.sections.filter
                      (fun s => !(s.header.name = "node" : Bool))⟩ n0 with
                | none => simp only [hc] at h; cases h
                | some q => simp only [hc] at h; cases h
          · intro h
            simp only [useTree, hb, he] at h
            cases hn : (treeFlatten tree1').2 with
            | nil => simp only [hn] at h; cases h
            | cons n0 restN =>
                simp only [hn] at h
                cases hc : GDFile.commonAddSection
                    ⟨f.sections.filter
                      (fun s => !(s.header.name = "node" : Bool))⟩ n0 with
                | none => simp only [hc] at h; cases h
                | some q => simp only [hc] at h; cases h
          · intro tree tree1 htree hedit hnodes hnone
            injection htree with htree0
            subst htree0
            rw [he] at hedit
            injection hedit with hedit0
            subst hedit0
            simp only [useTree, hb, he] at hnone ⊢
            cases hn : (treeFlatten tree1').2 with
            | nil =>
                constructor
                · show (f.sections.filter
                      (fun s => !(s.header.name = "node" : Bool))).filter
                      (fun s => s.header.name = "node") = []
                  exact filter_nonnode_node f.sections
                · intro nm hnm
                  show (f.sections.filter
                      (fun s => !(s.header.name = "node" : Bool))).filter
                      (fun s => s.header.name = nm) = _
                  exact filter_nonnode_filter nm hnm f.sections
            | cons n0 restN =>
                cases hc : GDFile.commonAddSection
                    ⟨f.sections.filter
                      (fun s => !(s.header.name = "node" : Bool))⟩ n0 with
                | none =>
                    simp only [hn, hc] at hnone
                    cases hnone
                | some q =>
                    simp only [hn, hc] at hnone ⊢
                    obtain ⟨pre, post, h1, h2, h3⟩ := commonAddSection_node
                      _ q.1 n0 q.2 (by apply hnodes; rw [hn]; simp) hc
                    have hsplice : (q.1.sections.take (q.2 + 1) ++ restN ++
                        q.1.sections.drop (q.2 + 1)) =
                        pre ++ (n0 :: restN) ++ post := by
                      rw [h2, h3]
                      have ht : (pre ++ n0 :: post).take (pre.length + 1) =
                          pre ++ [n0] := by
                        rw [List.take_append_eq_append_take]
                        simp
                      have hd : (pre ++ n0 :: post).drop (pre.length + 1) =
                          post := by
                        rw [List.drop_append_eq_append_drop]
                        simp
                      rw [ht, hd]
                      simp
                    have hprepost : ∀ s, s ∈ pre ∨ s ∈ post →
                        ¬(s.header.name = "node") := by
                      intro s hs
                      have hmem : s ∈ pre ++ post := List.mem_append.mpr hs
                      rw [← h1] at hmem
                      have := List.mem_filter.mp hmem
                      simpa using this.2
                    have hnn : ∀ s ∈ (n0 :: restN : List GDSection),
                        s.header.name = "node" := by
                      intro s hs
                      apply hnodes
                      rw [hn]
                      exact hs
                    constructor
                    · show ((q.1.sections.take (q.2 + 1) ++ restN ++
                        q.1.sections.drop (q.2 + 1)).filter
                          (fun s => s.header.name = "node")) = n0 :: restN
                      have hpre0 : pre.filter
                          (fun s => s.header.name = "node") = [] :=
                        List.filter_eq_nil_iff.mpr
                          (fun s hs => by simp [hprepost s (Or.inl hs)])
                      have hpost0 : post.filter
                          (fun s => s.header.name = "node") = [] :=
                        List.filter_eq_nil_iff.mpr
                          (fun s hs => by simp [hprepost s (Or.inr hs)])
                      have hmid0 : (n0 :: restN).filter
                          (fun s => s.header.name = "node") = n0 :: restN :=
                        List.filter_eq_self.mpr
                          (fun s hs => by simp [hnn s hs])
                      rw [hsplice, List.filter_append, List.filter_append,
                        hpre0, hpost0, hmid0]
                      simp
                    · intro nm hnm
                      show ((q.1.sections.take (q.2 + 1) ++ restN ++
                        q.1.sections.drop (q.2 + 1)).filter
                          (fun s => s.header.name = nm)) = _
                      have hmid0 : (n0 :: restN).filter
                          (fun s => s.header.name = nm) = [] := by
                        apply List.filter_eq_nil_iff.mpr
                        intro s hs
                        have hni := hnn s hs
                        simp only [decide_eq_true_eq]
                        rw [hni]
                        exact fun he => hnm he.symm
                      rw [hsplice, List.filter_append, List.filter_append,
                        hmid0]
                      have hp : pre.filter (fun s => s.header.name = nm) ++
                          ([] : List GDSection) ++
                          post.filter (fun s => s.header.name = nm) =
                          (pre ++ post).filter
                            (fun s => s.header.name = nm) := by
                        rw [List.filter_append]
                        simp
                      rw [hp, ← h1]
                      exact filter_nonnode_filter nm hnm f.sections

/-- C6 witness: the atomicity theorem applied to a scope that raises on
the concrete inherited scene — the file is returned unchanged. -/
theorem C6_witness :
    (useTree 10 env7 cFile (fun _ => .error ())).1 = cFile :=
  (C6_confirmed 10 env7 cFile (fun _ => .error ())).2.1 (by decide)

/-- C7: writing a property value equal to the nearest inherited value
clears the local override (the node reads as the parent again), and on
the concrete inherited scene flatten emits no section for the untouched
node N, none after rewriting p = 1, and exactly one section holding only
p = 2 after setting p = 2. -/
theorem C7_confirmed :
    (∀ (n i : TNode) (k : String) (v : GDValue),
      nodupKeys n.props = true → n.inh = some i →
      TNode.propGet i k = some v →
      (n.setProp k v).props = odDel n.props k ∧
      TNode.propGet (n.setProp k v) k = some v) ∧
    c7Flatten = some [c7root] ∧
    c7SetFlatten 1 = some [c7root] ∧
    c7SetFlatten 2 = some [c7root, c7nsec] := by
  refine ⟨?_, by decide, by decide, by decide⟩
  intro n i k v hnd hinh hval
  cases n with
  | mk nm ty ins idx sec pr ch inh0 =>
      have hinh0 : inh0 = some i := hinh
      subst hinh0
      have hset : TNode.setProp (.mk nm ty ins idx sec pr ch (some i)) k v =
          (.mk nm ty ins idx sec (odDel pr k) ch (some i) : TNode) := by
        rw [TNode.setProp]
        show (if TNode.propGet i k = some v then _ else _) = _
        rw [if_pos hval]
        rfl
      rw [hset]
      refine ⟨rfl, ?_⟩
      have hdel : odGet (odDel pr k) k = none := by
        have := odHas_odDel_self pr k hnd
        rw [odHas] at this
        cases hg : odGet (odDel pr k) k with
        | none => rfl
        | some w => rw [hg] at this; cases this
      rw [TNode.propGet, hdel]
      exact hval

/-- C7 witness: the clearing rule applied to a concrete inherited node
carrying one unrelated override q = 5 whose parent has p = 1. -/
theorem C7_witness :
    (w7node.setProp "p" (.int 1)).props = odDel w7node.props "p" ∧
    TNode.propGet (w7node.setProp "p" (.int 1)) "p" = some (.int 1) :=
  C7_confirmed.1 w7node w7inh "p" (.int 1) (by decide) (by rfl) (by rfl)

theorem cycleStepA (build : GDFile → Except BuildErr TreeT)
    (hb : build bFile = .error .fuelOut) :
    buildLoopF (loadParentIntoF build env8 aFile) aFile none
      aFile.getNodes = .error .fuelOut := by
  have hload : loadParentIntoF build env8 aFile
      (.mk "RootA" none (some (GDValue.int 1)) none
        ⟨⟨"node", [("name", .str "RootA"), ("instance", GDValue.extRef 1)]⟩, []⟩
        [] [] none) = .error .fuelOut := by
    simp only [loadParentIntoF]
    simp only [show firstRootSection aFile = some
      (⟨⟨"node", [("name", .str "RootA"), ("instance", GDValue.extRef 1)]⟩,
        []⟩ : GDSection) from rfl]
    simp only [show (⟨⟨"node", [("name", .str "RootA"),
      ("instance", GDValue.extRef 1)]⟩, []⟩ : GDSection).nodeInstance =
      some (GDValue.int 1) from rfl]
    simp only [show scanExtById aFile.getExtResources (GDValue.int 1) = some
      (mkExtResourceSection "res://B.tscn" "PackedScene" 1) from rfl]
    simp only [show (mkExtResourceSection "res://B.tscn" "PackedScene" 1).attr
      "path" = some (.str "res://B.tscn") from rfl]
    simp only [show env8 "res://B.tscn" = some bFile from rfl]
    simp only [hb]
  have hstep : buildLoopF (loadParentIntoF build env8 aFile) aFile none
      aFile.getNodes =
      (match loadParentIntoF build env8 aFile
        (.mk "RootA" none (some (GDValue.int 1)) none
          ⟨⟨"node", [("name", .str "RootA"),
            ("instance", GDValue.extRef 1)]⟩, []⟩ [] [] none) with
       | .error e => (.error e : Except BuildErr TreeT)
       | .ok r1 => .ok ⟨some r1⟩) := rfl
  rw [hstep]
  simp only [hload]

theorem cycleStepB (build : GDFile → Except BuildErr TreeT)
    (hb : build aFile = .error .fuelOut) :
    buildLoopF (loadParentIntoF build env8 bFile) bFile none
      bFile.getNodes = .error .fuelOut := by
  have hload : loadParentIntoF build env8 bFile
      (.mk "RootB" none (some (GDValue.int 1)) none
        ⟨⟨"node", [("name", .str "RootB"), ("instance", GDValue.extRef 1)]⟩, []⟩
        [] [] none) = .error .fuelOut := by
    simp only [loadParentIntoF]
    simp only [show firstRootSection bFile = some
      (⟨⟨"node", [("name", .str "RootB"), ("instance", GDValue.extRef 1)]⟩,
        []⟩ : GDSection) from rfl]
    simp only [show (⟨⟨"node", [("name", .str "RootB"),
      ("instance", GDValue.extRef 1)]⟩, []⟩ : GDSection).nodeInstance =
      some (GDValue.int 1) from rfl]
    simp only [show scanExtById bFile.getExtResources (GDValue.int 1) = some
      (mkExtResourceSection "res://A.tscn" "PackedScene" 1) from rfl]
    simp only [show (mkExtResourceSection "res://A.tscn" "PackedScene" 1).attr
      "path" = some (.str "res://A.tscn") from rfl]
    simp only [show env8 "res://A.tscn" = some aFile from rfl]
    simp only [hb]
  have hstep : buildLoopF (loadParentIntoF build env8 bFile) bFile none
      bFile.getNodes =
      (match loadParentIntoF build env8 bFile
        (.mk "RootB" none (some (GDValue.int 1)) none
          ⟨⟨"node", [("name", .str "RootB"),
            ("instance", GDValue.extRef 1)]⟩, []⟩ [] [] none) with
       | .error e => (.error e : Except BuildErr TreeT)
       | .ok r1 => .ok ⟨some r1⟩) := rfl
  rw [hstep]
  simp only [hload]

theorem cyclePair_fuelOut : ∀ n : Nat,
    buildTree n env8 aFile = .error .fuelOut ∧
    buildTree n env8 bFile = .error .fuelOut := by
  intro n
  induction n with
  | zero => exact ⟨rfl, rfl⟩
  | succ m ih =>
      constructor
      · show buildLoopF (loadParentIntoF (buildTree m env8) env8 aFile) aFile
          none aFile.getNodes = .error .fuelOut
        exact cycleStepA (buildTree m env8) ih.2
      · show buildLoopF (loadParentIntoF (buildTree m env8) env8 bFile) bFile
          none bFile.getNodes = .error .fuelOut
        exact cycleStepB (buildTree m env8) ih.1

theorem loadParentIntoF_fuelOut (build : GDFile → Except BuildErr TreeT)
    (env : String → Option GDFile) (f : GDFile) (r : TNode)
    (h : loadParentIntoF build env f r = .error .fuelOut) :
    ∃ pf, parentLoadTarget env f = some pf ∧ build pf = .error .fuelOut := by
  rw [loadParentIntoF] at h
  rw [parentLoadTarget]
  cases h1 : firstRootSection f with
  | none => simp only [h1] at h; cases h
  | some rs =>
      simp only [h1] at h ⊢
      cases h2 : rs.nodeInstance with
      | none => simp only [h2] at h; cases h
      | some iv =>
          simp only [h2] at h ⊢
          cases h3 : scanExtById f.getExtResources iv with
          | none => simp only [h3] at h; cases h
          | some er =>
              simp only [h3] at h ⊢
              cases h4 : er.attr "path" with
              | none => simp only [h4] at h; cases h
              | some pv =>
                  cases pv with
                  | str path =>
                      simp only [h4] at h ⊢
                      cases h5 : env path with
                      | none => simp only [h5] at h; cases h
                      | some pf =>
                          simp only [h5] at h
                          refine ⟨pf, rfl, ?_⟩
                          cases h6 : build pf with
                          | error e =>
                              simp only [h6] at h
                              injection h with he
                              rw [he]
                          | ok pt =>
                              simp only [h6] at h
                              cases h7 : pt.root with
                              | none => simp only [h7] at h; cases h
                              | some proot => simp only [h7] at h; cases h
                  | null => simp only [h4] at h; cases h
                  | bool b => simp only [h4] at h; cases h
                  | int n => simp only [h4] at h; cases h
                  | list xs => simp only [h4] at h; cases h
                  | dict xs => simp only [h4] at h; cases h
                  | obj n args => simp only [h4] at h; cases h
                  | tarr t xs => simp only [h4] at h; cases h

theorem buildLoopF_fuelOut (build : GDFile → Except BuildErr TreeT)
    (env : String → Option GDFile) (f : GDFile) :
    ∀ (l : List GDSection) (root : Option TNode),
    buildLoopF (loadParentIntoF build env f) f root l = .error .fuelOut →
    ∃ pf, parentLoadTarget env f = some pf ∧ build pf = .error .fuelOut := by
  intro l
  induction l with
  | nil =>
      intro root h
      rw [buildLoopF] at h
      cases h
  | cons s rest ih =>
      intro root h
      rw [buildLoopF] at h
      cases h1 : s.nodeParent with
      | none =>
          simp only [h1] at h
          cases h2 : TNode.fromSection s with
          | none => simp only [h2] at h; cases h
          | some r =>
              simp only [h2] at h
              by_cases h3 : r.inst.isSome = true
              · rw [if_pos h3] at h
                cases h4 : loadParentIntoF build env f r with
                | error e =>
                    simp only [h4] at h
                    injection h with he
                    rw [he] at h4
                    exact loadParentIntoF_fuelOut build env f r h4
                | ok r1 =>
                    simp only [h4] at h
                    exact ih (some r1) h
              · rw [if_neg h3] at h
                exact ih (some r) h
      | some pv =>
          cases pv with
          | str p =>
              simp only [h1] at h
              cases root with
              | none => cases h
              | some rt =>
                  cases h5 : nodeModify rt p (fun par => mergeChild par s) with
                  | none => simp only [h5] at h; cases h
                  | some rt1 =>
                      simp only [h5] at h
                      exact ih (some rt1) h
          | null => simp only [h1] at h; cases h
          | bool b => simp only [h1] at h; cases h
          | int n => simp only [h1] at h; cases h
          | list xs => simp only [h1] at h; cases h
          | dict xs => simp only [h1] at h; cases h
          | obj n args => simp only [h1] at h; cases h
          | tarr t xs => simp only [h1] at h; cases h

theorem buildTree_measure_total (env : String → Option GDFile)
    (μ : GDFile → Nat)
    (hdec : ∀ g pf, parentLoadTarget env g = some pf → μ pf < μ g) :
    ∀ (fuel : Nat) (f : GDFile), μ f < fuel →
    isFuelOut (buildTree fuel env f) = false := by
  intro fuel
  induction fuel with
  | zero => intro f hf; omega
  | succ m ih =>
      intro f hf
      cases hb : buildTree (m + 1) env f with
      | ok t => rfl
      | error e =>
          cases e with
          | structural => rfl
          | fuelOut =>
              exfalso
              have hb2 : buildLoopF (loadParentIntoF (buildTree m env) env f)
                  f none f.getNodes = .error .fuelOut := hb
              obtain ⟨pf, htarget, hpf⟩ :=
                buildLoopF_fuelOut (buildTree m env) env f f.getNodes none hb2
              have hμ : μ pf < μ f := hdec f pf htarget
              have := ih pf (by omega)
              rw [hpf] at this
              cases this

/-- C8 counterexample: the two-scene cyclic inheritance pair exhausts
any recursion budget — tree.py tracks no chain of in-progress loads, so
Tree.build recurses indefinitely instead of failing with a structural
error. -/
theorem C8_counterexample : isFuelOut (buildTree 100 env8 aFile) = true := by
  rw [(cyclePair_fuelOut 100).1]
  rfl

/-- C8 (amended): on the cyclic inheritance pair, tree construction
never terminates normally — it exhausts every recursion budget — while
for inheritance structures with a well-founded parent measure (every
acyclic chain), construction never runs out of budget once the budget
exceeds the measure. -/
theorem C8_amended :
    (∀ fuel, buildTree fuel env8 aFile = .error .fuelOut) ∧
    (∀ (env : String → Option GDFile) (μ : GDFile → Nat),
      (∀ g pf, parentLoadTarget env g = some pf → μ pf < μ g) →
      ∀ (fuel : Nat) (f : GDFile), μ f < fuel →
      isFuelOut (buildTree fuel env f) = false) :=
  ⟨fun fuel => (cyclePair_fuelOut fuel).1,
   fun env μ hdec => buildTree_measure_total env μ hdec⟩

/-- C8 witness: the measure bound applied to the concrete two-file
inheritance chain — building the child scene within budget 2 does not
run out of budget. -/
theorem C8_witness : isFuelOut (buildTree 2 env7 cFile) = false := by
  apply C8_amended.2 env7 (fun g => if g = pFile then 0 else 1)
  · intro g pf h
    by_cases hgp : g = pFile
    · subst hgp
      rw [show parentLoadTarget env7 pFile = none from rfl] at h
      cases h
    · have hpf : pf = pFile := by
        rw [parentLoadTarget] at h
        cases h1 : firstRootSection g with
        | none => rw [h1] at h; cases h
        | some rs =>
            simp only [h1] at h
            cases h2 : rs.nodeInstance with
            | none => simp only [h2] at h; cases h
            | some iv =>
                simp only [h2] at h
                cases h3 : scanExtById g.getExtResources iv with
                | none => simp only [h3] at h; cases h
                | some er =>
                    simp only [h3] at h
                    cases h4 : er.attr "path" with
                    | none => simp only [h4] at h; cases h
                    | some pv =>
                        cases pv with
                        | str path =>
                            simp only [h4] at h
                            simp only [env7] at h
                            by_cases hp : path = "res://P.tscn"
                            · rw [if_pos hp] at h
                              injection h with he
                              exact he.symm
                            · rw [if_neg hp] at h
                              cases h
                        | null => simp only [h4] at h; cases h
                        | bool b => simp only [h4] at h; cases h
                        | int n => simp only [h4] at h; cases h
                        | list xs => simp only [h4] at h; cases h
                        | dict xs => simp only [h4] at h; cases h
                        | obj n args => simp only [h4] at h; cases h
                        | tarr t xs => simp only [h4] at h; cases h
      rw [hpf]
      simp [hgp]
  · decide


/-! ## Character-class facts used by the round-trip development (C1) -/

/-- Membership in a character class rules out any concrete character the
class rejects. -/
theorem bclass_ne {p : Char → Bool} {c d : Char} (h : p c = true)
    (hd : p d = false) : ¬(c = d) := by
  intro he
  rw [he, hd] at h
  cases h

/-- Coarse value bounds of alphabetic characters. -/
theorem alpha_bounds {c : Char} (h : c.isAlpha = true) :
    65 ≤ c.val.toNat ∧ c.val.toNat ≤ 122 := by
  simp only [Char.isAlpha, Char.isUpper, Char.isLower, Bool.or_eq_true,
    Bool.and_eq_true, decide_eq_true_eq] at h
  rcases h with ⟨h1, h2⟩ | ⟨h1, h2⟩
  · have a1 : (65 : Nat) ≤ c.val.toNat := h1
    have a2 : c.val.toNat ≤ (90 : Nat) := h2
    omega
  · have a1 : (97 : Nat) ≤ c.val.toNat := h1
    have a2 : c.val.toNat ≤ (122 : Nat) := h2
    omega

/-- Value bounds of digit characters. -/
theorem digit_bounds {c : Char} (h : c.isDigit = true) :
    48 ≤ c.val.toNat ∧ c.val.toNat ≤ 57 := by
  simp only [Char.isDigit, Bool.and_eq_true, decide_eq_true_eq] at h
  exact ⟨h.1, h.2⟩

/-- Value bounds of var-word characters. -/
theorem var_bounds {c : Char} (h : isVarChar c = true) :
    48 ≤ c.val.toNat ∧ c.val.toNat ≤ 122 := by
  simp only [isVarChar, Char.isAlphanum, Bool.or_eq_true, decide_eq_true_eq] at h
  rcases h with (ha | hd) | he
  · have := alpha_bounds ha
    omega
  · have := digit_bounds hd
    omega
  · rw [he]
    exact ⟨by decide, by decide⟩

/-- Whitespace characters have small values. -/
theorem ws_bounds {c : Char} (h : isWSChar c = true) : c.val.toNat ≤ 32 := by
  simp only [isWSChar, Bool.or_eq_true, decide_eq_true_eq] at h
  rcases h with (h | h) | h <;> rw [h] <;> decide

/-- A var-word character is not whitespace. -/
theorem var_not_ws {c : Char} (h : isVarChar c = true) : isWSChar c = false := by
  cases hw : isWSChar c with
  | false => rfl
  | true =>
      have := ws_bounds hw
      have := var_bounds h
      omega

/-- An alphabetic character is not whitespace. -/
theorem alpha_not_ws {c : Char} (h : c.isAlpha = true) : isWSChar c = false := by
  cases hw : isWSChar c with
  | false => rfl
  | true =>
      have := ws_bounds hw
      have := alpha_bounds h
      omega

/-- A digit is not whitespace. -/
theorem digit_not_ws {c : Char} (h : c.isDigit = true) : isWSChar c = false := by
  cases hw : isWSChar c with
  | false => rfl
  | true =>
      have := ws_bounds hw
      have := digit_bounds h
      omega

/-- An alphabetic character is not a digit. -/
theorem alpha_not_digit {c : Char} (h : c.isAlpha = true) : c.isDigit = false := by
  cases hd : c.isDigit with
  | false => rfl
  | true =>
      have := alpha_bounds h
      have := digit_bounds hd
      omega

/-- A digit is not alphabetic. -/
theorem digit_not_alpha {c : Char} (h : c.isDigit = true) : c.isAlpha = false := by
  cases ha : c.isAlpha with
  | false => rfl
  | true =>
      have := alpha_bounds ha
      have := digit_bounds h
      omega

/-- An alphabetic character is an identifier character. -/
theorem alpha_ident {c : Char} (h : c.isAlpha = true) : isIdentChar c = true := by
  simp [isIdentChar, Char.isAlphanum, h]

/-- An alphanumeric character is an identifier character. -/
theorem alnum_ident {c : Char} (h : c.isAlphanum = true) : isIdentChar c = true := by
  simp [isIdentChar, h]

/-! ## Token-level round-trip lemmas -/

/-- Skipping whitespace is the identity on a non-whitespace head. -/
theorem skipWS_noop {c : Char} {t : List Char} (h : isWSChar c = false) :
    skipWS (c :: t) = c :: t := by
  simp [skipWS, List.dropWhile_cons, h]

/-- Skipping whitespace removes a whitespace prefix. -/
theorem skipWS_append (ws s : List Char) (h : ws.all isWSChar = true) :
    skipWS (ws ++ s) = skipWS s := by
  induction ws with
  | nil => rfl
  | cons c w ih =>
      simp only [List.all_cons, Bool.and_eq_true] at h
      simp only [List.cons_append, skipWS, List.dropWhile_cons, h.1, if_true]
      exact ih h.2

/-- takeWhile and dropWhile split a class-homogeneous prefix off. -/
theorem take_drop_split (p : Char → Bool) (w rest : List Char)
    (hw : w.all p = true) (hr : headNo p rest = true) :
    (w ++ rest).takeWhile p = w ∧ (w ++ rest).dropWhile p = rest := by
  induction w with
  | nil =>
      cases rest with
      | nil => exact ⟨rfl, rfl⟩
      | cons c t =>
          simp only [headNo, Bool.not_eq_true'] at hr
          constructor
          · simp [List.takeWhile_cons, hr]
          · simp [List.dropWhile_cons, hr]
  | cons c w ih =>
      simp only [List.all_cons, Bool.and_eq_true] at hw
      obtain ⟨h1, h2⟩ := ih hw.2
      constructor
      · simp [List.takeWhile_cons, hw.1, h1]
      · simp [List.dropWhile_cons, hw.1, h2]

/-- Matching a literal against itself plus a remainder. -/
theorem matchLit_self (w rest : List Char) : matchLit w (w ++ rest) = some rest := by
  induction w with
  | nil => rfl
  | cons c cs ih => simp [matchLit, ih]

/-- Keyword match on the keyword itself with a good boundary. -/
theorem keyword_self (w rest : List Char) (h : afterKeywordOk rest = true) :
    parseKeywordTok w (w ++ rest) = some rest := by
  simp [parseKeywordTok, matchLit_self, h]

/-- Keyword match fails on a first-character mismatch. -/
theorem keyword_head_ne (c : Char) (cs : List Char) (x : Char) (xs : List Char)
    (h : ¬(x = c)) : parseKeywordTok (c :: cs) (x :: xs) = none := by
  simp [parseKeywordTok, matchLit, h]

/-- A keyword never matches a different identifier word followed by a
non-identifier character. -/
theorem keyword_word_none : ∀ (lit w rest : List Char),
    lit.all isIdentChar = true → w.all isIdentChar = true → ¬(w = lit) →
    headNo isIdentChar rest = true → parseKeywordTok lit (w ++ rest) = none := by
  intro lit
  induction lit with
  | nil =>
      intro w rest _ hw hne _
      cases w with
      | nil => exact absurd rfl hne
      | cons c w2 =>
          simp only [List.all_cons, Bool.and_eq_true] at hw
          simp [parseKeywordTok, matchLit, afterKeywordOk, hw.1]
  | cons c cs ih =>
      intro w rest hl hw hne hr
      simp only [List.all_cons, Bool.and_eq_true] at hl
      cases w with
      | nil =>
          cases rest with
          | nil => simp [parseKeywordTok, matchLit]
          | cons x xs =>
              simp only [headNo] at hr
              apply keyword_head_ne
              intro he
              rw [he] at hr
              rw [hl.1] at hr
              cases hr
      | cons a w2 =>
          simp only [List.all_cons, Bool.and_eq_true] at hw
          by_cases hac : a = c
          · subst hac
            have step : parseKeywordTok (a :: cs) ((a :: w2) ++ rest) =
                parseKeywordTok cs (w2 ++ rest) := by
              simp [parseKeywordTok, matchLit]
            rw [step]
            apply ih w2 rest hl.2 hw.2 _ hr
            intro he
            rw [he] at hne
            exact hne rfl
          · exact keyword_head_ne c cs a (w2 ++ rest) hac

/-- A suppressed literal token accepts its character after whitespace. -/
theorem expectTok_ws_self (c : Char) (ws rest : List Char)
    (hws : ws.all isWSChar = true) (hc : isWSChar c = false) :
    expectTok c (ws ++ c :: rest) = some rest := by
  simp [expectTok, skipWS_append ws _ hws, skipWS_noop hc]

/-- A suppressed literal token rejects a different character. -/
theorem expectTok_ne (c : Char) (s : List Char) (x : Char) (r : List Char)
    (hs : skipWS s = x :: r) (h : ¬(x = c)) : expectTok c s = none := by
  simp [expectTok, hs, h]

/-- A suppressed literal token rejects the end of input. -/
theorem expectTok_nil (c : Char) (s : List Char) (hs : skipWS s = []) :
    expectTok c s = none := by
  simp [expectTok, hs]

/-- The quoted-string body scan round trip. -/
theorem scanQuoted_round : ∀ (w : List Char) (ml : Bool) (rest : List Char),
    w.all (fun c => !(c = '"' || c = '\\')) = true →
    (ml = true ∨ w.all (fun c => !(c = '\n')) = true) →
    scanQuoted ml (w ++ '"' :: rest) = some (w, rest) := by
  intro w
  induction w with
  | nil =>
      intro ml rest _ _
      rw [List.nil_append, scanQuoted.eq_def]
      simp
  | cons c w2 ih =>
      intro ml rest hq hn
      simp only [List.all_cons, Bool.and_eq_true, Bool.not_eq_true',
        Bool.or_eq_false_iff, decide_eq_false_iff_not] at hq
      have hq1 := hq.1
      have hnl : ml = true ∨ w2.all (fun c => !(c = '\n')) = true := by
        cases hn with
        | inl h => exact Or.inl h
        | inr h =>
            simp only [List.all_cons, Bool.and_eq_true] at h
            exact Or.inr h.2
      have hcn : ml = false → ¬(c = '\n') := by
        intro hml he
        cases hn with
        | inl h => rw [h] at hml; cases hml
        | inr h =>
            simp only [List.all_cons, Bool.and_eq_true, Bool.not_eq_true',
              decide_eq_false_iff_not] at h
            exact h.1 he
      have hrec := ih ml rest hq.2 hnl
      cases ml with
      | true =>
          rw [scanQuoted.eq_def]
          simp [hq1.1, hq1.2, hrec]
      | false =>
          rw [scanQuoted.eq_def]
          simp [hq1.1, hq1.2, hcn rfl, hrec]

/-- The quoted-string round trip. -/
theorem parseQuoted_round (ml : Bool) (w rest : List Char)
    (hq : w.all (fun c => !(c = '"' || c = '\\')) = true)
    (hn : ml = true ∨ w.all (fun c => !(c = '\n')) = true) :
    parseQuoted ml ('"' :: (w ++ '"' :: rest)) = some (String.mk w, rest) := by
  simp [parseQuoted, scanQuoted_round w ml rest hq hn]

/-- Quoted strings reject any other head character. -/
theorem parseQuoted_head_ne (ml : Bool) (x : Char) (s : List Char)
    (h : ¬(x = '"')) : parseQuoted ml (x :: s) = none := by
  unfold parseQuoted
  split
  · next heq => injection heq with h1 _; exact absurd h1 h
  · rfl

/-- Quoted strings reject the end of input. -/
theorem parseQuoted_nil (ml : Bool) : parseQuoted ml [] = none := rfl

/-! ## Number round trip -/

/-- The decimal digit character of a value below ten has the shifted
value. -/
theorem digitChar_toNat {d : Nat} (h : d < 10) : (digitChar d).toNat = 48 + d := by
  interval_cases d <;> decide

/-- The decimal digit character of a value below ten is a digit. -/
theorem digitChar_isDigit {d : Nat} (h : d < 10) :
    (digitChar d).isDigit = true := by
  interval_cases d <;> decide

/-- Folding one more digit onto a digit run. -/
theorem digitsVal_append (a : List Char) (c : Char) :
    digitsVal (a ++ [c]) = digitsVal a * 10 + (c.toNat - 48) := by
  simp [digitsVal, List.foldl_append]

/-- The fueled digit printer is faithful: nonempty, all digits, and its
value is the printed number. -/
theorem natDigitsAux_spec : ∀ (fuel n : Nat), n < fuel →
    natDigitsAux fuel n ≠ [] ∧ (natDigitsAux fuel n).all Char.isDigit = true ∧
      digitsVal (natDigitsAux fuel n) = n := by
  intro fuel
  induction fuel with
  | zero => intro n h; omega
  | succ fb ih =>
      intro n h
      by_cases hn : n < 10
      · simp only [natDigitsAux, if_pos hn]
        refine ⟨by simp, by simp [digitChar_isDigit hn], ?_⟩
        simp [digitsVal, digitChar_toNat hn]
      · simp only [natDigitsAux, if_neg hn]
        have hlt : n / 10 < fb := by omega
        obtain ⟨h1, h2, h3⟩ := ih (n / 10) hlt
        refine ⟨by simp, ?_, ?_⟩
        · simp [List.all_append, h2, digitChar_isDigit (by omega : n % 10 < 10)]
        · rw [digitsVal_append, h3, digitChar_toNat (by omega : n % 10 < 10)]
          omega

/-- natDigits is faithful. -/
theorem natDigits_spec (n : Nat) :
    natDigits n ≠ [] ∧ (natDigits n).all Char.isDigit = true ∧
      digitsVal (natDigits n) = n :=
  natDigitsAux_spec (n + 1) n (by omega)

/-- parseUnsigned round trip over a printed natural. -/
theorem parseUnsigned_round (m : Nat) (rest : List Char)
    (hd : headNo Char.isDigit rest = true)
    (he : headNo (fun c => c = '.' || c = 'e' || c = 'E') rest = true) :
    parseUnsigned (natDigits m ++ rest) = some (m, rest) := by
  obtain ⟨h1, h2, h3⟩ := natDigits_spec m
  obtain ⟨ht, hdrop⟩ := take_drop_split Char.isDigit (natDigits m) rest h2 hd
  unfold parseUnsigned
  rw [ht, hdrop]
  simp only [List.isEmpty_eq_true]
  rw [if_neg h1]
  cases rest with
  | nil => simp [h3]
  | cons c r =>
      simp only [headNo, Bool.not_eq_true', Bool.or_eq_false_iff,
        decide_eq_false_iff_not] at he
      simp [he.1.1, he.1.2, he.2, h3]

/-- parseNumber ignores the sign patterns on a sign-free head. -/
theorem parseNumber_default (x : Char) (s : List Char) (h1 : ¬(x = '-'))
    (h2 : ¬(x = '+')) :
    parseNumber (x :: s) =
      (parseUnsigned (x :: s)).map (fun p => ((p.1 : Int), p.2)) := by
  unfold parseNumber
  split
  · next heq => injection heq with ha _; exact absurd ha h1
  · next heq => injection heq with ha _; exact absurd ha h2
  · rfl

/-- parseNumber round trip over a printed integer. -/
theorem parseNumber_round (n : Int) (rest : List Char)
    (hd : headNo Char.isDigit rest = true)
    (he : headNo (fun c => c = '.' || c = 'e' || c = 'E') rest = true) :
    parseNumber ((intStr n).toList ++ rest) = some (n, rest) := by
  by_cases hn : n < 0
  · have hs : (intStr n).toList = '-' :: natDigits n.natAbs := by
      simp [intStr, if_pos hn, natStr, String.toList, String.data_append]
    rw [hs]
    have hstep : parseNumber ('-' :: (natDigits n.natAbs ++ rest)) =
        some (-((n.natAbs : Nat) : Int), rest) := by
      simp [parseNumber, parseUnsigned_round n.natAbs rest hd he]
    rw [List.cons_append, hstep]
    have hv : -((n.natAbs : Nat) : Int) = n := by omega
    rw [hv]
  · have hs : (intStr n).toList = natDigits n.natAbs := by
      simp [intStr, if_neg hn, natStr, String.toList]
    rw [hs]
    obtain ⟨h1, h2, h3⟩ := natDigits_spec n.natAbs
    cases hw : natDigits n.natAbs with
    | nil => exact absurd hw h1
    | cons c cs =>
        rw [hw] at h2
        simp only [List.all_cons, Bool.and_eq_true] at h2
        rw [List.cons_append, parseNumber_default c (cs ++ rest)
          (bclass_ne h2.1 (by decide)) (bclass_ne h2.1 (by decide)),
          ← List.cons_append, ← hw, parseUnsigned_round n.natAbs rest hd he]
        have hv : ((n.natAbs : Nat) : Int) = n := by omega
        simp [hv]

/-- parseNumber fails on a head that is neither digit nor sign. -/
theorem parseNumber_head_ne (x : Char) (s : List Char) (h1 : x.isDigit = false)
    (h2 : ¬(x = '-')) (h3 : ¬(x = '+')) : parseNumber (x :: s) = none := by
  rw [parseNumber_default x s h2 h3]
  unfold parseUnsigned
  simp [List.takeWhile_cons, h1]

/-- parseNumber fails on the empty input. -/
theorem parseNumber_nil : parseNumber [] = none := rfl

/-! ## Alternation head-failure lemmas -/

/-- The list literal fails unless the head is an open bracket. -/
theorem parseListLit_head_ne (fuel : Nat) (x : Char) (s : List Char)
    (h : ¬(x = '[')) : parseListLit fuel (x :: s) = none := by
  cases fuel with
  | zero => rfl
  | succ fb =>
      rw [parseListLit.eq_def]
      split
      · rfl
      · split
        · next heq => injection heq with ha _; exact absurd ha h
        · rfl

/-- The list literal fails on the empty input. -/
theorem parseListLit_nil (fuel : Nat) : parseListLit fuel [] = none := by
  cases fuel <;> rfl

/-- The dict literal fails unless the head is an open brace. -/
theorem parseDictLit_head_ne (fuel : Nat) (x : Char) (s : List Char)
    (h : ¬(x = '{')) : parseDictLit fuel (x :: s) = none := by
  cases fuel with
  | zero => rfl
  | succ fb =>
      rw [parseDictLit.eq_def]
      split
      · rfl
      · split
        · next heq => injection heq with ha _; exact absurd ha h
        · rfl

/-- The dict literal fails on the empty input. -/
theorem parseDictLit_nil (fuel : Nat) : parseDictLit fuel [] = none := by
  cases fuel <;> rfl

/-- The object literal fails unless the head is alphabetic. -/
theorem parseObjLit_head_ne (fuel : Nat) (x : Char) (s : List Char)
    (h : x.isAlpha = false) : parseObjLit fuel (x :: s) = none := by
  cases fuel with
  | zero => rfl
  | succ fb => simp [parseObjLit, parseWord1, h]

/-- The object literal fails on the empty input. -/
theorem parseObjLit_nil (fuel : Nat) : parseObjLit fuel [] = none := by
  cases fuel <;> rfl

/-- The typed-array literal fails unless the head is the A of Array. -/
theorem parseTarrLit_head_ne (fuel : Nat) (x : Char) (s : List Char)
    (h : ¬(x = 'A')) : parseTarrLit fuel (x :: s) = none := by
  cases fuel with
  | zero => rfl
  | succ fb =>
      have hm : matchLit ("Array".toList) (x :: s) = none := by
        rw [show ("Array".toList) = 'A' :: "rray".toList from rfl]
        simp [matchLit, h]
      rw [parseTarrLit.eq_def]
      simp only [hm]

/-- The typed-array literal fails on the empty input. -/
theorem parseTarrLit_nil (fuel : Nat) : parseTarrLit fuel [] = none := by
  cases fuel <;> rfl

/-- parseValue is insensitive to leading whitespace. -/
theorem parseValue_ws (fuel : Nat) (ws s : List Char)
    (hws : ws.all isWSChar = true) :
    parseValue fuel (ws ++ s) = parseValue fuel s := by
  cases fuel with
  | zero => rfl
  | succ fb =>
      rw [parseValue.eq_def, parseValue.eq_def]
      rw [skipWS_append ws s hws]

/-- A follow-set head validates the keyword boundary. -/
theorem sepOK_afterKeywordOk (rest : List Char) (h : sepOK rest = true) :
    afterKeywordOk rest = true := by
  cases rest with
  | nil => rfl
  | cons c t =>
      simp only [sepOK, Bool.or_eq_true, decide_eq_true_eq] at h
      rcases h with ((((((h | h) | h) | h) | h) | h) | h) <;> rw [h] <;> rfl

/-- A follow-set head is not a digit. -/
theorem sepOK_headNo_digit (rest : List Char) (h : sepOK rest = true) :
    headNo Char.isDigit rest = true := by
  cases rest with
  | nil => rfl
  | cons c t =>
      simp only [sepOK, Bool.or_eq_true, decide_eq_true_eq] at h
      rcases h with ((((((h | h) | h) | h) | h) | h) | h) <;> rw [h] <;> rfl

/-- A follow-set head is not a fraction or exponent marker. -/
theorem sepOK_headNo_frac (rest : List Char) (h : sepOK rest = true) :
    headNo (fun c => c = '.' || c = 'e' || c = 'E') rest = true := by
  cases rest with
  | nil => rfl
  | cons c t =>
      simp only [sepOK, Bool.or_eq_true, decide_eq_true_eq] at h
      rcases h with ((((((h | h) | h) | h) | h) | h) | h) <;> rw [h] <;> rfl

/-- A follow-set head is not an identifier character. -/
theorem sepOK_headNo_ident (rest : List Char) (h : sepOK rest = true) :
    headNo isIdentChar rest = true := by
  cases rest with
  | nil => rfl
  | cons c t =>
      simp only [sepOK, Bool.or_eq_true, decide_eq_true_eq] at h
      rcases h with ((((((h | h) | h) | h) | h) | h) | h) <;> rw [h] <;> rfl

/-- A closer context is inside the follow set. -/
theorem closeOk_sepOK (rest : List Char) (h : closeOk rest = true) :
    sepOK rest = true := by
  cases rest with
  | nil => simp [closeOk, skipWS] at h
  | cons c t =>
      cases hw : isWSChar c with
      | true =>
          simp only [isWSChar, Bool.or_eq_true, decide_eq_true_eq] at hw
          rcases hw with (hw | hw) | hw <;> rw [hw] <;> rfl
      | false =>
          unfold closeOk at h
          rw [skipWS_noop hw] at h
          simp only [Bool.or_eq_true, decide_eq_true_eq] at h
          rcases h with h | h <;> rw [h] <;> rfl

/-- A brace-closer context is inside the follow set. -/
theorem closeBrace_sepOK (rest : List Char) (h : closeBrace rest = true) :
    sepOK rest = true := by
  cases rest with
  | nil => simp [closeBrace, skipWS] at h
  | cons c t =>
      cases hw : isWSChar c with
      | true =>
          simp only [isWSChar, Bool.or_eq_true, decide_eq_true_eq] at hw
          rcases hw with (hw | hw) | hw <;> rw [hw] <;> rfl
      | false =>
          unfold closeBrace at h
          rw [skipWS_noop hw] at h
          simp only [decide_eq_true_eq] at h
          rw [h]
          rfl

/-- No comma token in front of a closer. -/
theorem closeOk_comma_none (rest : List Char) (h : closeOk rest = true) :
    expectTok ',' rest = none := by
  unfold closeOk at h
  cases hs : skipWS rest with
  | nil => rw [hs] at h; cases h
  | cons c t =>
      rw [hs] at h
      simp only [Bool.or_eq_true, decide_eq_true_eq] at h
      apply expectTok_ne _ _ c t hs
      rcases h with h | h <;> rw [h] <;> decide

/-- No comma token in front of a brace closer. -/
theorem closeBrace_comma_none (rest : List Char) (h : closeBrace rest = true) :
    expectTok ',' rest = none := by
  unfold closeBrace at h
  cases hs : skipWS rest with
  | nil => rw [hs] at h; cases h
  | cons c t =>
      rw [hs] at h
      simp only [decide_eq_true_eq] at h
      apply expectTok_ne _ _ c t hs
      rw [h]
      decide

/-- parseValue fails when the head past whitespace defeats every
alternative of the value alternation. -/
theorem parseValue_head_fail (fuel : Nat) (s : List Char) (c : Char)
    (t : List Char) (hs : skipWS s = c :: t)
    (h1 : ¬(c = 'n')) (h2 : ¬(c = '"')) (h3 : ¬(c = 't')) (h4 : ¬(c = 'f'))
    (h5 : c.isDigit = false) (h6 : ¬(c = '-')) (h7 : ¬(c = '+'))
    (h8 : ¬(c = '[')) (h9 : ¬(c = '{')) (h10 : c.isAlpha = false)
    (h11 : ¬(c = 'A')) : parseValue fuel s = none := by
  cases fuel with
  | zero => rfl
  | succ fb =>
      rw [parseValue.eq_def, hs]
      simp only [show ("null".toList) = 'n' :: "ull".toList from rfl,
        show ("true".toList) = 't' :: "rue".toList from rfl,
        show ("false".toList) = 'f' :: "alse".toList from rfl]
      simp only [keyword_head_ne _ _ _ _ h1, parseQuoted_head_ne _ _ _ h2,
        keyword_head_ne _ _ _ _ h3, keyword_head_ne _ _ _ _ h4,
        parseNumber_head_ne _ _ h5 h6 h7, parseListLit_head_ne _ _ _ h8,
        parseDictLit_head_ne _ _ _ h9, parseObjLit_head_ne _ _ _ h10,
        parseTarrLit_head_ne _ _ _ h11]

/-- parseValue fails on blank input. -/
theorem parseValue_blank (fuel : Nat) (s : List Char) (hs : skipWS s = []) :
    parseValue fuel s = none := by
  cases fuel with
  | zero => rfl
  | succ fb =>
      rw [parseValue.eq_def, hs]
      simp [parseKeywordTok, matchLit, parseQuoted_nil, parseNumber_nil,
        parseListLit_nil, parseDictLit_nil, parseObjLit_nil, parseTarrLit_nil,
        show ("null".toList) = 'n' :: "ull".toList from rfl,
        show ("true".toList) = 't' :: "rue".toList from rfl,
        show ("false".toList) = 'f' :: "alse".toList from rfl]

/-- parseValue fails where the remainder begins with a closer or a
comma, or is blank. -/
theorem parseValue_clos (fuel : Nat) (s : List Char)
    (h : skipWS s = [] ∨ ∃ c t, skipWS s = c :: t ∧
      (c = ']' ∨ c = ')' ∨ c = '}' ∨ c = ',')) :
    parseValue fuel s = none := by
  rcases h with h | ⟨c, t, hs, hc⟩
  · exact parseValue_blank fuel s h
  · rcases hc with h | h | h | h <;> subst h <;>
      exact parseValue_head_fail fuel s _ t hs (by decide) (by decide)
        (by decide) (by decide) (by decide) (by decide) (by decide)
        (by decide) (by decide) (by decide) (by decide)

/-! ## Word, object-registry and ordered-map helper lemmas -/

/-- String toList distributes over append. -/
theorem toList_append (a b : String) : (a ++ b).toList = a.toList ++ b.toList := by
  simp [String.toList, String.data_append]

/-- Different strings have different character lists. -/
theorem toList_ne {a b : String} (h : ¬(a = b)) : ¬(a.toList = b.toList) := by
  intro he
  exact h (congrArg String.mk he)

/-- Word round trip: a nonempty homogeneous word splits off. -/
theorem parseWordAll_round (p : Char → Bool) (w rest : List Char)
    (hne : w ≠ []) (hw : w.all p = true) (hr : headNo p rest = true) :
    parseWordAll p (w ++ rest) = some (String.mk w, rest) := by
  obtain ⟨ht, hd⟩ := take_drop_split p w rest hw hr
  unfold parseWordAll
  rw [ht, hd]
  simp only [List.isEmpty_eq_true]
  rw [if_neg hne]

/-- Word round trip for the head-and-tail class form. -/
theorem parseWord1_round (head tail : Char → Bool) (c : Char) (w rest : List Char)
    (hc : head c = true) (hw : w.all tail = true) (hr : headNo tail rest = true) :
    parseWord1 head tail (c :: (w ++ rest)) = some (String.mk (c :: w), rest) := by
  obtain ⟨ht, hd⟩ := take_drop_split tail w rest hw hr
  simp [parseWord1, hc, ht, hd]

/-- A registry constructor other than the name-consuming GDObject base
entry that does not fail builds the generic object. -/
theorem mkObjLit_isSome_eq (n : String) (args : List GDValue)
    (hg : ¬(n = "GDObject"))
    (h : (mkObjLit n args).isSome = true) : mkObjLit n args = some (.obj n args) := by
  unfold mkObjLit at h ⊢
  split <;>
    first
      | exact absurd rfl hg
      | (split at h <;> simp_all)

/-- A key present as a pair is found by lookup. -/
theorem odHas_of_mem : ∀ (t : List (String × GDValue)) (k : String)
    (v : GDValue), (k, v) ∈ t → odHas t k = true := by
  intro t
  induction t with
  | nil => intro k v h; cases h
  | cons p r ih =>
      intro k v h
      obtain ⟨k0, v0⟩ := p
      unfold odHas odGet
      by_cases hk : k0 = k
      · rw [if_pos hk]
        rfl
      · rw [if_neg hk]
        rcases List.mem_cons.mp h with he | hm
        · injection he with h1 h2
          exact absurd h1.symm hk
        · exact ih k v hm

/-- Setting a fresh key appends it. -/
theorem odSet_fresh (l : List (String × GDValue)) (k : String) (v : GDValue)
    (h : odHas l k = false) : odSet l k v = l ++ [(k, v)] := by
  induction l with
  | nil => rfl
  | cons p t ih =>
      obtain ⟨k0, v0⟩ := p
      unfold odHas odGet at h
      by_cases hk : k0 = k
      · rw [if_pos hk] at h
        cases h
      · rw [if_neg hk] at h
        unfold odSet
        rw [if_neg hk]
        simp [ih h]

/-- Lookup distributes over append, preferring the left map. -/
theorem odGet_append : ∀ (a b : List (String × GDValue)) (k : String),
    odGet (a ++ b) k = match odGet a k with
      | some v => some v
      | none => odGet b k := by
  intro a
  induction a with
  | nil => intro b k; rfl
  | cons p t ih =>
      intro b k
      obtain ⟨k0, v0⟩ := p
      by_cases hk : k0 = k
      · simp [odGet, if_pos hk]
      · simp only [List.cons_append, odGet, if_neg hk]
        exact ih b k

/-- Membership in an appended map. -/
theorem odHas_append (a b : List (String × GDValue)) (k : String) :
    odHas (a ++ b) k = (odHas a k || odHas b k) := by
  unfold odHas
  rw [odGet_append a b k]
  cases odGet a k <;> simp

/-- Folding distinct-key pairs into an ordered map appends them. -/
theorem foldl_odSet_fresh : ∀ (xs acc : List (String × GDValue)),
    nodupKeys xs = true → xs.all (fun p => !odHas acc p.1) = true →
    xs.foldl (fun m p => odSet m p.1 p.2) acc = acc ++ xs := by
  intro xs
  induction xs with
  | nil => intro acc _ _; simp
  | cons p t ih =>
      intro acc hnd hdisj
      simp only [nodupKeys, Bool.and_eq_true, Bool.not_eq_true'] at hnd
      simp only [List.all_cons, Bool.and_eq_true, Bool.not_eq_true'] at hdisj
      simp only [List.foldl_cons]
      rw [odSet_fresh acc p.1 p.2 hdisj.1]
      have hstep : t.all (fun q => !odHas (acc ++ [(p.1, p.2)]) q.1) = true := by
        rw [List.all_eq_true]
        intro q hq
        have hq1 : odHas acc q.1 = false := by
          have := List.all_eq_true.mp hdisj.2 q hq
          simpa using this
        have hq2 : odHas [(p.1, p.2)] q.1 = false := by
          unfold odHas odGet
          by_cases he : p.1 = q.1
          · exfalso
            obtain ⟨qk, qv⟩ := q
            have hhas : odHas t qk = true := odHas_of_mem t qk qv hq
            rw [he] at hnd
            rw [hhas] at hnd
            cases hnd.1
          · rw [if_neg he]
            rfl
        simp [odHas_append, hq1, hq2]
      rw [ih (acc ++ [(p.1, p.2)]) hnd.2 hstep]
      simp

/-- Folding a duplicate-free pair list into the empty map is the
identity. -/
theorem foldl_odSet_nodup (xs : List (String × GDValue))
    (h : nodupKeys xs = true) :
    xs.foldl (fun m p => odSet m p.1 p.2) [] = xs := by
  have hx := foldl_odSet_fresh xs [] h (by
    rw [List.all_eq_true]
    intro q hq
    rfl)
  simpa using hx

/-- An object-literal name consists of identifier characters. -/
theorem objNameOk_all_ident (nm : String) (h : objNameOk nm = true) :
    nm.toList.all isIdentChar = true := by
  unfold objNameOk at h
  simp only [Bool.and_eq_true] at h
  cases hl : nm.toList with
  | nil => rfl
  | cons c t =>
      rw [hl] at h
      simp only [Bool.and_eq_true] at h
      simp only [List.all_cons, Bool.and_eq_true]
      constructor
      · exact alpha_ident h.1.1
      · rw [List.all_eq_true]
        intro x hx
        exact alnum_ident (List.all_eq_true.mp h.1.2 x hx)

/-- No keyword alternative accepts a valid object-literal name followed
by a non-identifier character. -/
theorem objName_keywords_none (nm : String) (cRest : List Char)
    (h : objNameOk nm = true) (hr : headNo isIdentChar cRest = true) :
    parseKeywordTok ("null".toList) (nm.toList ++ cRest) = none ∧
    parseKeywordTok ("true".toList) (nm.toList ++ cRest) = none ∧
    parseKeywordTok ("false".toList) (nm.toList ++ cRest) = none := by
  have hid := objNameOk_all_ident nm h
  have hne : ¬(nm = "null") ∧ ¬(nm = "true") ∧ ¬(nm = "false") := by
    unfold objNameOk at h
    simp only [Bool.and_eq_true, Bool.not_eq_true', Bool.or_eq_false_iff,
      decide_eq_false_iff_not] at h
    exact ⟨h.2.1.1, h.2.1.2, h.2.2⟩
  refine ⟨?_, ?_, ?_⟩
  · exact keyword_word_none _ _ _ (by decide) hid (toList_ne hne.1) hr
  · exact keyword_word_none _ _ _ (by decide) hid (toList_ne hne.2.1) hr
  · exact keyword_word_none _ _ _ (by decide) hid (toList_ne hne.2.2) hr

/-- The characters of a printed nonempty argument list. -/
theorem stringifyArgs_chars : ∀ (v : GDValue) (xs : List GDValue),
    (stringifyArgs (v :: xs)).toList =
      (stringifyValue v).toList ++ moreArgsChars xs := by
  intro v xs
  induction xs generalizing v with
  | nil => simp [stringifyArgs, moreArgsChars]
  | cons v2 t ih =>
      show (stringifyArgs (v :: v2 :: t)).toList = _
      rw [show stringifyArgs (v :: v2 :: t) =
        stringifyValue v ++ ", " ++ stringifyArgs (v2 :: t) from rfl]
      rw [toList_append, toList_append, ih v2]
      simp [moreArgsChars]

/-- The characters of a printed nonempty pair list. -/
theorem stringifyPairs_chars : ∀ (p : String × GDValue)
    (xs : List (String × GDValue)),
    (stringifyPairs (p :: xs)).toList = pairChars p ++ morePairsChars xs := by
  intro p xs
  induction xs generalizing p with
  | nil =>
      obtain ⟨k, v⟩ := p
      show (stringifyPairs [(k, v)]).toList = _
      rw [show stringifyPairs [(k, v)] =
        "\"" ++ k ++ "\": " ++ stringifyValue v from rfl]
      rw [toList_append, toList_append, toList_append]
      simp [pairChars, morePairsChars]
  | cons p2 t ih =>
      obtain ⟨k, v⟩ := p
      show (stringifyPairs ((k, v) :: p2 :: t)).toList = _
      rw [show stringifyPairs ((k, v) :: p2 :: t) =
        "\"" ++ k ++ "\": " ++ stringifyValue v ++ ",\n" ++ stringifyPairs (p2 :: t)
          from rfl]
      rw [toList_append, toList_append, toList_append, toList_append, ih p2]
      simp [pairChars, morePairsChars]

/-! ## Context lemmas feeding the value round trip -/

/-- A suppressed literal token accepts its own character. -/
theorem expectTok_self (c : Char) (X : List Char) (hc : isWSChar c = false) :
    expectTok c (c :: X) = some X := by
  unfold expectTok
  rw [skipWS_noop hc]
  simp

/-- The default object rendering applies away from NodePath. -/
theorem stringify_obj_default (n : String) (args : List GDValue)
    (h : ¬(n = "NodePath")) :
    stringifyValue (.obj n args) = n ++ "( " ++ stringifyArgs args ++ " )" := by
  simp only [stringifyValue]
  split
  · exact absurd rfl h
  · exact absurd rfl h
  · rfl

/-- A comma-led argument tail keeps the follow set. -/
theorem moreArgs_sepOK (t : List GDValue) (tail0 : List Char)
    (h : sepOK tail0 = true) : sepOK (moreArgsChars t ++ tail0) = true := by
  cases t with
  | nil => simpa [moreArgsChars] using h
  | cons v r => rfl

/-- A comma-led pair tail keeps the follow set. -/
theorem morePairs_sepOK (t : List (String × GDValue)) (tail0 : List Char)
    (h : sepOK tail0 = true) : sepOK (morePairsChars t ++ tail0) = true := by
  cases t with
  | nil => simpa [morePairsChars] using h
  | cons p r => rfl

/-- A computed whitespace-then-closer head certifies closeOk. -/
theorem closeOk_of_skip (rest : List Char) (c : Char) (t : List Char)
    (hs : skipWS rest = c :: t) (hc : c = ']' ∨ c = ')') :
    closeOk rest = true := by
  unfold closeOk
  rw [hs]
  rcases hc with h | h <;> simp [h]

/-- A computed whitespace-then-brace head certifies closeBrace. -/
theorem closeBrace_of_skip (rest : List Char) (t : List Char)
    (hs : skipWS rest = '}' :: t) : closeBrace rest = true := by
  unfold closeBrace
  rw [hs]
  simp

/-- The parts of a valid object-literal name. -/
theorem objName_parts (n : String) (h : objNameOk n = true) :
    ∃ c ct, n.toList = c :: ct ∧ c.isAlpha = true ∧
      ct.all Char.isAlphanum = true := by
  unfold objNameOk at h
  simp only [Bool.and_eq_true] at h
  cases hl : n.toList with
  | nil => rw [hl] at h; simp at h
  | cons c ct =>
      rw [hl] at h
      simp only [Bool.and_eq_true] at h
      exact ⟨c, ct, rfl, h.1.1, h.1.2⟩

/-- The parts of a valid var word. -/
theorem varWord_parts (s : String) (h : varWordOk s = true) :
    s.toList ≠ [] ∧ s.toList.all isVarChar = true := by
  unfold varWordOk at h
  simp only [Bool.and_eq_true, Bool.not_eq_true'] at h
  refine ⟨?_, h.2⟩
  intro he
  have hs : s = "" := congrArg String.mk he
  rw [hs] at h
  exact absurd h.1 (by decide)

/-! ## The value round trip (mutual induction over the value shape) -/

mutual

/-- Parsing the printed form of a well-formed clean value before a
follow-set remainder returns exactly the value. -/
theorem roundV : ∀ (v : GDValue) (fuel : Nat) (rest : List Char),
    wfV v = true → cleanV v = true → sepOK rest = true → needV v ≤ fuel →
    parseValue fuel ((stringifyValue v).toList ++ rest) = some (v, rest)
  | .null, fuel, rest => by
      intro hwf hcl hsep hfuel
      cases fuel with
      | zero => simp only [needV] at hfuel; omega
      | succ fb =>
          rw [show stringifyValue GDValue.null = "null" from rfl]
          rw [parseValue]
          have hs : skipWS ("null".toList ++ rest) = "null".toList ++ rest :=
            skipWS_noop (by decide)
          simp only [hs]
          rw [keyword_self ("null".toList) rest (sepOK_afterKeywordOk rest hsep)]
  | .bool b, fuel, rest => by
      intro hwf hcl hsep hfuel
      cases fuel with
      | zero => simp only [needV] at hfuel; omega
      | succ fb =>
          cases b with
          | true =>
              rw [show stringifyValue (GDValue.bool true) = "true" from rfl]
              rw [parseValue]
              have hs : skipWS ("true".toList ++ rest) = "true".toList ++ rest :=
                skipWS_noop (by decide)
              simp only [hs]
              rw [show parseKeywordTok ("null".toList) ("true".toList ++ rest) = none
                from keyword_head_ne _ _ _ _ (by decide)]
              rw [show parseQuoted true ("true".toList ++ rest) = none
                from parseQuoted_head_ne _ _ _ (by decide)]
              rw [keyword_self ("true".toList) rest (sepOK_afterKeywordOk rest hsep)]
          | false =>
              rw [show stringifyValue (GDValue.bool false) = "false" from rfl]
              rw [parseValue]
              have hs : skipWS ("false".toList ++ rest) = "false".toList ++ rest :=
                skipWS_noop (by decide)
              simp only [hs]
              rw [show parseKeywordTok ("null".toList) ("false".toList ++ rest) = none
                from keyword_head_ne _ _ _ _ (by decide)]
              rw [show parseQuoted true ("false".toList ++ rest) = none
                from parseQuoted_head_ne _ _ _ (by decide)]
              rw [show parseKeywordTok ("true".toList) ("false".toList ++ rest) = none
                from keyword_head_ne _ _ _ _ (by decide)]
              rw [keyword_self ("false".toList) rest (sepOK_afterKeywordOk rest hsep)]
  | .int n, fuel, rest => by
      intro hwf hcl hsep hfuel
      cases fuel with
      | zero => simp only [needV] at hfuel; omega
      | succ fb =>
          obtain ⟨c, t, hdec, hc⟩ : ∃ c t, (intStr n).toList = c :: t ∧
              (c.isDigit = true ∨ c = '-') := by
            by_cases hn : n < 0
            · refine ⟨'-', natDigits n.natAbs, ?_, Or.inr rfl⟩
              simp [intStr, if_pos hn, natStr, String.toList, String.data_append]
            · obtain ⟨h1, h2, h3⟩ := natDigits_spec n.natAbs
              cases hw : natDigits n.natAbs with
              | nil => exact absurd hw h1
              | cons c0 t0 =>
                  refine ⟨c0, t0, ?_, Or.inl ?_⟩
                  · simp [intStr, if_neg hn, natStr, String.toList, hw]
                  · rw [hw] at h2
                    simp only [List.all_cons, Bool.and_eq_true] at h2
                    exact h2.1
          have hne : ¬(c = 'n') ∧ ¬(c = '"') ∧ ¬(c = 't') ∧ ¬(c = 'f') ∧
              isWSChar c = false := by
            rcases hc with hd | hd
            · exact ⟨bclass_ne hd (by decide), bclass_ne hd (by decide),
                bclass_ne hd (by decide), bclass_ne hd (by decide), digit_not_ws hd⟩
            · rw [hd]
              exact ⟨by decide, by decide, by decide, by decide, by decide⟩
          rw [show stringifyValue (GDValue.int n) = intStr n from rfl]
          rw [parseValue]
          have hs : skipWS ((intStr n).toList ++ rest) = (intStr n).toList ++ rest := by
            rw [hdec]
            exact skipWS_noop hne.2.2.2.2
          simp only [hs]
          rw [show parseKeywordTok ("null".toList) ((intStr n).toList ++ rest) = none
            from by rw [hdec]; exact keyword_head_ne _ _ _ _ hne.1]
          rw [show parseQuoted true ((intStr n).toList ++ rest) = none
            from by rw [hdec]; exact parseQuoted_head_ne _ _ _ hne.2.1]
          rw [show parseKeywordTok ("true".toList) ((intStr n).toList ++ rest) = none
            from by rw [hdec]; exact keyword_head_ne _ _ _ _ hne.2.2.1]
          rw [show parseKeywordTok ("false".toList) ((intStr n).toList ++ rest) = none
            from by rw [hdec]; exact keyword_head_ne _ _ _ _ hne.2.2.2.1]
          rw [parseNumber_round n rest (sepOK_headNo_digit rest hsep)
            (sepOK_headNo_frac rest hsep)]
  | .str s, fuel, rest => by
      intro hwf hcl hsep hfuel
      cases fuel with
      | zero => simp only [needV] at hfuel; omega
      | succ fb =>
          simp only [cleanV] at hcl
          have hdec : (stringifyValue (GDValue.str s)).toList ++ rest =
              '"' :: (s.toList ++ '"' :: rest) := by
            rw [show stringifyValue (GDValue.str s) = "\"" ++ s ++ "\"" from rfl]
            rw [toList_append, toList_append]
            simp
          rw [hdec, parseValue]
          have hs : skipWS ('"' :: (s.toList ++ '"' :: rest)) =
              '"' :: (s.toList ++ '"' :: rest) := skipWS_noop (by decide)
          simp only [hs]
          rw [show parseKeywordTok ("null".toList) ('"' :: (s.toList ++ '"' :: rest)) =
            none from keyword_head_ne _ _ _ _ (by decide)]
          rw [parseQuoted_round true s.toList rest hcl (Or.inl rfl)]
          rfl
  | .list [], fuel, rest => by
      intro hwf hcl hsep hfuel
      cases fuel with
      | zero => simp only [needV, needArgsL] at hfuel; omega
      | succ fb =>
          have hdec : (stringifyValue (GDValue.list [])).toList ++ rest =
              '[' :: ' ' :: ' ' :: ']' :: rest := by
            rw [show stringifyValue (GDValue.list []) = "[  ]" from rfl]
            rfl
          rw [hdec, parseValue]
          have hs : skipWS ('[' :: ' ' :: ' ' :: ']' :: rest) =
              '[' :: ' ' :: ' ' :: ']' :: rest := skipWS_noop (by decide)
          simp only [hs]
          rw [show parseKeywordTok ("null".toList) ('[' :: ' ' :: ' ' :: ']' :: rest) =
            none from keyword_head_ne _ _ _ _ (by decide)]
          rw [show parseQuoted true ('[' :: ' ' :: ' ' :: ']' :: rest) = none
            from parseQuoted_head_ne _ _ _ (by decide)]
          rw [show parseKeywordTok ("true".toList) ('[' :: ' ' :: ' ' :: ']' :: rest) =
            none from keyword_head_ne _ _ _ _ (by decide)]
          rw [show parseKeywordTok ("false".toList) ('[' :: ' ' :: ' ' :: ']' :: rest) =
            none from keyword_head_ne _ _ _ _ (by decide)]
          rw [show parseNumber ('[' :: ' ' :: ' ' :: ']' :: rest) = none
            from parseNumber_head_ne _ _ (by decide) (by decide) (by decide)]
          have hskip2 : skipWS (' ' :: ' ' :: ']' :: rest) = ']' :: rest := by
            rw [show (' ' :: ' ' :: ']' :: rest) = [' ', ' '] ++ (']' :: rest) from rfl]
            rw [skipWS_append _ _ (by decide)]
            exact skipWS_noop (by decide)
          cases fb with
          | zero => simp only [needV, needArgsL] at hfuel; omega
          | succ fb2 =>
              have hlist : parseListLit (fb2 + 1) ('[' :: ' ' :: ' ' :: ']' :: rest) =
                  some ([], rest) := by
                rw [parseListLit]
                have hvr : parseValuesOpt fb2 (' ' :: ' ' :: ']' :: rest) =
                    ([], ' ' :: ' ' :: ']' :: rest) := by
                  cases fb2 with
                  | zero => rfl
                  | succ fb3 =>
                      rw [parseValuesOpt]
                      rw [parseValue_clos fb3 _
                        (Or.inr ⟨']', rest, hskip2, Or.inl rfl⟩)]
                simp only [hvr]
                have hcomma : expectTok ',' (' ' :: ' ' :: ']' :: rest) = none :=
                  expectTok_ne _ _ _ _ hskip2 (by decide)
                simp only [hcomma]
                have hctok : expectTok ']' (' ' :: ' ' :: ']' :: rest) = some rest := by
                  unfold expectTok
                  rw [hskip2]
                  simp
                simp only [hctok]
                rfl
              rw [hlist]
  | .list (v :: t), fuel, rest => by
      intro hwf hcl hsep hfuel
      cases fuel with
      | zero => simp only [needV, needArgsL] at hfuel; omega
      | succ fb =>
          simp only [wfV, wfL, Bool.and_eq_true] at hwf
          simp only [cleanV, cleanL, Bool.and_eq_true] at hcl
          have hdec : (stringifyValue (GDValue.list (v :: t))).toList ++ rest =
              '[' :: ' ' :: ((stringifyValue v).toList ++
                (moreArgsChars t ++ (' ' :: ']' :: rest))) := by
            rw [show stringifyValue (GDValue.list (v :: t)) =
              "[ " ++ stringifyArgs (v :: t) ++ " ]" from rfl]
            rw [toList_append, toList_append, stringifyArgs_chars]
            simp
          have hskipc : skipWS (' ' :: ']' :: rest) = ']' :: rest := by
            rw [show (' ' :: ']' :: rest) = [' '] ++ (']' :: rest) from rfl]
            rw [skipWS_append _ _ (by decide)]
            exact skipWS_noop (by decide)
          have hcloseok : closeOk (' ' :: ']' :: rest) = true :=
            closeOk_of_skip _ ']' rest hskipc (Or.inl rfl)
          rw [hdec, parseValue]
          have hs : skipWS ('[' :: ' ' :: ((stringifyValue v).toList ++
              (moreArgsChars t ++ (' ' :: ']' :: rest)))) =
              '[' :: ' ' :: ((stringifyValue v).toList ++
                (moreArgsChars t ++ (' ' :: ']' :: rest))) := skipWS_noop (by decide)
          simp only [hs]
          rw [show parseKeywordTok ("null".toList) ('[' :: ' ' ::
              ((stringifyValue v).toList ++ (moreArgsChars t ++ (' ' :: ']' :: rest)))) =
            none from keyword_head_ne _ _ _ _ (by decide)]
          rw [show parseQuoted true ('[' :: ' ' :: ((stringifyValue v).toList ++
              (moreArgsChars t ++ (' ' :: ']' :: rest)))) = none
            from parseQuoted_head_ne _ _ _ (by decide)]
          rw [show parseKeywordTok ("true".toList) ('[' :: ' ' ::
              ((stringifyValue v).toList ++ (moreArgsChars t ++ (' ' :: ']' :: rest)))) =
            none from keyword_head_ne _ _ _ _ (by decide)]
          rw [show parseKeywordTok ("false".toList) ('[' :: ' ' ::
              ((stringifyValue v).toList ++ (moreArgsChars t ++ (' ' :: ']' :: rest)))) =
            none from keyword_head_ne _ _ _ _ (by decide)]
          rw [show parseNumber ('[' :: ' ' :: ((stringifyValue v).toList ++
              (moreArgsChars t ++ (' ' :: ']' :: rest)))) = none
            from parseNumber_head_ne _ _ (by decide) (by decide) (by decide)]
          cases fb with
          | zero => simp only [needV, needArgsL] at hfuel; omega
          | succ fb2 =>
              have hlist : parseListLit (fb2 + 1) ('[' :: ' ' ::
                  ((stringifyValue v).toList ++
                    (moreArgsChars t ++ (' ' :: ']' :: rest)))) =
                  some (v :: t, rest) := by
                rw [parseListLit]
                have hvr : parseValuesOpt fb2 (' ' :: ((stringifyValue v).toList ++
                    (moreArgsChars t ++ (' ' :: ']' :: rest)))) =
                    (v :: t, ' ' :: ']' :: rest) := by
                  cases fb2 with
                  | zero => simp only [needV, needArgsL] at hfuel; omega
                  | succ fb3 =>
                      rw [parseValuesOpt]
                      have hpv : parseValue fb3 (' ' :: ((stringifyValue v).toList ++
                          (moreArgsChars t ++ (' ' :: ']' :: rest)))) =
                          some (v, moreArgsChars t ++ (' ' :: ']' :: rest)) := by
                        rw [show (' ' :: ((stringifyValue v).toList ++
                            (moreArgsChars t ++ (' ' :: ']' :: rest)))) =
                          [' '] ++ ((stringifyValue v).toList ++
                            (moreArgsChars t ++ (' ' :: ']' :: rest))) from rfl]
                        rw [parseValue_ws fb3 [' '] _ (by decide)]
                        exact roundV v fb3 _ hwf.1 hcl.1
                          (moreArgs_sepOK t _ (closeOk_sepOK _ hcloseok))
                          (by simp only [needV, needArgsL] at hfuel; omega)
                      simp only [hpv]
                      have hmore : parseMoreValues fb3
                          (moreArgsChars t ++ (' ' :: ']' :: rest)) =
                          (t, ' ' :: ']' :: rest) :=
                        roundMoreArgs t fb3 _ hwf.2 hcl.2 hcloseok
                          (by simp only [needV, needArgsL] at hfuel; omega)
                      simp only [hmore]
                simp only [hvr]
                have hcomma : expectTok ',' (' ' :: ']' :: rest) = none :=
                  expectTok_ne _ _ _ _ hskipc (by decide)
                simp only [hcomma]
                have hctok : expectTok ']' (' ' :: ']' :: rest) = some rest := by
                  unfold expectTok
                  rw [hskipc]
                  simp
                simp only [hctok]
                rfl
              rw [hlist]
  | .dict [], fuel, rest => by
      intro hwf hcl hsep hfuel
      cases fuel with
      | zero => simp only [needV, needPairs] at hfuel; omega
      | succ fb =>
          have hdec : (stringifyValue (GDValue.dict [])).toList ++ rest =
              '{' :: '\n' :: '\n' :: '}' :: rest := by
            rw [show stringifyValue (GDValue.dict []) = "\x7b\n\n\x7d" from rfl]
            rfl
          have hskipb : skipWS ('\n' :: '\n' :: '}' :: rest) = '}' :: rest := by
            rw [show ('\n' :: '\n' :: '}' :: rest) = ['\n', '\n'] ++ ('}' :: rest)
              from rfl]
            rw [skipWS_append _ _ (by decide)]
            exact skipWS_noop (by decide)
          rw [hdec, parseValue]
          have hs : skipWS ('{' :: '\n' :: '\n' :: '}' :: rest) =
              '{' :: '\n' :: '\n' :: '}' :: rest := skipWS_noop (by decide)
          simp only [hs]
          rw [show parseKeywordTok ("null".toList) ('{' :: '\n' :: '\n' :: '}' :: rest) =
            none from keyword_head_ne _ _ _ _ (by decide)]
          rw [show parseQuoted true ('{' :: '\n' :: '\n' :: '}' :: rest) = none
            from parseQuoted_head_ne _ _ _ (by decide)]
          rw [show parseKeywordTok ("true".toList) ('{' :: '\n' :: '\n' :: '}' :: rest) =
            none from keyword_head_ne _ _ _ _ (by decide)]
          rw [show parseKeywordTok ("false".toList) ('{' :: '\n' :: '\n' :: '}' :: rest) =
            none from keyword_head_ne _ _ _ _ (by decide)]
          rw [show parseNumber ('{' :: '\n' :: '\n' :: '}' :: rest) = none
            from parseNumber_head_ne _ _ (by decide) (by decide) (by decide)]
          rw [show parseListLit fb ('{' :: '\n' :: '\n' :: '}' :: rest) = none
            from parseListLit_head_ne _ _ _ (by decide)]
          cases fb with
          | zero => simp only [needV, needPairs] at hfuel; omega
          | succ fb2 =>
              have hdict : parseDictLit (fb2 + 1) ('{' :: '\n' :: '\n' :: '}' :: rest) =
                  some ([], rest) := by
                rw [parseDictLit]
                have hpr : parsePairsOpt fb2 ('\n' :: '\n' :: '}' :: rest) =
                    ([], '\n' :: '\n' :: '}' :: rest) := by
                  cases fb2 with
                  | zero => rfl
                  | succ fb3 =>
                      rw [parsePairsOpt]
                      have hone : parsePairOne fb3 ('\n' :: '\n' :: '}' :: rest) =
                          none := by
                        cases fb3 with
                        | zero => rfl
                        | succ fb4 =>
                            rw [parsePairOne]
                            rw [hskipb]
                            rw [parseQuoted_head_ne false '}' rest (by decide)]
                      simp only [hone]
                simp only [hpr]
                have hbrace : expectTok '}' ('\n' :: '\n' :: '}' :: rest) = some rest := by
                  unfold expectTok
                  rw [hskipb]
                  simp
                simp only [hbrace]
                rfl
              rw [hdict]
  | .dict ((k, v) :: t), fuel, rest => by
      intro hwf hcl hsep hfuel
      cases fuel with
      | zero => simp only [needV, needPairs] at hfuel; omega
      | succ fb =>
          simp only [wfV, Bool.and_eq_true] at hwf
          obtain ⟨⟨hkeys, hnodup⟩, hwfp⟩ := hwf
          simp only [cleanV, Bool.and_eq_true] at hcl
          obtain ⟨hkclean, hcleanp⟩ := hcl
          simp only [List.all_cons, Bool.and_eq_true] at hkeys hkclean
          simp only [wfP, Bool.and_eq_true] at hwfp
          simp only [cleanP, Bool.and_eq_true] at hcleanp
          have hdec : (stringifyValue (GDValue.dict ((k, v) :: t))).toList ++ rest =
              '{' :: '\n' :: (pairChars (k, v) ++
                (morePairsChars t ++ ('\n' :: '}' :: rest))) := by
            rw [show stringifyValue (GDValue.dict ((k, v) :: t)) =
              "\x7b\n" ++ stringifyPairs ((k, v) :: t) ++ "\n\x7d" from rfl]
            rw [toList_append, toList_append, stringifyPairs_chars]
            simp
          have hskipb : skipWS ('\n' :: '}' :: rest) = '}' :: rest := by
            rw [show ('\n' :: '}' :: rest) = ['\n'] ++ ('}' :: rest) from rfl]
            rw [skipWS_append _ _ (by decide)]
            exact skipWS_noop (by decide)
          have hclosebr : closeBrace ('\n' :: '}' :: rest) = true :=
            closeBrace_of_skip _ rest hskipb
          rw [hdec, parseValue]
          have hs : skipWS ('{' :: '\n' :: (pairChars (k, v) ++
              (morePairsChars t ++ ('\n' :: '}' :: rest)))) =
              '{' :: '\n' :: (pairChars (k, v) ++
                (morePairsChars t ++ ('\n' :: '}' :: rest))) := skipWS_noop (by decide)
          simp only [hs]
          rw [show parseKeywordTok ("null".toList) ('{' :: '\n' :: (pairChars (k, v) ++
              (morePairsChars t ++ ('\n' :: '}' :: rest)))) = none
            from keyword_head_ne _ _ _ _ (by decide)]
          rw [show parseQuoted true ('{' :: '\n' :: (pairChars (k, v) ++
              (morePairsChars t ++ ('\n' :: '}' :: rest)))) = none
            from parseQuoted_head_ne _ _ _ (by decide)]
          rw [show parseKeywordTok ("true".toList) ('{' :: '\n' :: (pairChars (k, v) ++
              (morePairsChars t ++ ('\n' :: '}' :: rest)))) = none
            from keyword_head_ne _ _ _ _ (by decide)]
          rw [show parseKeywordTok ("false".toList) ('{' :: '\n' :: (pairChars (k, v) ++
              (morePairsChars t ++ ('\n' :: '}' :: rest)))) = none
            from keyword_head_ne _ _ _ _ (by decide)]
          rw [show parseNumber ('{' :: '\n' :: (pairChars (k, v) ++
              (morePairsChars t ++ ('\n' :: '}' :: rest)))) = none
            from parseNumber_head_ne _ _ (by decide) (by decide) (by decide)]
          rw [show parseListLit fb ('{' :: '\n' :: (pairChars (k, v) ++
              (morePairsChars t ++ ('\n' :: '}' :: rest)))) = none
            from parseListLit_head_ne _ _ _ (by decide)]
          cases fb with
          | zero => simp only [needV, needPairs] at hfuel; omega
          | succ fb2 =>
              have hdict : parseDictLit (fb2 + 1) ('{' :: '\n' :: (pairChars (k, v) ++
                  (morePairsChars t ++ ('\n' :: '}' :: rest)))) =
                  some ((k, v) :: t, rest) := by
                rw [parseDictLit]
                have hpr : parsePairsOpt fb2 ('\n' :: (pairChars (k, v) ++
                    (morePairsChars t ++ ('\n' :: '}' :: rest)))) =
                    ((k, v) :: t, '\n' :: '}' :: rest) := by
                  cases fb2 with
                  | zero => simp only [needV, needPairs] at hfuel; omega
                  | succ fb3 =>
                      rw [parsePairsOpt]
                      have hone : parsePairOne fb3 ('\n' :: (pairChars (k, v) ++
                          (morePairsChars t ++ ('\n' :: '}' :: rest)))) =
                          some ((k, v), morePairsChars t ++ ('\n' :: '}' :: rest)) :=
                        roundPairOne (k, v) fb3 ['\n'] _ (by decide) hkclean.1 hkeys.1
                          hwfp.1 hcleanp.1
                          (morePairs_sepOK t _ (closeBrace_sepOK _ hclosebr))
                          (by
                            simp only [needV, needPairs] at hfuel
                            show needV v + 1 ≤ fb3
                            omega)
                      simp only [hone]
                      have hmp : parseMorePairs fb3
                          (morePairsChars t ++ ('\n' :: '}' :: rest)) =
                          (t, '\n' :: '}' :: rest) :=
                        roundMorePairs t fb3 _ hkclean.2 hkeys.2 hwfp.2 hcleanp.2
                          hclosebr (by simp only [needV, needPairs] at hfuel; omega)
                      simp only [hmp]
                simp only [hpr]
                have hbrace : expectTok '}' ('\n' :: '}' :: rest) = some rest := by
                  unfold expectTok
                  rw [hskipb]
                  simp
                simp only [hbrace]
                simp only [foldl_odSet_nodup _ hnodup]
                rfl
              rw [hdict]
  | .obj n [], fuel, rest => by
      intro hwf hcl hsep hfuel
      cases fuel with
      | zero => simp only [needV, needArgsL] at hfuel; omega
      | succ fb =>
          by_cases hnp : n = "NodePath"
          · subst hnp
            simp [cleanV] at hcl
          · have hng : ¬(n = "GDObject") := by
              intro he
              subst he
              simp [cleanV] at hcl
            simp only [wfV, Bool.and_eq_true] at hwf
            obtain ⟨⟨hname, hsome⟩, hargs⟩ := hwf
            obtain ⟨c, ct, hnl, hca, hct⟩ := objName_parts n hname
            have hdec : (stringifyValue (GDValue.obj n [])).toList ++ rest =
                n.toList ++ ('(' :: ' ' :: ' ' :: ')' :: rest) := by
              rw [stringify_obj_default n [] hnp]
              rw [toList_append, toList_append, toList_append]
              simp [stringifyArgs]
            rw [hdec, parseValue]
            have hs : skipWS (n.toList ++ ('(' :: ' ' :: ' ' :: ')' :: rest)) =
                n.toList ++ ('(' :: ' ' :: ' ' :: ')' :: rest) := by
              rw [hnl]
              exact skipWS_noop (alpha_not_ws hca)
            simp only [hs]
            obtain ⟨hkw1, hkw2, hkw3⟩ := objName_keywords_none n
              ('(' :: ' ' :: ' ' :: ')' :: rest) hname (by rfl)
            rw [hkw1]
            rw [show parseQuoted true (n.toList ++ ('(' :: ' ' :: ' ' :: ')' :: rest)) =
              none from by
                rw [hnl]; exact parseQuoted_head_ne _ _ _ (bclass_ne hca (by decide))]
            rw [hkw2, hkw3]
            rw [show parseNumber (n.toList ++ ('(' :: ' ' :: ' ' :: ')' :: rest)) = none
              from by
                rw [hnl]
                exact parseNumber_head_ne _ _ (alpha_not_digit hca)
                  (bclass_ne hca (by decide)) (bclass_ne hca (by decide))]
            rw [show parseListLit fb (n.toList ++ ('(' :: ' ' :: ' ' :: ')' :: rest)) =
              none from by
                rw [hnl]; exact parseListLit_head_ne _ _ _ (bclass_ne hca (by decide))]
            rw [show parseDictLit fb (n.toList ++ ('(' :: ' ' :: ' ' :: ')' :: rest)) =
              none from by
                rw [hnl]; exact parseDictLit_head_ne _ _ _ (bclass_ne hca (by decide))]
            cases fb with
            | zero => simp only [needV, needArgsL] at hfuel; omega
            | succ fb2 =>
                have hskipc : skipWS (' ' :: ' ' :: ')' :: rest) = ')' :: rest := by
                  rw [show (' ' :: ' ' :: ')' :: rest) = [' ', ' '] ++ (')' :: rest)
                    from rfl]
                  rw [skipWS_append _ _ (by decide)]
                  exact skipWS_noop (by decide)
                have hobj : parseObjLit (fb2 + 1)
                    (n.toList ++ ('(' :: ' ' :: ' ' :: ')' :: rest)) =
                    some (.obj n [], rest) := by
                  rw [parseObjLit]
                  have hw1 : parseWord1 Char.isAlpha Char.isAlphanum
                      (n.toList ++ ('(' :: ' ' :: ' ' :: ')' :: rest)) =
                      some (n, '(' :: ' ' :: ' ' :: ')' :: rest) := by
                    rw [hnl]
                    have hpw := parseWord1_round Char.isAlpha Char.isAlphanum c ct
                      ('(' :: ' ' :: ' ' :: ')' :: rest) hca hct (by rfl)
                    have hn2 : String.mk (c :: ct) = n := by
                      rw [← hnl]
                      rfl
                    rw [hn2] at hpw
                    exact hpw
                  simp only [hw1]
                  have hta : expectTok '(' ('(' :: (' ' :: ' ' :: ')' :: rest)) =
                      some (' ' :: ' ' :: ')' :: rest) := expectTok_self _ _ (by decide)
                  simp only [hta]
                  have hvr : parseValuesOpt fb2 (' ' :: ' ' :: ')' :: rest) =
                      ([], ' ' :: ' ' :: ')' :: rest) := by
                    cases fb2 with
                    | zero => rfl
                    | succ fb3 =>
                        rw [parseValuesOpt]
                        rw [parseValue_clos fb3 _
                          (Or.inr ⟨')', rest, hskipc, Or.inr (Or.inl rfl)⟩)]
                  simp only [hvr]
                  have hrp : expectTok ')' (' ' :: ' ' :: ')' :: rest) = some rest := by
                    unfold expectTok
                    rw [hskipc]
                    simp
                  simp only [hrp]
                  rw [mkObjLit_isSome_eq n [] hng hsome]
                rw [hobj]
  | .obj n (v :: t), fuel, rest => by
      intro hwf hcl hsep hfuel
      cases fuel with
      | zero => simp only [needV, needArgsL] at hfuel; omega
      | succ fb =>
          by_cases hnp : n = "NodePath"
          · subst hnp
            simp only [cleanV, if_pos rfl] at hcl
            cases v with
            | str p =>
                cases t with
                | cons q r => simp at hcl
                | nil =>
                    have hdec : (stringifyValue
                        (GDValue.obj "NodePath" [GDValue.str p])).toList ++ rest =
                        'N' :: 'o' :: 'd' :: 'e' :: 'P' :: 'a' :: 't' :: 'h' :: '(' ::
                          '"' :: (p.toList ++ '"' :: ')' :: rest) := by
                      rw [show stringifyValue (GDValue.obj "NodePath" [GDValue.str p]) =
                        "NodePath(\"" ++ p ++ "\")" from by simp [stringifyValue]]
                      rw [toList_append, toList_append]
                      simp
                    rw [hdec, parseValue]
                    have hs : skipWS ('N' :: 'o' :: 'd' :: 'e' :: 'P' :: 'a' :: 't' ::
                        'h' :: '(' :: '"' :: (p.toList ++ '"' :: ')' :: rest)) =
                        'N' :: 'o' :: 'd' :: 'e' :: 'P' :: 'a' :: 't' :: 'h' :: '(' ::
                          '"' :: (p.toList ++ '"' :: ')' :: rest) :=
                      skipWS_noop (by decide)
                    simp only [hs]
                    rw [show parseKeywordTok ("null".toList) ('N' :: 'o' :: 'd' :: 'e' ::
                        'P' :: 'a' :: 't' :: 'h' :: '(' :: '"' ::
                        (p.toList ++ '"' :: ')' :: rest)) = none
                      from keyword_head_ne _ _ _ _ (by decide)]
                    rw [show parseQuoted true ('N' :: 'o' :: 'd' :: 'e' :: 'P' :: 'a' ::
                        't' :: 'h' :: '(' :: '"' :: (p.toList ++ '"' :: ')' :: rest)) =
                        none from parseQuoted_head_ne _ _ _ (by decide)]
                    rw [show parseKeywordTok ("true".toList) ('N' :: 'o' :: 'd' :: 'e' ::
                        'P' :: 'a' :: 't' :: 'h' :: '(' :: '"' ::
                        (p.toList ++ '"' :: ')' :: rest)) = none
                      from keyword_head_ne _ _ _ _ (by decide)]
                    rw [show parseKeywordTok ("false".toList) ('N' :: 'o' :: 'd' :: 'e' ::
                        'P' :: 'a' :: 't' :: 'h' :: '(' :: '"' ::
                        (p.toList ++ '"' :: ')' :: rest)) = none
                      from keyword_head_ne _ _ _ _ (by decide)]
                    rw [show parseNumber ('N' :: 'o' :: 'd' :: 'e' :: 'P' :: 'a' :: 't' ::
                        'h' :: '(' :: '"' :: (p.toList ++ '"' :: ')' :: rest)) = none
                      from parseNumber_head_ne _ _ (by decide) (by decide) (by decide)]
                    rw [show parseListLit fb ('N' :: 'o' :: 'd' :: 'e' :: 'P' :: 'a' ::
                        't' :: 'h' :: '(' :: '"' :: (p.toList ++ '"' :: ')' :: rest)) =
                        none from parseListLit_head_ne _ _ _ (by decide)]
                    rw [show parseDictLit fb ('N' :: 'o' :: 'd' :: 'e' :: 'P' :: 'a' ::
                        't' :: 'h' :: '(' :: '"' :: (p.toList ++ '"' :: ')' :: rest)) =
                        none from parseDictLit_head_ne _ _ _ (by decide)]
                    cases fb with
                    | zero => simp only [needV, needArgsL] at hfuel; omega
                    | succ fb2 =>
                        have hobj : parseObjLit (fb2 + 1) ('N' :: 'o' :: 'd' :: 'e' ::
                            'P' :: 'a' :: 't' :: 'h' :: '(' :: '"' ::
                            (p.toList ++ '"' :: ')' :: rest)) =
                            some (.obj "NodePath" [.str p], rest) := by
                          rw [parseObjLit]
                          have hw1 : parseWord1 Char.isAlpha Char.isAlphanum
                              ('N' :: 'o' :: 'd' :: 'e' :: 'P' :: 'a' :: 't' :: 'h' ::
                                '(' :: '"' :: (p.toList ++ '"' :: ')' :: rest)) =
                              some ("NodePath", '(' :: '"' ::
                                (p.toList ++ '"' :: ')' :: rest)) := by
                            have hpw := parseWord1_round Char.isAlpha Char.isAlphanum
                              'N' ['o', 'd', 'e', 'P', 'a', 't', 'h']
                              ('(' :: '"' :: (p.toList ++ '"' :: ')' :: rest))
                              (by decide) (by decide) (by rfl)
                            exact hpw
                          simp only [hw1]
                          have hta : expectTok '(' ('(' :: ('"' ::
                              (p.toList ++ '"' :: ')' :: rest))) =
                              some ('"' :: (p.toList ++ '"' :: ')' :: rest)) :=
                            expectTok_self _ _ (by decide)
                          simp only [hta]
                          have hvr : parseValuesOpt fb2
                              ('"' :: (p.toList ++ '"' :: ')' :: rest)) =
                              ([GDValue.str p], ')' :: rest) := by
                            cases fb2 with
                            | zero => simp only [needV, needArgsL] at hfuel; omega
                            | succ fb3 =>
                                rw [parseValuesOpt]
                                have hpv : parseValue fb3
                                    ('"' :: (p.toList ++ '"' :: ')' :: rest)) =
                                    some (GDValue.str p, ')' :: rest) := by
                                  cases fb3 with
                                  | zero =>
                                      simp only [needV, needArgsL] at hfuel; omega
                                  | succ fb4 =>
                                      rw [parseValue]
                                      have hs2 : skipWS ('"' ::
                                          (p.toList ++ '"' :: ')' :: rest)) =
                                          '"' :: (p.toList ++ '"' :: ')' :: rest) :=
                                        skipWS_noop (by decide)
                                      simp only [hs2]
                                      rw [show parseKeywordTok ("null".toList) ('"' ::
                                          (p.toList ++ '"' :: ')' :: rest)) = none
                                        from keyword_head_ne _ _ _ _ (by decide)]
                                      rw [parseQuoted_round true p.toList
                                        (')' :: rest) hcl (Or.inl rfl)]
                                      rfl
                                simp only [hpv]
                                have hmv : parseMoreValues fb3 (')' :: rest) =
                                    ([], ')' :: rest) := by
                                  cases fb3 with
                                  | zero => rfl
                                  | succ fb4 =>
                                      rw [parseMoreValues]
                                      rw [expectTok_ne ',' _ ')' rest
                                        (skipWS_noop (by decide)) (by decide)]
                                simp only [hmv]
                          simp only [hvr]
                          have hrp : expectTok ')' (')' :: rest) = some rest :=
                            expectTok_self _ _ (by decide)
                          simp only [hrp]
                          rfl
                        rw [hobj]
            | null => simp at hcl
            | bool b => simp at hcl
            | int m => simp at hcl
            | list xs => simp at hcl
            | dict xs => simp at hcl
            | obj nm args => simp at hcl
            | tarr ty xs => simp at hcl
          · have hng : ¬(n = "GDObject") := by
              intro he
              subst he
              simp [cleanV] at hcl
            simp only [wfV, Bool.and_eq_true] at hwf
            obtain ⟨⟨hname, hsome⟩, hargs⟩ := hwf
            simp only [cleanV, if_neg hnp, if_neg hng] at hcl
            simp only [wfL, Bool.and_eq_true] at hargs
            simp only [cleanL, Bool.and_eq_true] at hcl
            obtain ⟨c, ct, hnl, hca, hct⟩ := objName_parts n hname
            have hdec : (stringifyValue (GDValue.obj n (v :: t))).toList ++ rest =
                n.toList ++ ('(' :: ' ' :: ((stringifyValue v).toList ++
                  (moreArgsChars t ++ (' ' :: ')' :: rest)))) := by
              rw [stringify_obj_default n (v :: t) hnp]
              rw [toList_append, toList_append, toList_append, stringifyArgs_chars]
              simp
            have hskipc : skipWS (' ' :: ')' :: rest) = ')' :: rest := by
              rw [show (' ' :: ')' :: rest) = [' '] ++ (')' :: rest) from rfl]
              rw [skipWS_append _ _ (by decide)]
              exact skipWS_noop (by decide)
            have hcloseok : closeOk (' ' :: ')' :: rest) = true :=
              closeOk_of_skip _ ')' rest hskipc (Or.inr rfl)
            rw [hdec, parseValue]
            have hs : skipWS (n.toList ++ ('(' :: ' ' :: ((stringifyValue v).toList ++
                (moreArgsChars t ++ (' ' :: ')' :: rest))))) =
                n.toList ++ ('(' :: ' ' :: ((stringifyValue v).toList ++
                  (moreArgsChars t ++ (' ' :: ')' :: rest)))) := by
              rw [hnl]
              exact skipWS_noop (alpha_not_ws hca)
            simp only [hs]
            obtain ⟨hkw1, hkw2, hkw3⟩ := objName_keywords_none n
              ('(' :: ' ' :: ((stringifyValue v).toList ++
                (moreArgsChars t ++ (' ' :: ')' :: rest)))) hname (by rfl)
            rw [hkw1]
            rw [show parseQuoted true (n.toList ++ ('(' :: ' ' ::
                ((stringifyValue v).toList ++
                  (moreArgsChars t ++ (' ' :: ')' :: rest))))) = none from by
              rw [hnl]; exact parseQuoted_head_ne _ _ _ (bclass_ne hca (by decide))]
            rw [hkw2, hkw3]
            rw [show parseNumber (n.toList ++ ('(' :: ' ' ::
                ((stringifyValue v).toList ++
                  (moreArgsChars t ++ (' ' :: ')' :: rest))))) = none from by
              rw [hnl]
              exact parseNumber_head_ne _ _ (alpha_not_digit hca)
                (bclass_ne hca (by decide)) (bclass_ne hca (by decide))]
            rw [show parseListLit fb (n.toList ++ ('(' :: ' ' ::
                ((stringifyValue v).toList ++
                  (moreArgsChars t ++ (' ' :: ')' :: rest))))) = none from by
              rw [hnl]; exact parseListLit_head_ne _ _ _ (bclass_ne hca (by decide))]
            rw [show parseDictLit fb (n.toList ++ ('(' :: ' ' ::
                ((stringifyValue v).toList ++
                  (moreArgsChars t ++ (' ' :: ')' :: rest))))) = none from by
              rw [hnl]; exact parseDictLit_head_ne _ _ _ (bclass_ne hca (by decide))]
            cases fb with
            | zero => simp only [needV, needArgsL] at hfuel; omega
            | succ fb2 =>
                have hobj : parseObjLit (fb2 + 1) (n.toList ++ ('(' :: ' ' ::
                    ((stringifyValue v).toList ++
                      (moreArgsChars t ++ (' ' :: ')' :: rest))))) =
                    some (.obj n (v :: t), rest) := by
                  rw [parseObjLit]
                  have hw1 : parseWord1 Char.isAlpha Char.isAlphanum
                      (n.toList ++ ('(' :: ' ' :: ((stringifyValue v).toList ++
                        (moreArgsChars t ++ (' ' :: ')' :: rest))))) =
                      some (n, '(' :: ' ' :: ((stringifyValue v).toList ++
                        (moreArgsChars t ++ (' ' :: ')' :: rest)))) := by
                    rw [hnl]
                    have hpw := parseWord1_round Char.isAlpha Char.isAlphanum c ct
                      ('(' :: ' ' :: ((stringifyValue v).toList ++
                        (moreArgsChars t ++ (' ' :: ')' :: rest)))) hca hct (by rfl)
                    have hn2 : String.mk (c :: ct) = n := by
                      rw [← hnl]
                      rfl
                    rw [hn2] at hpw
                    exact hpw
                  simp only [hw1]
                  have hta : expectTok '(' ('(' :: (' ' :: ((stringifyValue v).toList ++
                      (moreArgsChars t ++ (' ' :: ')' :: rest))))) =
                      some (' ' :: ((stringifyValue v).toList ++
                        (moreArgsChars t ++ (' ' :: ')' :: rest)))) :=
                    expectTok_self _ _ (by decide)
                  simp only [hta]
                  have hvr : parseValuesOpt fb2 (' ' :: ((stringifyValue v).toList ++
                      (moreArgsChars t ++ (' ' :: ')' :: rest)))) =
                      (v :: t, ' ' :: ')' :: rest) := by
                    cases fb2 with
                    | zero => simp only [needV, needArgsL] at hfuel; omega
                    | succ fb3 =>
                        rw [parseValuesOpt]
                        have hpv : parseValue fb3 (' ' :: ((stringifyValue v).toList ++
                            (moreArgsChars t ++ (' ' :: ')' :: rest)))) =
                            some (v, moreArgsChars t ++ (' ' :: ')' :: rest)) := by
                          rw [show (' ' :: ((stringifyValue v).toList ++
                              (moreArgsChars t ++ (' ' :: ')' :: rest)))) =
                            [' '] ++ ((stringifyValue v).toList ++
                              (moreArgsChars t ++ (' ' :: ')' :: rest))) from rfl]
                          rw [parseValue_ws fb3 [' '] _ (by decide)]
                          exact roundV v fb3 _ hargs.1 hcl.1
                            (moreArgs_sepOK t _ (closeOk_sepOK _ hcloseok))
                            (by simp only [needV, needArgsL] at hfuel; omega)
                        simp only [hpv]
                        have hmore : parseMoreValues fb3
                            (moreArgsChars t ++ (' ' :: ')' :: rest)) =
                            (t, ' ' :: ')' :: rest) :=
                          roundMoreArgs t fb3 _ hargs.2 hcl.2 hcloseok
                            (by simp only [needV, needArgsL] at hfuel; omega)
                        simp only [hmore]
                  simp only [hvr]
                  have hrp : expectTok ')' (' ' :: ')' :: rest) = some rest := by
                    unfold expectTok
                    rw [hskipc]
                    simp
                  simp only [hrp]
                  rw [mkObjLit_isSome_eq n (v :: t) hng hsome]
                rw [hobj]
  | .tarr ty [], fuel, rest => by
      intro hwf hcl hsep hfuel
      cases fuel with
      | zero => simp only [needV, needArgsL] at hfuel; omega
      | succ fb =>
          simp only [wfV, Bool.and_eq_true] at hwf
          obtain ⟨hvar, hargs⟩ := hwf
          obtain ⟨htne, htall⟩ := varWord_parts ty hvar
          have hdec : (stringifyValue (GDValue.tarr ty [])).toList ++ rest =
              'A' :: 'r' :: 'r' :: 'a' :: 'y' :: '[' :: (ty.toList ++
                (']' :: '(' :: '[' :: ' ' :: ' ' :: ']' :: ')' :: rest)) := by
            rw [show stringifyValue (GDValue.tarr ty []) =
              "Array[" ++ ty ++ "]([ " ++ stringifyArgs [] ++ " ])" from by
                simp [stringifyValue]]
            rw [toList_append, toList_append, toList_append, toList_append]
            simp [stringifyArgs]
          rw [hdec, parseValue]
          have hs : skipWS ('A' :: 'r' :: 'r' :: 'a' :: 'y' :: '[' :: (ty.toList ++
              (']' :: '(' :: '[' :: ' ' :: ' ' :: ']' :: ')' :: rest))) =
              'A' :: 'r' :: 'r' :: 'a' :: 'y' :: '[' :: (ty.toList ++
                (']' :: '(' :: '[' :: ' ' :: ' ' :: ']' :: ')' :: rest)) :=
            skipWS_noop (by decide)
          simp only [hs]
          rw [show parseKeywordTok ("null".toList) ('A' :: 'r' :: 'r' :: 'a' :: 'y' ::
              '[' :: (ty.toList ++ (']' :: '(' :: '[' :: ' ' :: ' ' :: ']' :: ')' ::
                rest))) = none from keyword_head_ne _ _ _ _ (by decide)]
          rw [show parseQuoted true ('A' :: 'r' :: 'r' :: 'a' :: 'y' :: '[' ::
              (ty.toList ++ (']' :: '(' :: '[' :: ' ' :: ' ' :: ']' :: ')' :: rest))) =
            none from parseQuoted_head_ne _ _ _ (by decide)]
          rw [show parseKeywordTok ("true".toList) ('A' :: 'r' :: 'r' :: 'a' :: 'y' ::
              '[' :: (ty.toList ++ (']' :: '(' :: '[' :: ' ' :: ' ' :: ']' :: ')' ::
                rest))) = none from keyword_head_ne _ _ _ _ (by decide)]
          rw [show parseKeywordTok ("false".toList) ('A' :: 'r' :: 'r' :: 'a' :: 'y' ::
              '[' :: (ty.toList ++ (']' :: '(' :: '[' :: ' ' :: ' ' :: ']' :: ')' ::
                rest))) = none from keyword_head_ne _ _ _ _ (by decide)]
          rw [show parseNumber ('A' :: 'r' :: 'r' :: 'a' :: 'y' :: '[' :: (ty.toList ++
              (']' :: '(' :: '[' :: ' ' :: ' ' :: ']' :: ')' :: rest))) = none
            from parseNumber_head_ne _ _ (by decide) (by decide) (by decide)]
          rw [show parseListLit fb ('A' :: 'r' :: 'r' :: 'a' :: 'y' :: '[' ::
              (ty.toList ++ (']' :: '(' :: '[' :: ' ' :: ' ' :: ']' :: ')' :: rest))) =
            none from parseListLit_head_ne _ _ _ (by decide)]
          rw [show parseDictLit fb ('A' :: 'r' :: 'r' :: 'a' :: 'y' :: '[' ::
              (ty.toList ++ (']' :: '(' :: '[' :: ' ' :: ' ' :: ']' :: ')' :: rest))) =
            none from parseDictLit_head_ne _ _ _ (by decide)]
          cases fb with
          | zero => simp only [needV, needArgsL] at hfuel; omega
          | succ fb2 =>
              have hword : parseWord1 Char.isAlpha Char.isAlphanum
                  ('A' :: 'r' :: 'r' :: 'a' :: 'y' :: '[' :: (ty.toList ++
                    (']' :: '(' :: '[' :: ' ' :: ' ' :: ']' :: ')' :: rest))) =
                  some ("Array", '[' :: (ty.toList ++
                    (']' :: '(' :: '[' :: ' ' :: ' ' :: ']' :: ')' :: rest))) :=
                parseWord1_round Char.isAlpha Char.isAlphanum 'A' ['r', 'r', 'a', 'y']
                  ('[' :: (ty.toList ++ (']' :: '(' :: '[' :: ' ' :: ' ' :: ']' :: ')' ::
                    rest))) (by decide) (by decide) (by rfl)
              have hobjfail : parseObjLit (fb2 + 1) ('A' :: 'r' :: 'r' :: 'a' :: 'y' ::
                  '[' :: (ty.toList ++ (']' :: '(' :: '[' :: ' ' :: ' ' :: ']' :: ')' ::
                    rest))) = none := by
                rw [parseObjLit]
                simp only [hword]
                rw [expectTok_ne '(' _ '[' _ (skipWS_noop (by decide)) (by decide)]
              rw [hobjfail]
              have hml : matchLit ("Array".toList) ('A' :: 'r' :: 'r' :: 'a' :: 'y' ::
                  '[' :: (ty.toList ++ (']' :: '(' :: '[' :: ' ' :: ' ' :: ']' :: ')' ::
                    rest))) = some ('[' :: (ty.toList ++
                    (']' :: '(' :: '[' :: ' ' :: ' ' :: ']' :: ')' :: rest))) :=
                matchLit_self ("Array".toList) _
              have htarr : parseTarrLit (fb2 + 1) ('A' :: 'r' :: 'r' :: 'a' :: 'y' ::
                  '[' :: (ty.toList ++ (']' :: '(' :: '[' :: ' ' :: ' ' :: ']' :: ')' ::
                    rest))) = some (.tarr ty [], rest) := by
                rw [parseTarrLit]
                simp only [hml]
                have hob : expectTok '[' ('[' :: (ty.toList ++ (']' :: '(' :: '[' ::
                    ' ' :: ' ' :: ']' :: ')' :: rest))) =
                    some (ty.toList ++ (']' :: '(' :: '[' :: ' ' :: ' ' :: ']' :: ')' ::
                      rest)) := expectTok_self _ _ (by decide)
                simp only [hob]
                have hs2 : skipWS (ty.toList ++ (']' :: '(' :: '[' :: ' ' :: ' ' ::
                    ']' :: ')' :: rest)) = ty.toList ++ (']' :: '(' :: '[' :: ' ' ::
                    ' ' :: ']' :: ')' :: rest) := by
                  cases hvl : ty.toList with
                  | nil => exact absurd hvl htne
                  | cons c0 ct0 =>
                      rw [hvl] at htall
                      simp only [List.all_cons, Bool.and_eq_true] at htall
                      exact skipWS_noop (var_not_ws htall.1)
                rw [hs2]
                rw [parseWordAll_round isVarChar ty.toList _ htne htall (by rfl)]
                have hcb : expectTok ']' (']' :: ('(' :: '[' :: ' ' :: ' ' :: ']' ::
                    ')' :: rest)) = some ('(' :: '[' :: ' ' :: ' ' :: ']' :: ')' :: rest) :=
                  expectTok_self _ _ (by decide)
                simp only [hcb]
                have hcp : expectTok '(' ('(' :: ('[' :: ' ' :: ' ' :: ']' :: ')' ::
                    rest)) = some ('[' :: ' ' :: ' ' :: ']' :: ')' :: rest) :=
                  expectTok_self _ _ (by decide)
                simp only [hcp]
                have hs3 : skipWS ('[' :: ' ' :: ' ' :: ']' :: ')' :: rest) =
                    '[' :: ' ' :: ' ' :: ']' :: ')' :: rest := skipWS_noop (by decide)
                rw [hs3]
                have hskipin : skipWS (' ' :: ' ' :: ']' :: ')' :: rest) =
                    ']' :: ')' :: rest := by
                  rw [show (' ' :: ' ' :: ']' :: ')' :: rest) =
                    [' ', ' '] ++ (']' :: ')' :: rest) from rfl]
                  rw [skipWS_append _ _ (by decide)]
                  exact skipWS_noop (by decide)
                have hlist : parseListLit fb2 ('[' :: ' ' :: ' ' :: ']' :: ')' :: rest) =
                    some ([], ')' :: rest) := by
                  cases fb2 with
                  | zero => simp only [needV, needArgsL] at hfuel; omega
                  | succ fb3 =>
                      rw [parseListLit]
                      have hvr : parseValuesOpt fb3 (' ' :: ' ' :: ']' :: ')' :: rest) =
                          ([], ' ' :: ' ' :: ']' :: ')' :: rest) := by
                        cases fb3 with
                        | zero => rfl
                        | succ fb4 =>
                            rw [parseValuesOpt]
                            rw [parseValue_clos fb4 _
                              (Or.inr ⟨']', ')' :: rest, hskipin, Or.inl rfl⟩)]
                      simp only [hvr]
                      have hcomma : expectTok ',' (' ' :: ' ' :: ']' :: ')' :: rest) =
                          none := expectTok_ne _ _ _ _ hskipin (by decide)
                      simp only [hcomma]
                      have hctok : expectTok ']' (' ' :: ' ' :: ']' :: ')' :: rest) =
                          some (')' :: rest) := by
                        unfold expectTok
                        rw [hskipin]
                        simp
                      simp only [hctok]
                      rfl
                simp only [hlist]
                have hrp : expectTok ')' (')' :: rest) = some rest :=
                  expectTok_self _ _ (by decide)
                simp only [hrp]
                rfl
              rw [htarr]
  | .tarr ty (v :: t), fuel, rest => by
      intro hwf hcl hsep hfuel
      cases fuel with
      | zero => simp only [needV, needArgsL] at hfuel; omega
      | succ fb =>
          simp only [wfV, Bool.and_eq_true] at hwf
          obtain ⟨hvar, hargs⟩ := hwf
          simp only [wfL, Bool.and_eq_true] at hargs
          simp only [cleanV, cleanL, Bool.and_eq_true] at hcl
          obtain ⟨htne, htall⟩ := varWord_parts ty hvar
          have hdec : (stringifyValue (GDValue.tarr ty (v :: t))).toList ++ rest =
              'A' :: 'r' :: 'r' :: 'a' :: 'y' :: '[' :: (ty.toList ++
                (']' :: '(' :: '[' :: ' ' :: ((stringifyValue v).toList ++
                  (moreArgsChars t ++ (' ' :: ']' :: ')' :: rest))))) := by
            rw [show stringifyValue (GDValue.tarr ty (v :: t)) =
              "Array[" ++ ty ++ "]([ " ++ stringifyArgs (v :: t) ++ " ])" from by
                simp [stringifyValue]]
            rw [toList_append, toList_append, toList_append, toList_append,
              stringifyArgs_chars]
            simp
          rw [hdec, parseValue]
          have hs : skipWS ('A' :: 'r' :: 'r' :: 'a' :: 'y' :: '[' :: (ty.toList ++
              (']' :: '(' :: '[' :: ' ' :: ((stringifyValue v).toList ++
                (moreArgsChars t ++ (' ' :: ']' :: ')' :: rest)))))) =
              'A' :: 'r' :: 'r' :: 'a' :: 'y' :: '[' :: (ty.toList ++
                (']' :: '(' :: '[' :: ' ' :: ((stringifyValue v).toList ++
                  (moreArgsChars t ++ (' ' :: ']' :: ')' :: rest))))) :=
            skipWS_noop (by decide)
          simp only [hs]
          rw [show parseKeywordTok ("null".toList) ('A' :: 'r' :: 'r' :: 'a' :: 'y' ::
              '[' :: (ty.toList ++ (']' :: '(' :: '[' :: ' ' ::
                ((stringifyValue v).toList ++ (moreArgsChars t ++
                  (' ' :: ']' :: ')' :: rest)))))) = none
            from keyword_head_ne _ _ _ _ (by decide)]
          rw [show parseQuoted true ('A' :: 'r' :: 'r' :: 'a' :: 'y' :: '[' ::
              (ty.toList ++ (']' :: '(' :: '[' :: ' ' :: ((stringifyValue v).toList ++
                (moreArgsChars t ++ (' ' :: ']' :: ')' :: rest)))))) = none
            from parseQuoted_head_ne _ _ _ (by decide)]
          rw [show parseKeywordTok ("true".toList) ('A' :: 'r' :: 'r' :: 'a' :: 'y' ::
              '[' :: (ty.toList ++ (']' :: '(' :: '[' :: ' ' ::
                ((stringifyValue v).toList ++ (moreArgsChars t ++
                  (' ' :: ']' :: ')' :: rest)))))) = none
            from keyword_head_ne _ _ _ _ (by decide)]
          rw [show parseKeywordTok ("false".toList) ('A' :: 'r' :: 'r' :: 'a' :: 'y' ::
              '[' :: (ty.toList ++ (']' :: '(' :: '[' :: ' ' ::
                ((stringifyValue v).toList ++ (moreArgsChars t ++
                  (' ' :: ']' :: ')' :: rest)))))) = none
            from keyword_head_ne _ _ _ _ (by decide)]
          rw [show parseNumber ('A' :: 'r' :: 'r' :: 'a' :: 'y' :: '[' :: (ty.toList ++
              (']' :: '(' :: '[' :: ' ' :: ((stringifyValue v).toList ++
                (moreArgsChars t ++ (' ' :: ']' :: ')' :: rest)))))) = none
            from parseNumber_head_ne _ _ (by decide) (by decide) (by decide)]
          rw [show parseListLit fb ('A' :: 'r' :: 'r' :: 'a' :: 'y' :: '[' ::
              (ty.toList ++ (']' :: '(' :: '[' :: ' ' :: ((stringifyValue v).toList ++
                (moreArgsChars t ++ (' ' :: ']' :: ')' :: rest)))))) = none
            from parseListLit_head_ne _ _ _ (by decide)]
          rw [show parseDictLit fb ('A' :: 'r' :: 'r' :: 'a' :: 'y' :: '[' ::
              (ty.toList ++ (']' :: '(' :: '[' :: ' ' :: ((stringifyValue v).toList ++
                (moreArgsChars t ++ (' ' :: ']' :: ')' :: rest)))))) = none
            from parseDictLit_head_ne _ _ _ (by decide)]
          cases fb with
          | zero => simp only [needV, needArgsL] at hfuel; omega
          | succ fb2 =>
              have hword : parseWord1 Char.isAlpha Char.isAlphanum
                  ('A' :: 'r' :: 'r' :: 'a' :: 'y' :: '[' :: (ty.toList ++
                    (']' :: '(' :: '[' :: ' ' :: ((stringifyValue v).toList ++
                      (moreArgsChars t ++ (' ' :: ']' :: ')' :: rest)))))) =
                  some ("Array", '[' :: (ty.toList ++ (']' :: '(' :: '[' :: ' ' ::
                    ((stringifyValue v).toList ++ (moreArgsChars t ++
                      (' ' :: ']' :: ')' :: rest)))))) :=
                parseWord1_round Char.isAlpha Char.isAlphanum 'A' ['r', 'r', 'a', 'y']
                  ('[' :: (ty.toList ++ (']' :: '(' :: '[' :: ' ' ::
                    ((stringifyValue v).toList ++ (moreArgsChars t ++
                      (' ' :: ']' :: ')' :: rest)))))) (by decide) (by decide) (by rfl)
              have hobjfail : parseObjLit (fb2 + 1) ('A' :: 'r' :: 'r' :: 'a' :: 'y' ::
                  '[' :: (ty.toList ++ (']' :: '(' :: '[' :: ' ' ::
                    ((stringifyValue v).toList ++ (moreArgsChars t ++
                      (' ' :: ']' :: ')' :: rest)))))) = none := by
                rw [parseObjLit]
                simp only [hword]
                rw [expectTok_ne '(' _ '[' _ (skipWS_noop (by decide)) (by decide)]
              rw [hobjfail]
              have hml : matchLit ("Array".toList) ('A' :: 'r' :: 'r' :: 'a' :: 'y' ::
                  '[' :: (ty.toList ++ (']' :: '(' :: '[' :: ' ' ::
                    ((stringifyValue v).toList ++ (moreArgsChars t ++
                      (' ' :: ']' :: ')' :: rest)))))) =
                  some ('[' :: (ty.toList ++ (']' :: '(' :: '[' :: ' ' ::
                    ((stringifyValue v).toList ++ (moreArgsChars t ++
                      (' ' :: ']' :: ')' :: rest)))))) :=
                matchLit_self ("Array".toList) _
              have hskipin : skipWS (' ' :: ']' :: ')' :: rest) = ']' :: ')' :: rest := by
                rw [show (' ' :: ']' :: ')' :: rest) = [' '] ++ (']' :: ')' :: rest)
                  from rfl]
                rw [skipWS_append _ _ (by decide)]
                exact skipWS_noop (by decide)
              have hcloseok : closeOk (' ' :: ']' :: ')' :: rest) = true :=
                closeOk_of_skip _ ']' (')' :: rest) hskipin (Or.inl rfl)
              have htarr : parseTarrLit (fb2 + 1) ('A' :: 'r' :: 'r' :: 'a' :: 'y' ::
                  '[' :: (ty.toList ++ (']' :: '(' :: '[' :: ' ' ::
                    ((stringifyValue v).toList ++ (moreArgsChars t ++
                      (' ' :: ']' :: ')' :: rest)))))) =
                  some (.tarr ty (v :: t), rest) := by
                rw [parseTarrLit]
                simp only [hml]
                have hob : expectTok '[' ('[' :: (ty.toList ++ (']' :: '(' :: '[' ::
                    ' ' :: ((stringifyValue v).toList ++ (moreArgsChars t ++
                      (' ' :: ']' :: ')' :: rest)))))) =
                    some (ty.toList ++ (']' :: '(' :: '[' :: ' ' ::
                      ((stringifyValue v).toList ++ (moreArgsChars t ++
                        (' ' :: ']' :: ')' :: rest))))) := expectTok_self _ _ (by decide)
                simp only [hob]
                have hs2 : skipWS (ty.toList ++ (']' :: '(' :: '[' :: ' ' ::
                    ((stringifyValue v).toList ++ (moreArgsChars t ++
                      (' ' :: ']' :: ')' :: rest))))) =
                    ty.toList ++ (']' :: '(' :: '[' :: ' ' ::
                      ((stringifyValue v).toList ++ (moreArgsChars t ++
                        (' ' :: ']' :: ')' :: rest)))) := by
                  cases hvl : ty.toList with
                  | nil => exact absurd hvl htne
                  | cons c0 ct0 =>
                      rw [hvl] at htall
                      simp only [List.all_cons, Bool.and_eq_true] at htall
                      exact skipWS_noop (var_not_ws htall.1)
                rw [hs2]
                rw [parseWordAll_round isVarChar ty.toList _ htne htall (by rfl)]
                have hcb : expectTok ']' (']' :: ('(' :: '[' :: ' ' ::
                    ((stringifyValue v).toList ++ (moreArgsChars t ++
                      (' ' :: ']' :: ')' :: rest))))) =
                    some ('(' :: '[' :: ' ' :: ((stringifyValue v).toList ++
                      (moreArgsChars t ++ (' ' :: ']' :: ')' :: rest)))) :=
                  expectTok_self _ _ (by decide)
                simp only [hcb]
                have hcp : expectTok '(' ('(' :: ('[' :: ' ' ::
                    ((stringifyValue v).toList ++ (moreArgsChars t ++
                      (' ' :: ']' :: ')' :: rest))))) =
                    some ('[' :: ' ' :: ((stringifyValue v).toList ++
                      (moreArgsChars t ++ (' ' :: ']' :: ')' :: rest)))) :=
                  expectTok_self _ _ (by decide)
                simp only [hcp]
                have hs3 : skipWS ('[' :: ' ' :: ((stringifyValue v).toList ++
                    (moreArgsChars t ++ (' ' :: ']' :: ')' :: rest)))) =
                    '[' :: ' ' :: ((stringifyValue v).toList ++
                      (moreArgsChars t ++ (' ' :: ']' :: ')' :: rest))) :=
                  skipWS_noop (by decide)
                rw [hs3]
                have hlist : parseListLit fb2 ('[' :: ' ' ::
                    ((stringifyValue v).toList ++ (moreArgsChars t ++
                      (' ' :: ']' :: ')' :: rest)))) =
                    some (v :: t, ')' :: rest) := by
                  cases fb2 with
                  | zero => simp only [needV, needArgsL] at hfuel; omega
                  | succ fb3 =>
                      rw [parseListLit]
                      have hvr : parseValuesOpt fb3 (' ' ::
                          ((stringifyValue v).toList ++ (moreArgsChars t ++
                            (' ' :: ']' :: ')' :: rest)))) =
                          (v :: t, ' ' :: ']' :: ')' :: rest) := by
                        cases fb3 with
                        | zero => simp only [needV, needArgsL] at hfuel; omega
                        | succ fb4 =>
                            rw [parseValuesOpt]
                            have hpv : parseValue fb4 (' ' ::
                                ((stringifyValue v).toList ++ (moreArgsChars t ++
                                  (' ' :: ']' :: ')' :: rest)))) =
                                some (v, moreArgsChars t ++
                                  (' ' :: ']' :: ')' :: rest)) := by
                              rw [show (' ' :: ((stringifyValue v).toList ++
                                  (moreArgsChars t ++ (' ' :: ']' :: ')' :: rest)))) =
                                [' '] ++ ((stringifyValue v).toList ++
                                  (moreArgsChars t ++ (' ' :: ']' :: ')' :: rest)))
                                from rfl]
                              rw [parseValue_ws fb4 [' '] _ (by decide)]
                              exact roundV v fb4 _ hargs.1 hcl.1
                                (moreArgs_sepOK t _ (closeOk_sepOK _ hcloseok))
                                (by simp only [needV, needArgsL] at hfuel; omega)
                            simp only [hpv]
                            have hmore : parseMoreValues fb4 (moreArgsChars t ++
                                (' ' :: ']' :: ')' :: rest)) =
                                (t, ' ' :: ']' :: ')' :: rest) :=
                              roundMoreArgs t fb4 _ hargs.2 hcl.2 hcloseok
                                (by simp only [needV, needArgsL] at hfuel; omega)
                            simp only [hmore]
                      simp only [hvr]
                      have hcomma : expectTok ',' (' ' :: ']' :: ')' :: rest) = none :=
                        expectTok_ne _ _ _ _ hskipin (by decide)
                      simp only [hcomma]
                      have hctok : expectTok ']' (' ' :: ']' :: ')' :: rest) =
                          some (')' :: rest) := by
                        unfold expectTok
                        rw [hskipin]
                        simp
                      simp only [hctok]
                      rfl
                simp only [hlist]
                have hrp : expectTok ')' (')' :: rest) = some rest :=
                  expectTok_self _ _ (by decide)
                simp only [hrp]
                rfl
              rw [htarr]

/-- Round trip of the comma-separated value tail. -/
theorem roundMoreArgs : ∀ (xs : List GDValue) (fuel : Nat) (tail0 : List Char),
    wfL xs = true → cleanL xs = true → closeOk tail0 = true →
    needArgsL xs ≤ fuel →
    parseMoreValues fuel (moreArgsChars xs ++ tail0) = (xs, tail0)
  | [], fuel, tail0 => by
      intro hwf hcl hclose hfuel
      cases fuel with
      | zero => rfl
      | succ fb =>
          rw [show moreArgsChars [] ++ tail0 = tail0 from by simp [moreArgsChars]]
          rw [parseMoreValues]
          rw [closeOk_comma_none tail0 hclose]
  | v :: t, fuel, tail0 => by
      intro hwf hcl hclose hfuel
      cases fuel with
      | zero => simp only [needArgsL] at hfuel; omega
      | succ fb =>
          simp only [wfL, Bool.and_eq_true] at hwf
          simp only [cleanL, Bool.and_eq_true] at hcl
          have hform : moreArgsChars (v :: t) ++ tail0 =
              ',' :: ' ' :: ((stringifyValue v).toList ++ (moreArgsChars t ++ tail0)) := by
            simp [moreArgsChars]
          rw [hform, parseMoreValues]
          have hcomma : expectTok ',' (',' :: ' ' :: ((stringifyValue v).toList ++
              (moreArgsChars t ++ tail0))) =
              some (' ' :: ((stringifyValue v).toList ++ (moreArgsChars t ++ tail0))) :=
            expectTok_self _ _ (by decide)
          simp only [hcomma]
          have hpv : parseValue fb (' ' :: ((stringifyValue v).toList ++
              (moreArgsChars t ++ tail0))) = some (v, moreArgsChars t ++ tail0) := by
            rw [show (' ' :: ((stringifyValue v).toList ++ (moreArgsChars t ++ tail0))) =
              [' '] ++ ((stringifyValue v).toList ++ (moreArgsChars t ++ tail0))
              from rfl]
            rw [parseValue_ws fb [' '] _ (by decide)]
            exact roundV v fb _ hwf.1 hcl.1
              (moreArgs_sepOK t _ (closeOk_sepOK _ hclose))
              (by simp only [needArgsL] at hfuel; omega)
          simp only [hpv]
          have hmore : parseMoreValues fb (moreArgsChars t ++ tail0) = (t, tail0) :=
            roundMoreArgs t fb tail0 hwf.2 hcl.2 hclose
              (by simp only [needArgsL] at hfuel; omega)
          simp only [hmore]

/-- Round trip of one printed dictionary entry. -/
theorem roundPairOne : ∀ (p : String × GDValue) (fuel : Nat) (ws tail : List Char),
    ws.all isWSChar = true → strClean p.1 = true → dictKeyOk p.1 = true →
    wfV p.2 = true → cleanV p.2 = true → sepOK tail = true →
    needV p.2 + 1 ≤ fuel →
    parsePairOne fuel (ws ++ pairChars p ++ tail) = some (p, tail)
  | (k, v), fuel, ws, tail => by
      intro hws hk1 hk2 hwfv hclv hsep hfuel
      cases fuel with
      | zero => omega
      | succ fb =>
          have hfuel2 : needV v + 1 ≤ fb + 1 := hfuel
          have hform : ws ++ pairChars (k, v) ++ tail =
              ws ++ ('"' :: (k.toList ++ ('"' :: ':' :: ' ' ::
                ((stringifyValue v).toList ++ tail)))) := by
            simp [pairChars]
          rw [hform, parsePairOne]
          have hskipq : skipWS (ws ++ ('"' :: (k.toList ++ ('"' :: ':' :: ' ' ::
              ((stringifyValue v).toList ++ tail))))) =
              '"' :: (k.toList ++ ('"' :: ':' :: ' ' ::
                ((stringifyValue v).toList ++ tail))) := by
            rw [skipWS_append _ _ hws]
            exact skipWS_noop (by decide)
          simp only [hskipq]
          rw [show parseQuoted false ('"' :: (k.toList ++ ('"' :: ':' :: ' ' ::
              ((stringifyValue v).toList ++ tail)))) =
              some (String.mk k.toList, ':' :: ' ' ::
                ((stringifyValue v).toList ++ tail)) from
            parseQuoted_round false k.toList _ hk1 (Or.inr hk2)]
          have hcolon : expectTok ':' (':' :: (' ' ::
              ((stringifyValue v).toList ++ tail))) =
              some (' ' :: ((stringifyValue v).toList ++ tail)) :=
            expectTok_self _ _ (by decide)
          simp only [hcolon]
          have hval : parseValue fb (' ' :: ((stringifyValue v).toList ++ tail)) =
              some (v, tail) := by
            rw [show (' ' :: ((stringifyValue v).toList ++ tail)) =
              [' '] ++ ((stringifyValue v).toList ++ tail) from rfl]
            rw [parseValue_ws fb [' '] _ (by decide)]
            exact roundV v fb tail hwfv hclv hsep (by omega)
          simp only [hval]
          rfl

/-- Round trip of the comma-newline separated pair tail. -/
theorem roundMorePairs : ∀ (xs : List (String × GDValue)) (fuel : Nat)
    (tail0 : List Char),
    xs.all (fun p => strClean p.1) = true → xs.all (fun p => dictKeyOk p.1) = true →
    wfP xs = true → cleanP xs = true → closeBrace tail0 = true →
    needPairs xs ≤ fuel →
    parseMorePairs fuel (morePairsChars xs ++ tail0) = (xs, tail0)
  | [], fuel, tail0 => by
      intro hks hkd hwf hcl hclose hfuel
      cases fuel with
      | zero => rfl
      | succ fb =>
          rw [show morePairsChars [] ++ tail0 = tail0 from by simp [morePairsChars]]
          rw [parseMorePairs]
          rw [closeBrace_comma_none tail0 hclose]
  | (k, v) :: t, fuel, tail0 => by
      intro hks hkd hwf hcl hclose hfuel
      cases fuel with
      | zero => simp only [needPairs] at hfuel; omega
      | succ fb =>
          simp only [List.all_cons, Bool.and_eq_true] at hks hkd
          simp only [wfP, Bool.and_eq_true] at hwf
          simp only [cleanP, Bool.and_eq_true] at hcl
          have hform : morePairsChars ((k, v) :: t) ++ tail0 =
              ',' :: '\n' :: (pairChars (k, v) ++ (morePairsChars t ++ tail0)) := by
            simp [morePairsChars]
          rw [hform, parseMorePairs]
          have hcomma : expectTok ',' (',' :: '\n' :: (pairChars (k, v) ++
              (morePairsChars t ++ tail0))) =
              some ('\n' :: (pairChars (k, v) ++ (morePairsChars t ++ tail0))) :=
            expectTok_self _ _ (by decide)
          simp only [hcomma]
          have hone : parsePairOne fb ('\n' :: (pairChars (k, v) ++
              (morePairsChars t ++ tail0))) =
              some ((k, v), morePairsChars t ++ tail0) :=
            roundPairOne (k, v) fb ['\n'] _ (by decide) hks.1 hkd.1 hwf.1 hcl.1
              (morePairs_sepOK t _ (closeBrace_sepOK _ hclose))
              (by
                simp only [needPairs] at hfuel
                show needV v + 1 ≤ fb
                omega)
          simp only [hone]
          have hmp : parseMorePairs fb (morePairsChars t ++ tail0) = (t, tail0) :=
            roundMorePairs t fb tail0 hks.2 hkd.2 hwf.2 hcl.2 hclose
              (by simp only [needPairs] at hfuel; omega)
          simp only [hmp]

end

/-! ## Printer decompositions at the section and file level -/

/-- Value bounds of bare-key characters. -/
theorem key_bounds {c : Char} (h : isKeyChar c = true) :
    47 ≤ c.val.toNat ∧ c.val.toNat ≤ 122 := by
  simp only [isKeyChar, Char.isAlphanum, Bool.or_eq_true, decide_eq_true_eq] at h
  rcases h with ((ha | hd) | he) | hs
  · have := alpha_bounds ha
    omega
  · have := digit_bounds hd
    omega
  · rw [he]
    exact ⟨by decide, by decide⟩
  · rw [hs]
    exact ⟨by decide, by decide⟩

/-- A bare-key character is not whitespace. -/
theorem key_not_ws {c : Char} (h : isKeyChar c = true) : isWSChar c = false := by
  cases hw : isWSChar c with
  | false => rfl
  | true =>
      have := ws_bounds hw
      have := key_bounds h
      omega

/-- A word of one class fails on a head outside the class. -/
theorem parseWordAll_none (p : Char → Bool) (s : List Char)
    (h : headNo p s = true) : parseWordAll p s = none := by
  cases s with
  | nil => rfl
  | cons c t =>
      simp only [headNo, Bool.not_eq_true'] at h
      simp [parseWordAll, List.takeWhile_cons, h]

/-- A line end consumes exactly one immediate newline. -/
theorem expectLineEnd_newline (X : List Char) :
    expectLineEnd ('\n' :: X) = some X := rfl

/-- A line end accepts the end of input. -/
theorem expectLineEnd_nil : expectLineEnd [] = some [] := rfl

/-- The newline-led printed entries coincide with the entry-loop view. -/
theorem entriesChars_tail : ∀ (props : List (String × GDValue)) (t2 : List Char),
    entriesChars props ++ '\n' :: t2 = '\n' :: entriesTail props t2 := by
  intro props
  induction props with
  | nil => intro t2; rfl
  | cons p ps ih =>
      intro t2
      simp only [entriesChars, entriesTail, List.cons_append, List.append_assoc,
        ih t2]

/-- The printed header characters. -/
theorem headerStr_chars (h : GDSectionHeader) :
    (headerStr h).toList = '[' :: (h.name.toList ++ (attrsChars h.attributes ++ [']'])) := by
  have aux : ∀ (attrs : List (String × GDValue)), attrs ≠ [] →
      (" " ++ joinSep " "
        (attrs.map (fun a => a.1 ++ "=" ++ stringifyValue a.2))).toList =
      attrsChars attrs := by
    intro attrs
    induction attrs with
    | nil => intro hne; exact absurd rfl hne
    | cons a rest ih =>
        intro _
        cases rest with
        | nil =>
            simp only [List.map_cons, List.map_nil, joinSep, attrsChars, attrChars,
              attrsChars]
            rw [toList_append, toList_append, toList_append]
            simp
        | cons b r =>
            have ihh := ih (by simp)
            simp only [List.map_cons] at ihh
            simp only [List.map_cons, joinSep]
            simp only [toList_append] at ihh ⊢
            rw [show attrsChars (a :: b :: r) =
              ' ' :: attrChars a ++ attrsChars (b :: r) from rfl]
            rw [← ihh]
            simp only [attrChars, toList_append]
            simp [List.append_assoc,
              show ((" " : String).toList : List Char) = [' '] from rfl,
              show (("=" : String).toList : List Char) = ['='] from rfl]
  unfold headerStr
  by_cases he : h.attributes.isEmpty
  · rw [if_pos he]
    have hnil : h.attributes = [] := by
      cases ha : h.attributes with
      | nil => rfl
      | cons x xs => rw [ha] at he; simp [List.isEmpty] at he
    rw [hnil]
    rw [toList_append, toList_append, toList_append]
    simp [attrsChars]
  · rw [if_neg he]
    have hne : h.attributes ≠ [] := by
      intro hx
      rw [hx] at he
      exact he rfl
    rw [toList_append, toList_append, toList_append, aux h.attributes hne]
    simp

/-- The printed section characters. -/
theorem sectionStr_chars (s : GDSection) :
    (sectionStr s).toList = headerCoreChars s ++ entriesChars s.properties := by
  have aux : ∀ (props : List (String × GDValue)), props ≠ [] →
      ("\n" ++ joinSep "\n"
        (props.map (fun p => p.1 ++ " = " ++ stringifyValue p.2))).toList =
      entriesChars props := by
    intro props
    induction props with
    | nil => intro hne; exact absurd rfl hne
    | cons p rest ih =>
        intro _
        cases rest with
        | nil =>
            simp only [List.map_cons, List.map_nil, joinSep, entriesChars, entryChars,
              entriesChars]
            rw [toList_append, toList_append, toList_append]
            simp
        | cons b r =>
            have ihh := ih (by simp)
            simp only [List.map_cons] at ihh
            simp only [List.map_cons, joinSep]
            simp only [toList_append] at ihh ⊢
            rw [show entriesChars (p :: b :: r) =
              '\n' :: entryChars p ++ entriesChars (b :: r) from rfl]
            rw [← ihh]
            simp only [entryChars, toList_append]
            simp [List.append_assoc,
              show (("\n" : String).toList : List Char) = ['\n'] from rfl,
              show ((" = " : String).toList : List Char) = [' ', '=', ' '] from rfl]
  unfold sectionStr
  by_cases he : s.properties.isEmpty
  · rw [if_pos he]
    have hnil : s.properties = [] := by
      cases ha : s.properties with
      | nil => rfl
      | cons x xs => rw [ha] at he; simp [List.isEmpty] at he
    rw [hnil]
    rw [toList_append, headerStr_chars]
    simp [entriesChars, headerCoreChars]
  · rw [if_neg he]
    have hne : s.properties ≠ [] := by
      intro hx
      rw [hx] at he
      exact he rfl
    rw [toList_append, headerStr_chars, aux s.properties hne]
    simp [headerCoreChars]

/-- The printed file characters in section-loop form. -/
theorem fileStr_chars : ∀ (rest : List GDSection) (s : GDSection),
    (fileStr ⟨s :: rest⟩).toList = sectionTail s (restSectionsChars rest) := by
  intro rest
  induction rest with
  | nil =>
      intro s
      unfold fileStr
      simp only [List.map_cons, List.map_nil, joinSep]
      rw [toList_append, sectionStr_chars]
      show headerCoreChars s ++ entriesChars s.properties ++ "\n".toList =
        sectionTail s (restSectionsChars [])
      unfold sectionTail restSectionsChars
      rw [List.append_assoc]
      rw [show ("\n".toList : List Char) = '\n' :: [] from rfl]
      rw [entriesChars_tail s.properties []]
  | cons s2 r ih =>
      intro s
      have ih2 := ih s2
      unfold fileStr at ih2
      simp only [List.map_cons] at ih2
      unfold fileStr
      simp only [List.map_cons, joinSep]
      show ((sectionStr s ++ "\n\n" ++
        joinSep "\n\n" (sectionStr s2 :: List.map sectionStr r)) ++ "\n").toList =
        sectionTail s (restSectionsChars (s2 :: r))
      unfold sectionTail restSectionsChars
      rw [← entriesChars_tail s.properties
        ('\n' :: sectionTail s2 (restSectionsChars r))]
      rw [← ih2]
      simp only [toList_append] at ih2 ⊢
      rw [sectionStr_chars]
      simp [List.append_assoc,
        show (("\n" : String).toList : List Char) = ['\n'] from rfl,
        show (("\n\n" : String).toList : List Char) = ['\n', '\n'] from rfl]

/-! ## Round trip of headers, entries, sections and the section loop -/

/-- The parts of a valid bare key. -/
theorem keyBare_parts (s : String) (h : keyBareOk s = true) :
    s.toList ≠ [] ∧ s.toList.all isKeyChar = true := by
  unfold keyBareOk at h
  simp only [Bool.and_eq_true, Bool.not_eq_true'] at h
  refine ⟨?_, h.2⟩
  intro he
  have hs : s = "" := congrArg String.mk he
  rw [hs] at h
  exact absurd h.1 (by decide)

/-- The attribute loop ignores the closing bracket. -/
theorem attrOne_stop (fb : Nat) (rest : List Char) (r2 : List Char)
    (h : skipWS rest = ']' :: r2) : parseAttrOne fb rest = none := by
  cases fb with
  | zero => rfl
  | succ fb2 =>
      rw [parseAttrOne]
      rw [h, parseWordAll_none isVarChar (']' :: r2) (by rfl)]

/-- A bracket closer past whitespace is inside the follow set. -/
theorem attrStop_sepOK (rest : List Char) (r2 : List Char)
    (h : skipWS rest = ']' :: r2) : sepOK rest = true := by
  cases rest with
  | nil => simp [skipWS] at h
  | cons c t =>
      cases hw : isWSChar c with
      | true =>
          simp only [isWSChar, Bool.or_eq_true, decide_eq_true_eq] at hw
          rcases hw with (hw | hw) | hw <;> rw [hw] <;> rfl
      | false =>
          rw [skipWS_noop hw] at h
          injection h with h1 _
          rw [h1]
          rfl

/-- The follow set survives a printed attribute tail. -/
theorem attrsChars_sepOK (rest2 : List (String × GDValue)) (rest : List Char)
    (h : sepOK rest = true) : sepOK (attrsChars rest2 ++ rest) = true := by
  cases rest2 with
  | nil => simpa [attrsChars] using h
  | cons a r => rfl

/-- Round trip of the header attribute loop. -/
theorem roundAttrs : ∀ (attrs : List (String × GDValue)) (fuel : Nat)
    (rest : List Char),
    attrs.all (fun a => varWordOk a.1) = true →
    attrs.all (fun a => wfV a.2) = true →
    attrs.all (fun a => cleanV a.2) = true →
    (∃ r2, skipWS rest = ']' :: r2) →
    needAttrs attrs ≤ fuel →
    parseAttrs fuel (attrsChars attrs ++ rest) = (attrs, rest) := by
  intro attrs
  induction attrs with
  | nil =>
      intro fuel rest _ _ _ hstop _
      obtain ⟨r2, hs⟩ := hstop
      rw [show attrsChars [] ++ rest = rest from by simp [attrsChars]]
      cases fuel with
      | zero => rfl
      | succ fb =>
          rw [parseAttrs]
          rw [attrOne_stop fb rest r2 hs]
  | cons a rest2 ih =>
      intro fuel rest hkeys hwf hcl hstop hfuel
      obtain ⟨r2, hsr⟩ := hstop
      simp only [List.all_cons, Bool.and_eq_true] at hkeys hwf hcl
      obtain ⟨hne, hall⟩ := varWord_parts a.1 hkeys.1
      have hform : attrsChars (a :: rest2) ++ rest =
          ' ' :: (a.1.toList ++ ('=' :: ((stringifyValue a.2).toList ++
            (attrsChars rest2 ++ rest)))) := by
        simp [attrsChars, attrChars, List.append_assoc]
      cases fuel with
      | zero => simp only [needAttrs] at hfuel; omega
      | succ fb =>
          rw [hform, parseAttrs]
          have hone : parseAttrOne fb (' ' :: (a.1.toList ++ ('=' ::
              ((stringifyValue a.2).toList ++ (attrsChars rest2 ++ rest))))) =
              some (a, attrsChars rest2 ++ rest) := by
            cases fb with
            | zero => simp only [needAttrs] at hfuel; omega
            | succ fb2 =>
                rw [parseAttrOne]
                have hskip : skipWS (' ' :: (a.1.toList ++ ('=' ::
                    ((stringifyValue a.2).toList ++ (attrsChars rest2 ++ rest))))) =
                    a.1.toList ++ ('=' :: ((stringifyValue a.2).toList ++
                      (attrsChars rest2 ++ rest))) := by
                  rw [show (' ' :: (a.1.toList ++ ('=' ::
                      ((stringifyValue a.2).toList ++ (attrsChars rest2 ++ rest))))) =
                    [' '] ++ (a.1.toList ++ ('=' :: ((stringifyValue a.2).toList ++
                      (attrsChars rest2 ++ rest)))) from rfl]
                  rw [skipWS_append _ _ (by decide)]
                  cases hvl : a.1.toList with
                  | nil => exact absurd hvl hne
                  | cons c0 ct0 =>
                      rw [hvl] at hall
                      simp only [List.all_cons, Bool.and_eq_true] at hall
                      exact skipWS_noop (var_not_ws hall.1)
                rw [hskip]
                rw [parseWordAll_round isVarChar a.1.toList _ hne hall (by rfl)]
                have htok : expectTok '=' ('=' :: ((stringifyValue a.2).toList ++
                    (attrsChars rest2 ++ rest))) =
                    some ((stringifyValue a.2).toList ++ (attrsChars rest2 ++ rest)) :=
                  expectTok_self _ _ (by decide)
                simp only [htok]
                have hval : parseValue fb2 ((stringifyValue a.2).toList ++
                    (attrsChars rest2 ++ rest)) =
                    some (a.2, attrsChars rest2 ++ rest) :=
                  roundV a.2 fb2 _ hwf.1 hcl.1
                    (attrsChars_sepOK rest2 rest (attrStop_sepOK rest r2 hsr))
                    (by simp only [needAttrs] at hfuel; omega)
                simp only [hval]
                rfl
          simp only [hone]
          have hrec : parseAttrs fb (attrsChars rest2 ++ rest) = (rest2, rest) :=
            ih fb rest hkeys.2 hwf.2 hcl.2 ⟨r2, hsr⟩
              (by simp only [needAttrs] at hfuel; omega)
          simp only [hrec]

/-- Round trip of a printed section header. -/
theorem roundHeader (name : String) (attrs : List (String × GDValue)) (fuel : Nat)
    (ws after after2 : List Char)
    (hws : ws.all isWSChar = true) (hname : varWordOk name = true)
    (hkeys : attrs.all (fun a => varWordOk a.1) = true)
    (hwf : attrs.all (fun a => wfV a.2) = true)
    (hcl : attrs.all (fun a => cleanV a.2) = true)
    (hnodup : nodupKeys attrs = true)
    (hle : expectLineEnd after = some after2)
    (hfuel : needAttrs attrs + 1 ≤ fuel) :
    parseHeader fuel (ws ++ ('[' :: (name.toList ++ (attrsChars attrs ++
      (']' :: after))))) = some (⟨name, attrs⟩, after2) := by
  cases fuel with
  | zero => omega
  | succ fb =>
      rw [parseHeader]
      have hob : expectTok '[' (ws ++ ('[' :: (name.toList ++ (attrsChars attrs ++
          (']' :: after))))) =
          some (name.toList ++ (attrsChars attrs ++ (']' :: after))) :=
        expectTok_ws_self '[' ws _ hws (by decide)
      simp only [hob]
      obtain ⟨hne, hall⟩ := varWord_parts name hname
      have hskip : skipWS (name.toList ++ (attrsChars attrs ++ (']' :: after))) =
          name.toList ++ (attrsChars attrs ++ (']' :: after)) := by
        cases hvl : name.toList with
        | nil => exact absurd hvl hne
        | cons c0 ct0 =>
            rw [hvl] at hall
            simp only [List.all_cons, Bool.and_eq_true] at hall
            exact skipWS_noop (var_not_ws hall.1)
      rw [hskip]
      have hhead : headNo isVarChar (attrsChars attrs ++ (']' :: after)) = true := by
        cases attrs with
        | nil => rfl
        | cons a r => rfl
      rw [parseWordAll_round isVarChar name.toList _ hne hall hhead]
      have hattrs : parseAttrs fb (attrsChars attrs ++ (']' :: after)) =
          (attrs, ']' :: after) :=
        roundAttrs attrs fb (']' :: after) hkeys hwf hcl
          ⟨after, skipWS_noop (by decide)⟩ (by omega)
      simp only [hattrs]
      have hcb : expectTok ']' (']' :: after) = some after :=
        expectTok_self _ _ (by decide)
      simp only [hcb]
      rw [hle]
      simp only [Option.map]
      rw [foldl_odSet_nodup attrs hnodup]
      rfl

/-- The entry loop stops at the end of input or at a bracket. -/
theorem entryOne_stop (fb : Nat) (T2 : List Char)
    (h : T2 = [] ∨ ∃ r2, skipWS T2 = '[' :: r2) : parseEntryOne fb T2 = none := by
  cases fb with
  | zero => rfl
  | succ fb2 =>
      rw [parseEntryOne]
      rcases h with h | ⟨r2, h⟩
      · rw [h]
        rw [show skipWS ([] : List Char) = [] from rfl]
        rw [parseQuoted_nil false, parseWordAll_none isKeyChar [] (by rfl)]
      · rw [h]
        rw [parseQuoted_head_ne false '[' r2 (by decide)]
        rw [parseWordAll_none isKeyChar ('[' :: r2) (by rfl)]

/-- Round trip of the section entry loop, starting after a consumed
line end. -/
theorem roundEntriesCore : ∀ (props : List (String × GDValue)) (fuel : Nat)
    (T2 : List Char),
    props.all (fun p => keyBareOk p.1) = true →
    props.all (fun p => wfV p.2) = true →
    props.all (fun p => cleanV p.2) = true →
    (T2 = [] ∨ ∃ r2, skipWS T2 = '[' :: r2) →
    needEntries props ≤ fuel →
    parseEntries fuel (entriesTail props T2) = (props, T2) := by
  intro props
  induction props with
  | nil =>
      intro fuel T2 _ _ _ hstop _
      rw [show entriesTail [] T2 = T2 from rfl]
      cases fuel with
      | zero => rfl
      | succ fb =>
          rw [parseEntries]
          rw [entryOne_stop fb T2 hstop]
  | cons p ps ih =>
      intro fuel T2 hkeys hwf hcl hstop hfuel
      simp only [List.all_cons, Bool.and_eq_true] at hkeys hwf hcl
      obtain ⟨hne, hall⟩ := keyBare_parts p.1 hkeys.1
      have hform : entriesTail (p :: ps) T2 =
          p.1.toList ++ (' ' :: '=' :: ' ' :: ((stringifyValue p.2).toList ++
            ('\n' :: entriesTail ps T2))) := by
        simp [entriesTail, entryChars, List.append_assoc]
      cases fuel with
      | zero => simp only [needEntries] at hfuel; omega
      | succ fb =>
          rw [hform, parseEntries]
          have hone : parseEntryOne fb (p.1.toList ++ (' ' :: '=' :: ' ' ::
              ((stringifyValue p.2).toList ++ ('\n' :: entriesTail ps T2)))) =
              some (p, entriesTail ps T2) := by
            cases fb with
            | zero => simp only [needEntries] at hfuel; omega
            | succ fb2 =>
                rw [parseEntryOne]
                have hskip : skipWS (p.1.toList ++ (' ' :: '=' :: ' ' ::
                    ((stringifyValue p.2).toList ++ ('\n' :: entriesTail ps T2)))) =
                    p.1.toList ++ (' ' :: '=' :: ' ' ::
                      ((stringifyValue p.2).toList ++ ('\n' :: entriesTail ps T2))) := by
                  cases hvl : p.1.toList with
                  | nil => exact absurd hvl hne
                  | cons c0 ct0 =>
                      rw [hvl] at hall
                      simp only [List.all_cons, Bool.and_eq_true] at hall
                      exact skipWS_noop (key_not_ws hall.1)
                rw [hskip]
                have hqfail : parseQuoted false (p.1.toList ++ (' ' :: '=' :: ' ' ::
                    ((stringifyValue p.2).toList ++ ('\n' :: entriesTail ps T2)))) =
                    none := by
                  cases hvl : p.1.toList with
                  | nil => exact absurd hvl hne
                  | cons c0 ct0 =>
                      rw [hvl] at hall
                      simp only [List.all_cons, Bool.and_eq_true] at hall
                      exact parseQuoted_head_ne _ _ _ (bclass_ne hall.1 (by decide))
                rw [hqfail]
                rw [parseWordAll_round isKeyChar p.1.toList _ hne hall (by rfl)]
                have htok : expectTok '=' (' ' :: '=' :: ' ' ::
                    ((stringifyValue p.2).toList ++ ('\n' :: entriesTail ps T2))) =
                    some (' ' :: ((stringifyValue p.2).toList ++
                      ('\n' :: entriesTail ps T2))) :=
                  expectTok_ws_self '=' [' '] _ (by decide) (by decide)
                simp only [htok]
                have hval : parseValue fb2 (' ' :: ((stringifyValue p.2).toList ++
                    ('\n' :: entriesTail ps T2))) =
                    some (p.2, '\n' :: entriesTail ps T2) := by
                  rw [show (' ' :: ((stringifyValue p.2).toList ++
                      ('\n' :: entriesTail ps T2))) =
                    [' '] ++ ((stringifyValue p.2).toList ++
                      ('\n' :: entriesTail ps T2)) from rfl]
                  rw [parseValue_ws fb2 [' '] _ (by decide)]
                  exact roundV p.2 fb2 _ hwf.1 hcl.1 (by rfl)
                    (by simp only [needEntries] at hfuel; omega)
                simp only [hval]
                rw [expectLineEnd_newline]
                rfl
          simp only [hone]
          have hrec : parseEntries fb (entriesTail ps T2) = (ps, T2) :=
            ih fb T2 hkeys.2 hwf.2 hcl.2 hstop
              (by simp only [needEntries] at hfuel; omega)
          simp only [hrec]

/-- Round trip of one printed section. -/
theorem roundSectionOne (s : GDSection) (fuel : Nat) (ws T2 : List Char)
    (hws : ws.all isWSChar = true)
    (hwf : wfSectionB s = true) (hcl : cleanSectionB s = true)
    (hstop : T2 = [] ∨ ∃ r2, skipWS T2 = '[' :: r2)
    (hfuel : needSection s ≤ fuel) :
    parseSectionOne fuel (ws ++ sectionTail s T2) = some (s, T2) := by
  obtain ⟨⟨name, attrs⟩, props⟩ := s
  simp only [wfSectionB, Bool.and_eq_true] at hwf
  obtain ⟨⟨⟨⟨⟨hname, hakeys⟩, handup⟩, hawf⟩, hpdup⟩, hpwf⟩ := hwf
  simp only [cleanSectionB, Bool.and_eq_true] at hcl
  obtain ⟨⟨hpkeys, hacl⟩, hpcl⟩ := hcl
  have hform : ws ++ sectionTail ⟨⟨name, attrs⟩, props⟩ T2 =
      ws ++ ('[' :: (name.toList ++ (attrsChars attrs ++
        (']' :: ('\n' :: entriesTail props T2))))) := by
    simp [sectionTail, headerCoreChars, List.append_assoc]
  cases fuel with
  | zero => simp only [needSection, needHeader] at hfuel; omega
  | succ fb =>
      rw [hform, parseSectionOne]
      have hhdr : parseHeader fb (ws ++ ('[' :: (name.toList ++ (attrsChars attrs ++
          (']' :: ('\n' :: entriesTail props T2)))))) =
          some (⟨name, attrs⟩, entriesTail props T2) :=
        roundHeader name attrs fb ws ('\n' :: entriesTail props T2)
          (entriesTail props T2) hws hname hakeys hawf hacl handup
          (expectLineEnd_newline _)
          (by simp only [needSection, needHeader] at hfuel; omega)
      simp only [hhdr]
      have hent : parseEntries fb (entriesTail props T2) = (props, T2) :=
        roundEntriesCore props fb T2 hpkeys hpwf hpcl hstop
          (by simp only [needSection, needHeader] at hfuel; omega)
      simp only [hent]
      rw [foldl_odSet_nodup props hpdup]

/-- parseHeader fails on empty input. -/
theorem parseHeader_nil (fuel : Nat) : parseHeader fuel [] = none := by
  cases fuel with
  | zero => rfl
  | succ fb =>
      rw [parseHeader]
      rw [expectTok_nil '[' [] rfl]

/-- parseSectionOne fails on empty input. -/
theorem parseSectionOne_nil (fuel : Nat) : parseSectionOne fuel [] = none := by
  cases fuel with
  | zero => rfl
  | succ fb =>
      rw [parseSectionOne]
      rw [parseHeader_nil fb]

/-- The section loop fails on empty input. -/
theorem sectionsLoop_nil (fuel : Nat) : parseSectionsLoop fuel [] = none := by
  cases fuel with
  | zero => rfl
  | succ fb =>
      rw [parseSectionsLoop]
      rw [parseSectionOne_nil fb]

/-- Round trip of the whole section loop. -/
theorem roundSections : ∀ (rest : List GDSection) (s : GDSection) (fuel : Nat)
    (lead : List Char),
    lead.all isWSChar = true →
    (s :: rest).all wfSectionB = true → (s :: rest).all cleanSectionB = true →
    needSections (s :: rest) ≤ fuel →
    parseSectionsLoop fuel (lead ++ sectionTail s (restSectionsChars rest)) =
      some (s :: rest, []) := by
  intro rest
  induction rest with
  | nil =>
      intro s fuel lead hws hwf hcl hfuel
      simp only [List.all_cons, Bool.and_eq_true] at hwf hcl
      cases fuel with
      | zero => simp only [needSections] at hfuel; omega
      | succ fb =>
          rw [parseSectionsLoop]
          have hone : parseSectionOne fb
              (lead ++ sectionTail s (restSectionsChars [])) = some (s, []) := by
            rw [show restSectionsChars [] = [] from rfl]
            exact roundSectionOne s fb lead [] hws hwf.1 hcl.1 (Or.inl rfl)
              (by simp only [needSections] at hfuel; omega)
          simp only [hone]
          rw [sectionsLoop_nil fb]
  | cons s2 r ih =>
      intro s fuel lead hws hwf hcl hfuel
      simp only [List.all_cons, Bool.and_eq_true] at hwf hcl
      cases fuel with
      | zero => simp only [needSections] at hfuel; omega
      | succ fb =>
          rw [parseSectionsLoop]
          have hstop : ∃ r2, skipWS (restSectionsChars (s2 :: r)) = '[' :: r2 := by
            refine ⟨s2.header.name.toList ++ (attrsChars s2.header.attributes ++
              (']' :: ('\n' :: entriesTail s2.properties (restSectionsChars r)))), ?_⟩
            rw [show restSectionsChars (s2 :: r) =
              '\n' :: sectionTail s2 (restSectionsChars r) from rfl]
            rw [show ('\n' :: sectionTail s2 (restSectionsChars r)) =
              ['\n'] ++ sectionTail s2 (restSectionsChars r) from rfl]
            rw [skipWS_append _ _ (by decide)]
            rw [show sectionTail s2 (restSectionsChars r) =
              '[' :: (s2.header.name.toList ++ (attrsChars s2.header.attributes ++
                (']' :: ('\n' :: entriesTail s2.properties
                  (restSectionsChars r))))) from by
              simp [sectionTail, headerCoreChars, List.append_assoc]]
            exact skipWS_noop (by decide)
          have hone : parseSectionOne fb
              (lead ++ sectionTail s (restSectionsChars (s2 :: r))) =
              some (s, restSectionsChars (s2 :: r)) :=
            roundSectionOne s fb lead _ hws hwf.1 hcl.1 (Or.inr hstop)
              (by simp only [needSections] at hfuel; omega)
          simp only [hone]
          have hrec : parseSectionsLoop fb (restSectionsChars (s2 :: r)) =
              some (s2 :: r, []) := by
            rw [show restSectionsChars (s2 :: r) =
              ['\n'] ++ sectionTail s2 (restSectionsChars r) from rfl]
            exact ih s2 fb ['\n'] (by decide)
              (by simp only [List.all_cons, Bool.and_eq_true]; exact hwf.2)
              (by simp only [List.all_cons, Bool.and_eq_true]; exact hcl.2)
              (by simp only [needSections] at hfuel ⊢; omega)
          simp only [hrec]

/-! ## The top-level fuel supply covers the printed file -/

/-- A printed integer has at least one character. -/
theorem intStr_len_pos (n : Int) : 1 ≤ (intStr n).toList.length := by
  unfold intStr
  obtain ⟨h1, _, _⟩ := natDigits_spec n.natAbs
  by_cases hn : n < 0
  · rw [if_pos hn, toList_append]
    simp
  · rw [if_neg hn]
    show 1 ≤ (natDigits n.natAbs).length
    cases hw : natDigits n.natAbs with
    | nil => exact absurd hw h1
    | cons c t => simp

mutual

/-- The value fuel measure is dominated by the printed length. -/
theorem needV_len : ∀ (v : GDValue),
    needV v + 3 ≤ 8 * (stringifyValue v).toList.length
  | .null => by decide
  | .bool b => by cases b <;> decide
  | .int n => by
      have := intStr_len_pos n
      simp only [needV, stringifyValue]
      omega
  | .str s => by
      simp only [needV, stringifyValue]
      rw [toList_append, toList_append]
      simp only [List.length_append]
      have e1 : ("\"" : String).toList.length = 1 := rfl
      omega
  | .list xs => by
      have := needArgsL_len xs
      simp only [needV, stringifyValue]
      rw [toList_append, toList_append]
      simp only [List.length_append]
      have e1 : ("[ " : String).toList.length = 2 := rfl
      have e2 : (" ]" : String).toList.length = 2 := rfl
      omega
  | .dict xs => by
      have := needPairs_len xs
      simp only [needV, stringifyValue]
      rw [toList_append, toList_append]
      simp only [List.length_append]
      have e1 : ("\x7b\n" : String).toList.length = 2 := rfl
      have e2 : ("\n\x7d" : String).toList.length = 2 := rfl
      omega
  | .obj n args => by
      simp only [needV, stringifyValue]
      split
      · next p =>
          simp only [needArgsL, needV]
          rw [toList_append, toList_append]
          simp only [List.length_append]
          have e1 : ("NodePath(\"" : String).toList.length = 10 := rfl
          have e2 : ("\")" : String).toList.length = 2 := rfl
          omega
      · next m =>
          simp only [needArgsL, needV]
          rw [toList_append, toList_append]
          simp only [List.length_append]
          have e1 : ("NodePath(\"" : String).toList.length = 10 := rfl
          have e2 : ("\")" : String).toList.length = 2 := rfl
          omega
      · have := needArgsL_len args
        rw [toList_append, toList_append, toList_append]
        simp only [List.length_append]
        have e1 : ("( " : String).toList.length = 2 := rfl
        have e2 : (" )" : String).toList.length = 2 := rfl
        omega
  | .tarr ty xs => by
      have := needArgsL_len xs
      simp only [needV, stringifyValue]
      rw [toList_append, toList_append, toList_append, toList_append]
      simp only [List.length_append]
      have e1 : ("Array[" : String).toList.length = 6 := rfl
      have e2 : ("]([ " : String).toList.length = 4 := rfl
      have e3 : (" ])" : String).toList.length = 3 := rfl
      omega

/-- The argument-list fuel measure is dominated by the printed length. -/
theorem needArgsL_len : ∀ (xs : List GDValue),
    needArgsL xs ≤ 8 * (stringifyArgs xs).toList.length + 2
  | [] => by decide
  | [v] => by
      have := needV_len v
      simp only [needArgsL, needV, stringifyArgs]
      omega
  | v :: w :: r => by
      have h1 := needV_len v
      have h2 := needArgsL_len (w :: r)
      rw [show needArgsL (v :: w :: r) = needV v + needArgsL (w :: r) + 3 from rfl]
      rw [show stringifyArgs (v :: w :: r) =
        stringifyValue v ++ ", " ++ stringifyArgs (w :: r) from rfl]
      simp only [toList_append, List.length_append]
      have e1 : ((", " : String).toList.length) = 2 := rfl
      omega

/-- The pair-list fuel measure is dominated by the printed length. -/
theorem needPairs_len : ∀ (xs : List (String × GDValue)),
    needPairs xs ≤ 8 * (stringifyPairs xs).toList.length + 2
  | [] => by decide
  | [(k, v)] => by
      have := needV_len v
      simp only [needPairs, stringifyPairs]
      rw [toList_append, toList_append, toList_append]
      simp only [List.length_append]
      have e1 : (("\"" : String).toList.length) = 1 := rfl
      have e2 : (("\": " : String).toList.length) = 3 := rfl
      omega
  | (k, v) :: q :: r => by
      have h1 := needV_len v
      have h2 := needPairs_len (q :: r)
      rw [show needPairs ((k, v) :: q :: r) = needV v + needPairs (q :: r) + 3 from rfl]
      rw [show stringifyPairs ((k, v) :: q :: r) =
        "\"" ++ k ++ "\": " ++ stringifyValue v ++ ",\n" ++ stringifyPairs (q :: r)
        from rfl]
      simp only [toList_append, List.length_append]
      have e1 : (("\"" : String).toList.length) = 1 := rfl
      have e2 : (("\": " : String).toList.length) = 3 := rfl
      have e3 : ((",\n" : String).toList.length) = 2 := rfl
      omega

end

/-- The attribute fuel measure is dominated by the printed length. -/
theorem needAttrs_len : ∀ (attrs : List (String × GDValue)),
    needAttrs attrs ≤ 8 * (attrsChars attrs).length := by
  intro attrs
  induction attrs with
  | nil => decide
  | cons a r ih =>
      have := needV_len a.2
      simp only [needAttrs, attrsChars, attrChars]
      simp only [List.length_cons, List.length_append]
      omega

/-- The entry fuel measure is dominated by the printed length. -/
theorem needEntries_le : ∀ (props : List (String × GDValue)) (t2 : List Char),
    needEntries props + 8 * t2.length ≤ 8 * (entriesTail props t2).length := by
  intro props
  induction props with
  | nil => intro t2; simp [entriesTail, needEntries]
  | cons p ps ih =>
      intro t2
      have h1 := needV_len p.2
      have h2 := ih t2
      simp only [needEntries, entriesTail, entryChars]
      simp only [List.length_append, List.length_cons]
      omega

/-- The section fuel measure is dominated by the printed length. -/
theorem sectionTail_bound (s : GDSection) (t2 : List Char) :
    needSection s + 8 * t2.length + 1 ≤ 8 * (sectionTail s t2).length := by
  have h1 := needAttrs_len s.header.attributes
  have h2 := needEntries_le s.properties t2
  simp only [needSection, needHeader, sectionTail, headerCoreChars]
  simp only [List.length_append, List.length_cons]
  omega

/-- The section-loop fuel measure is dominated by the printed length. -/
theorem needSections_len : ∀ (rest : List GDSection) (s : GDSection),
    needSections (s :: rest) ≤ 8 * (sectionTail s (restSectionsChars rest)).length := by
  intro rest
  induction rest with
  | nil =>
      intro s
      have h0 := sectionTail_bound s (restSectionsChars [])
      simp only [needSections]
      simp only [show restSectionsChars [] = ([] : List Char) from rfl,
        List.length_nil] at h0 ⊢
      omega
  | cons s2 r ih =>
      intro s
      have h1 := sectionTail_bound s (restSectionsChars (s2 :: r))
      have h2 := ih s2
      have h3 : (restSectionsChars (s2 :: r)).length =
          1 + (sectionTail s2 (restSectionsChars r)).length := by
        rw [show restSectionsChars (s2 :: r) =
          '\n' :: sectionTail s2 (restSectionsChars r) from rfl]
        simp [Nat.add_comm]
      simp only [needSections] at h2 ⊢
      omega

/-! ## Claim C1: the serialize-parse round trip -/

/-- C1 (counterexample): the source text storing the string value a"b
parses to a file whose shape satisfies every parser invariant, but
str() of that file re-emits the quote unescaped (stringify_object
performs no escaping), and the printed text fails to parse at all --
so serialize(parse(text)) does not re-parse to an equal File. -/
theorem C1_counterexample :
    parseGDFile srcBad = some fileBad ∧
    wfFileB fileBad = true ∧
    parseGDFile (fileStr fileBad) = none :=
  ⟨by decide, by decide, by decide⟩

/-- C1 (amended): for every file satisfying the parser's shape
invariants (wfFileB, automatic for parser output) together with the
cleanliness conditions (cleanFileB: no quote or backslash inside any
string value, NodePath argument or dict key, no newline inside a dict
key, bare-word property keys, and no object literal named GDObject,
whose printed form re-parses through the registered base-class
constructor and so never reproduces the value), serializing the file
and parsing the result yields the identical file.  The original
unconditional claim is refuted by the counterexample: the serializer
escapes nothing, so a parsed string containing a quote breaks the
round trip. -/
theorem C1_amended (f : GDFile) (hwf : wfFileB f = true)
    (hcl : cleanFileB f = true) : parseGDFile (fileStr f) = some f := by
  obtain ⟨ss⟩ := f
  cases ss with
  | nil => simp [wfFileB, List.isEmpty] at hwf
  | cons s rest =>
      simp only [wfFileB, Bool.and_eq_true] at hwf
      have hwfall := hwf.2
      have hclall : (s :: rest).all cleanSectionB = true := hcl
      unfold parseGDFile
      have hchars : (fileStr ⟨s :: rest⟩).toList =
          sectionTail s (restSectionsChars rest) := fileStr_chars rest s
      simp only [hchars]
      have hfb : needSections (s :: rest) ≤
          8 * ((sectionTail s (restSectionsChars rest)).length + 1) := by
        have := needSections_len rest s
        omega
      have hloop : parseSectionsLoop
          (8 * ((sectionTail s (restSectionsChars rest)).length + 1))
          (sectionTail s (restSectionsChars rest)) = some (s :: rest, []) := by
        have h := roundSections rest s
          (8 * ((sectionTail s (restSectionsChars rest)).length + 1)) [] rfl
          hwfall hclall hfb
        simpa using h
      simp only [hloop]
      rfl

/-- C1 (witness): the amended round trip at the concrete two-node
scene pFile, whose invariants and cleanliness hold by computation. -/
theorem C1_witness :
    wfFileB pFile = true ∧ cleanFileB pFile = true ∧
    parseGDFile (fileStr pFile) = some pFile :=
  ⟨by decide, by decide, C1_amended pFile (by decide) (by decide)⟩

end GodotParser
